import Mathlib

/-! Concurrent directory tree: embedding of `Synchro.c` and `Tree.c`.

C strings are lists of characters, a `struct Synchro` is a record of its
integer and boolean fields, and a `struct Tree` is a node value owning its
children map.  A `Tree *` into the tree rooted at the `tree` argument is the
list of keys leading from the root to the node (`Loc`); dereferencing is
`Tree.get`, a store through the pointer is `Tree.modify`.

The functions of `Tree.c` are run by one thread with no other thread present.
A call that reaches `pthread_cond_wait` therefore never returns; this is the
result `none`.  A call that writes outside the buffer of a string has no
defined result either; this too is `none`.

Several threads at one synchronizer are a step relation (`Sys.step`): a step
is one mutex-protected section of one call of `Synchro.c`, and the counters
are integers without overflow.
-/

namespace DirTree

/-- A NUL-terminated C string, without its terminator. -/
abbrev Str := List Char

/-- A pointer to a node of the tree: the keys leading to it from the root. -/
abbrev Loc := List Str

/-! ## errno values (Linux) and `err.h` -/

def ENOENT : Int := 2
def EBUSY : Int := 16
def EEXIST : Int := 17
def EINVAL : Int := 22
def ENOTEMPTY : Int := 39
/-- From `err.h`: `#define EILLEGALMOVE -1`. -/
def EILLEGALMOVE : Int := -1

/-! ## `path_utils.h` -/

/-- Modelled from the spec: `MAX_NAME` of the path grammar, a constant of the
absent `path_utils.h` ("suggested 255"). -/
def MAX_FOLDER_NAME_LENGTH : Nat := 255

/-- A character allowed in a name: a lowercase letter. -/
def is_name_char (c : Char) : Bool := decide ('a' ≤ c) && decide (c ≤ 'z')

/-- Scans what follows the leading `/` of a path, `n` being the length of the
name read so far: `(name "/")*` with `name := [a-z]{1..MAX_NAME}`. -/
def valid_tail : Nat → Str → Bool
  | n, [] => n == 0
  | n, c :: cs =>
    if c = '/' then decide (1 ≤ n) && valid_tail 0 cs
    else is_name_char c && decide (n < MAX_FOLDER_NAME_LENGTH) && valid_tail (n + 1) cs

/-- Modelled from the spec: `is_path_valid` of the absent `path_utils.c`, after
the normative grammar `path := "/" | ("/" name)+ "/"`,
`name := [a-z]{1..MAX_NAME}`. -/
def is_path_valid (path : Str) : Bool :=
  match path with
  | '/' :: cs => valid_tail 0 cs
  | _ => false

/-- Modelled from the spec: `split_path` of the absent `path_utils.c`, as
`Tree.c` uses it.  For `"/"` it returns NULL (`none`); otherwise it copies the
first name into `component` and returns the rest of the path, which starts at
the second `/`.  The result is `(component, subpath)`. -/
def split_path (path : Str) : Option (Str × Str) :=
  match path with
  | [] => none
  | _ :: rest =>
    match rest.span (fun c => c != '/') with
    | (_, []) => none
    | (component, subpath) => some (component, subpath)

/-- Modelled from the spec: `make_path_to_parent` of the absent `path_utils.c`
("split path into parent-path + name; the name is absent for `/`").  For `"/"`
it returns NULL (`none`); otherwise the result is `(path to parent, component)`
with `component` the last name of `path`. -/
def make_path_to_parent (path : Str) : Option (Str × Str) :=
  if path.length ≤ 1 then none
  else
    let body := path.dropLast
    let component := (body.reverse.takeWhile (fun c => c != '/')).reverse
    some (body.take (body.length - component.length), component)

/-- A `char *` into the heap: a buffer of `size` bytes obtained from `malloc`
that holds the string `str` and its terminator. -/
structure Buf where
  size : Nat
  str : Str
deriving DecidableEq, Repr

/-- `malloc(strlen(s) + 1)` followed by `strcpy` of `s` into the new buffer. -/
def strdup_exact (s : Str) : Buf := { size := s.length + 1, str := s }

/-- `strcpy(dest, src)`: `src` and its terminator are written into the buffer
`dest`.  When they do not fit, the write runs past the end of the buffer and
the behaviour is undefined (`none`). -/
def strcpy (dest : Buf) (src : Str) : Option Buf :=
  if src.length + 1 ≤ dest.size then some { dest with str := src } else none

/-- `strcmp(a, b) == 0`. -/
def strcmp_eq (a b : Str) : Bool := decide (a = b)

/-- `strncmp(a, b, n) == 0`: the first `n` characters agree (a string shorter
than `n` is compared up to its end). -/
def strncmp_eq (a b : Str) (n : Nat) : Bool := decide (a.take n = b.take n)

/-! ## `Synchro.h` -/

/-- The non-pthread fields of `struct Synchro`. -/
structure Synchro where
  accessing_count : Int
  accessing_waiting : Int
  modifying_waiting : Int
  is_modifying : Bool
  how_many_to_wake : Int
  modify_now : Bool
  want_to_be_removed : Bool
deriving DecidableEq, Repr

/-- State written by `synchro_init`. -/
def synchro_init : Synchro :=
  { accessing_count := 0, accessing_waiting := 0, modifying_waiting := 0,
    is_modifying := false, how_many_to_wake := 0, modify_now := false,
    want_to_be_removed := false }

/-- Loop condition of `synchro_visit`. -/
def visit_must_wait (s : Synchro) : Bool :=
  s.is_modifying || s.modify_now || s.modifying_waiting != 0

/-- `synchro_visit` run by a lone thread: with the loop condition true the
thread sleeps in `pthread_cond_wait` for good. -/
def synchro_visit (s : Synchro) : Option Synchro :=
  if visit_must_wait s then none
  else some { s with accessing_count := s.accessing_count + 1 }

/-- `synchro_leave_after_visiting`; the broadcasts leave the fields alone. -/
def synchro_leave_after_visiting (s : Synchro) : Synchro :=
  let s1 := { s with accessing_count := s.accessing_count - 1 }
  if s1.accessing_count == 0 && s1.how_many_to_wake == 0 && decide (s1.modifying_waiting > 0)
  then { s1 with modify_now := true }
  else s1

/-- Loop condition of `synchro_modify_while_holding_mutex`. -/
def modify_must_wait (s : Synchro) : Bool :=
  !s.modify_now &&
    (decide (s.accessing_count > 0) || s.is_modifying || decide (s.how_many_to_wake > 0))

/-- `synchro_modify_while_holding_mutex` run by a lone thread. -/
def synchro_modify_while_holding_mutex (s : Synchro) : Option Synchro :=
  if modify_must_wait s then none
  else some { s with modify_now := false, is_modifying := true }

/-- `synchro_change_from_visiting_to_mod`. -/
def synchro_change_from_visiting_to_mod (s : Synchro) : Option Synchro :=
  synchro_modify_while_holding_mutex { s with accessing_count := s.accessing_count - 1 }

/-- `synchro_modify`. -/
def synchro_modify (s : Synchro) : Option Synchro :=
  synchro_modify_while_holding_mutex s

/-- `synchro_leave_after_modifying`. -/
def synchro_leave_after_modifying (s : Synchro) : Synchro :=
  let s1 := { s with is_modifying := false }
  if s1.accessing_waiting > 0 then { s1 with how_many_to_wake := s1.accessing_waiting }
  else if s1.modifying_waiting > 0 then { s1 with modify_now := true }
  else s1

/-- Loop condition of `synchro_prepare_for_being_removed`. -/
def remove_must_wait (s : Synchro) : Bool :=
  s.accessing_count != 0 || s.is_modifying || s.modifying_waiting != 0 ||
    s.accessing_waiting != 0

/-- `synchro_prepare_for_being_removed` run by a lone thread. -/
def synchro_prepare_for_being_removed (s : Synchro) : Option Synchro :=
  let s1 := { s with want_to_be_removed := true }
  if remove_must_wait s1 then none else some s1

/-- `synchro_leave_after_bad_remove`. -/
def synchro_leave_after_bad_remove (s : Synchro) : Synchro :=
  { s with want_to_be_removed := false }

/-! ## `Tree.h` and `HashMap.h` -/

mutual
/-- `struct Tree`: `name` is NULL (`none`) for the root made by `tree_new`. -/
inductive Tree where
  | mk (name : Option Buf) (synchronizer : Synchro) (children : HashMap) : Tree
deriving DecidableEq
/-- Modelled from the spec: the absent `HashMap`, "an unordered mapping from
child name to child node with standard single-threaded semantics".  The
entries are kept in increasing key order, so that equal maps are equal
values. -/
inductive HashMap where
  | nil : HashMap
  | cons (key : Str) (value : Tree) (rest : HashMap) : HashMap
deriving DecidableEq
end

/-- Field `name`. -/
def Tree.name : Tree → Option Buf
  | .mk n _ _ => n

/-- Field `synchronizer`. -/
def Tree.synchronizer : Tree → Synchro
  | .mk _ s _ => s

/-- Field `children`. -/
def Tree.children : Tree → HashMap
  | .mk _ _ c => c

/-- Assignment to the field `synchronizer`. -/
def Tree.setSynchronizer (s : Synchro) : Tree → Tree
  | .mk n _ c => .mk n s c

/-- Assignment to the field `children`. -/
def Tree.setChildren (c : HashMap) : Tree → Tree
  | .mk n s _ => .mk n s c

/-- Assignment to the field `name`. -/
def Tree.setName (n : Buf) : Tree → Tree
  | .mk _ s c => .mk (some n) s c

/-- Modelled from the spec: `hmap_new`, the empty map. -/
def hmap_new : HashMap := .nil

/-- Modelled from the spec: `hmap_get`, the value stored under `key` or NULL. -/
def hmap_get : HashMap → Str → Option Tree
  | .nil, _ => none
  | .cons k v r, key => if key = k then some v else hmap_get r key

/-- Modelled from the spec: `hmap_insert`, which adds the entry unless the key
is present. -/
def hmap_insert : HashMap → Str → Tree → HashMap
  | .nil, key, value => .cons key value .nil
  | .cons k v r, key, value =>
    if key < k then .cons key value (.cons k v r)
    else if key = k then .cons k v r
    else .cons k v (hmap_insert r key value)

/-- Modelled from the spec: `hmap_remove`, after which `key` has no entry. -/
def hmap_remove : HashMap → Str → HashMap
  | .nil, _ => .nil
  | .cons k v r, key => if key = k then hmap_remove r key else .cons k v (hmap_remove r key)

/-- Modelled from the spec: `hmap_size`, the number of entries. -/
def hmap_size : HashMap → Nat
  | .nil => 0
  | .cons _ _ r => hmap_size r + 1

/-- The keys of a map, in iteration order. -/
def hmap_keys : HashMap → List Str
  | .nil => []
  | .cons k _ r => k :: hmap_keys r

/-- A store through a child pointer: the value under `key` is replaced. -/
def hmap_put : HashMap → Str → Tree → HashMap
  | .nil, _, _ => .nil
  | .cons k v r, key, value =>
    if key = k then .cons k value r else .cons k v (hmap_put r key value)

/-- Modelled from the spec: `make_map_contents_string` of the absent
`path_utils.c`: "child names concatenated with a single `,` separator, no
trailing separator, empty string when the directory has no children". -/
def make_map_contents_string (m : HashMap) : Str :=
  [','].intercalate (hmap_keys m)

/-- Dereference of the pointer `loc` in the tree `t`. -/
def Tree.get (t : Tree) : Loc → Option Tree
  | [] => some t
  | c :: cs =>
    match hmap_get t.children c with
    | none => none
    | some child => child.get cs

/-- Store through the pointer `loc`: the node it points to becomes `f node`. -/
def Tree.modify (f : Tree → Tree) : Loc → Tree → Tree
  | [], t => f t
  | c :: cs, t =>
    match hmap_get t.children c with
    | none => t
    | some child => t.setChildren (hmap_put t.children c (Tree.modify f cs child))

/-- A call `op(&(node->synchronizer))` that may sleep, `node` being at `loc`. -/
def sync_wait (op : Synchro → Option Synchro) (t : Tree) (loc : Loc) : Option Tree :=
  match t.get loc with
  | none => none
  | some node =>
    match op node.synchronizer with
    | none => none
    | some s => some (t.modify (Tree.setSynchronizer s) loc)

/-- A call `op(&(node->synchronizer))` that never sleeps, `node` being at `loc`. -/
def sync_call (op : Synchro → Synchro) (t : Tree) (loc : Loc) : Option Tree :=
  sync_wait (fun s => some (op s)) t loc

/-! ## `Tree.c` -/

/-- `tree_new`: a node without name and without children. -/
def tree_new : Tree := .mk none synchro_init hmap_new

/-- The loop of `synchro_get_to_path`; `step` is what the last `split_path`
returned.  Every `split_path` shortens the path, so `fuel` at least the length
of the path is never used up. -/
def synchro_get_to_path_loop :
    Nat → Tree → Loc → Option (Str × Str) → Option (Int × Loc × Tree)
  | _, t, cur_folder, none => some (0, cur_folder, t)
  | 0, _, _, some _ => none
  | fuel + 1, t, cur_folder, some (component, subpath) =>
    match t.get cur_folder with
    | none => none
    | some prev_folder =>
      match hmap_get prev_folder.children component with
      | none => some (ENOENT, cur_folder, t)
      | some _ =>
        match sync_wait synchro_visit t (cur_folder ++ [component]) with
        | none => none
        | some t1 =>
          match sync_call synchro_leave_after_visiting t1 cur_folder with
          | none => none
          | some t2 =>
            synchro_get_to_path_loop fuel t2 (cur_folder ++ [component]) (split_path subpath)

/-- `synchro_get_to_path`: the result is the return value, the new
`*cur_folder` and the tree. -/
def synchro_get_to_path (t : Tree) (cur_folder : Loc) (path : Str) :
    Option (Int × Loc × Tree) :=
  synchro_get_to_path_loop path.length t cur_folder (split_path path)

/-- `tree_list`: the result is the returned string (`none` for NULL) and the
tree. -/
def tree_list (tree : Tree) (path : Str) : Option (Option Str × Tree) :=
  if !is_path_valid path then some (none, tree)
  else
    match sync_wait synchro_visit tree [] with
    | none => none
    | some t1 =>
      match synchro_get_to_path t1 [] path with
      | none => none
      | some (r, cur_folder, t2) =>
        if r = ENOENT then
          match sync_call synchro_leave_after_visiting t2 cur_folder with
          | none => none
          | some t3 => some (none, t3)
        else
          match t2.get cur_folder with
          | none => none
          | some node =>
            let result := make_map_contents_string node.children
            match sync_call synchro_leave_after_visiting t2 cur_folder with
            | none => none
            | some t3 => some (some result, t3)

/-- `tree_create`: the result is the return value and the tree. -/
def tree_create (tree : Tree) (path : Str) : Option (Int × Tree) :=
  if !is_path_valid path then some (EINVAL, tree)
  else
    match make_path_to_parent path with
    | none => some (EEXIST, tree)
    | some (subpath, folder_name) =>
      match sync_wait synchro_visit tree [] with
      | none => none
      | some t1 =>
        match synchro_get_to_path t1 [] subpath with
        | none => none
        | some (r, cur_folder, t2) =>
          if r = ENOENT then
            match sync_call synchro_leave_after_visiting t2 cur_folder with
            | none => none
            | some t3 => some (ENOENT, t3)
          else
            match sync_wait synchro_change_from_visiting_to_mod t2 cur_folder with
            | none => none
            | some t3 =>
              match t3.get cur_folder with
              | none => none
              | some node =>
                if (hmap_get node.children folder_name).isSome then
                  match sync_call synchro_leave_after_modifying t3 cur_folder with
                  | none => none
                  | some t4 => some (EEXIST, t4)
                else
                  let new_folder := tree_new.setName (strdup_exact folder_name)
                  let t4 := t3.modify
                    (fun n => n.setChildren (hmap_insert n.children folder_name new_folder))
                    cur_folder
                  match sync_call synchro_leave_after_modifying t4 cur_folder with
                  | none => none
                  | some t5 => some (0, t5)

/-- `tree_remove`: the result is the return value and the tree. -/
def tree_remove (tree : Tree) (path : Str) : Option (Int × Tree) :=
  if !is_path_valid path then some (EINVAL, tree)
  else
    match make_path_to_parent path with
    | none => some (EBUSY, tree)
    | some (subpath, folder_name) =>
      match sync_wait synchro_visit tree [] with
      | none => none
      | some t1 =>
        match synchro_get_to_path t1 [] subpath with
        | none => none
        | some (r, cur_folder, t2) =>
          if r = ENOENT then
            match sync_call synchro_leave_after_visiting t2 cur_folder with
            | none => none
            | some t3 => some (ENOENT, t3)
          else
            match sync_wait synchro_change_from_visiting_to_mod t2 cur_folder with
            | none => none
            | some t3 =>
              match t3.get cur_folder with
              | none => none
              | some node =>
                match hmap_get node.children folder_name with
                | none =>
                  match sync_call synchro_leave_after_modifying t3 cur_folder with
                  | none => none
                  | some t4 => some (ENOENT, t4)
                | some _ =>
                  let folder_to_delete := cur_folder ++ [folder_name]
                  match sync_wait synchro_prepare_for_being_removed t3 folder_to_delete with
                  | none => none
                  | some t4 =>
                    match t4.get folder_to_delete with
                    | none => none
                    | some victim =>
                      if hmap_size victim.children = 0 then
                        let t5 := t4.modify
                          (fun n => n.setChildren (hmap_remove n.children folder_name))
                          cur_folder
                        -- the victim is detached; it is locked, unlocked and destroyed
                        match synchro_modify victim.synchronizer with
                        | none => none
                        | some _ =>
                          match sync_call synchro_leave_after_modifying t5 cur_folder with
                          | none => none
                          | some t6 => some (0, t6)
                      else
                        match sync_call synchro_leave_after_bad_remove t4 folder_to_delete with
                        | none => none
                        | some t5 =>
                          match sync_call synchro_leave_after_modifying t5 cur_folder with
                          | none => none
                          | some t6 => some (ENOTEMPTY, t6)

/-- The loop of `get_lca_path_length`.  Every round shortens `first`, so `fuel`
at least its length is never used up. -/
def get_lca_path_length_loop : Nat → Str → Str → Nat
  | 0, _, _ => 0
  | fuel + 1, subpath1, subpath2 =>
    match split_path subpath1 with
    | none => 0
    | some (component1, rest1) =>
      match split_path subpath2 with
      | none => 0
      | some (component2, rest2) =>
        if strcmp_eq component1 component2 then get_lca_path_length_loop fuel rest1 rest2 + 1
        else 0

/-- `get_lca_path_length`: the number of leading names the two paths share. -/
def get_lca_path_length (first second : Str) : Nat :=
  get_lca_path_length_loop first.length first second

/-- The statement `if (!is_father_the_lca) op(&(folder->synchronizer));`. -/
def sync_call_unless (is_father_the_lca : Bool) (op : Synchro → Synchro) (t : Tree)
    (folder : Loc) : Option Tree :=
  if is_father_the_lca then some t else sync_call op t folder

/-- The statement `if (!is_father_the_lca) op(&(folder->synchronizer));` for a
call that may sleep. -/
def sync_wait_unless (is_father_the_lca : Bool) (op : Synchro → Option Synchro) (t : Tree)
    (folder : Loc) : Option Tree :=
  if is_father_the_lca then some t else sync_wait op t folder

/-- `tree_move`, lines 377-392: `child` is detached from `cur_folder`, renamed
and inserted into `dest_folder`, and all locks are released.  The pointer
`child` is `dest_folder/new_name` after the insertion; the value model is exact
when `child->name` is the key `child` is stored under.  The new name is copied
into the buffer the node got for its first name. -/
def tree_move_relink (new_name : Str) (t : Tree) (lca dest_folder cur_folder : Loc)
    (is_father_dest_the_lca is_father_source_the_lca : Bool) (child : Tree) :
    Option (Int × Tree) :=
  match child.name with
  | none => none
  | some child_name =>
    let t3 := t.modify (fun n => n.setChildren (hmap_remove n.children child_name.str))
      cur_folder
    match synchro_modify child.synchronizer with
    | none => none
    | some s =>
      match strcpy child_name new_name with
      | none => none
      | some renamed =>
        let child1 := (child.setSynchronizer s).setName renamed
        let t4 := t3.modify
          (fun n => n.setChildren (hmap_insert n.children renamed.str child1)) dest_folder
        match sync_call synchro_leave_after_modifying t4 (dest_folder ++ [new_name]) with
        | none => none
        | some t5 =>
          match sync_call synchro_leave_after_modifying t5 lca with
          | none => none
          | some t6 =>
            match sync_call_unless is_father_dest_the_lca synchro_leave_after_modifying
                t6 dest_folder with
            | none => none
            | some t7 =>
              match sync_call_unless is_father_source_the_lca
                  synchro_leave_after_modifying t7 cur_folder with
              | none => none
              | some t8 => some (0, t8)

/-- `tree_move`, lines 353-375: both parents are reached; they are locked for
writing and the source is looked up. -/
def tree_move_finish (new_name to_move : Str) (t : Tree) (lca dest_folder cur_folder : Loc)
    (is_father_dest_the_lca is_father_source_the_lca : Bool) : Option (Int × Tree) :=
  let locked :=
    if cur_folder != dest_folder then
      match sync_wait_unless is_father_dest_the_lca synchro_change_from_visiting_to_mod
          t dest_folder with
      | none => none
      | some t1 =>
        sync_wait_unless is_father_source_the_lca synchro_change_from_visiting_to_mod
          t1 cur_folder
    else some t
  match locked with
  | none => none
  | some t2 =>
    match t2.get cur_folder with
    | none => none
    | some parent =>
      match hmap_get parent.children to_move with
      | none =>
        match sync_call synchro_leave_after_modifying t2 lca with
        | none => none
        | some t3 =>
          match sync_call_unless is_father_dest_the_lca synchro_leave_after_modifying
              t3 dest_folder with
          | none => none
          | some t4 =>
            match sync_call_unless is_father_source_the_lca synchro_leave_after_modifying
                t4 cur_folder with
            | none => none
            | some t5 => some (ENOENT, t5)
      | some child =>
        tree_move_relink new_name t2 lca dest_folder cur_folder is_father_dest_the_lca
          is_father_source_the_lca child

/-- `tree_move`, lines 323-351: the descent from the lca to the parent of the
source; `source` is the path from the lca. -/
def tree_move_source (new_name to_move : Str) (t : Tree) (lca dest_folder : Loc)
    (is_father_dest_the_lca : Bool) (source : Str) : Option (Int × Tree) :=
  match split_path source with
  | none => tree_move_finish new_name to_move t lca dest_folder lca is_father_dest_the_lca true
  | some (component, subpath) =>
    match t.get lca with
    | none => none
    | some node =>
      match hmap_get node.children component with
      | none =>
        match sync_call synchro_leave_after_modifying t lca with
        | none => none
        | some t1 =>
          match sync_call_unless is_father_dest_the_lca synchro_leave_after_visiting
              t1 dest_folder with
          | none => none
          | some t2 => some (ENOENT, t2)
      | some _ =>
        match sync_wait synchro_visit t (lca ++ [component]) with
        | none => none
        | some t1 =>
          match synchro_get_to_path t1 (lca ++ [component]) subpath with
          | none => none
          | some (r, cur_folder, t2) =>
            if r = ENOENT then
              match sync_call synchro_leave_after_modifying t2 lca with
              | none => none
              | some t3 =>
                match sync_call_unless is_father_dest_the_lca synchro_leave_after_visiting
                    t3 dest_folder with
                | none => none
                | some t4 =>
                  match sync_call synchro_leave_after_visiting t4 cur_folder with
                  | none => none
                  | some t5 => some (ENOENT, t5)
            else
              tree_move_finish new_name to_move t2 lca dest_folder cur_folder
                is_father_dest_the_lca false

/-- `tree_move`, lines 312-321: the target must not exist. -/
def tree_move_target_free (new_name to_move : Str) (t : Tree) (lca dest_folder : Loc)
    (is_father_dest_the_lca : Bool) (source : Str) : Option (Int × Tree) :=
  match t.get dest_folder with
  | none => none
  | some node =>
    if (hmap_get node.children new_name).isSome then
      match sync_call synchro_leave_after_modifying t lca with
      | none => none
      | some t1 =>
        match sync_call_unless is_father_dest_the_lca synchro_leave_after_visiting
            t1 dest_folder with
        | none => none
        | some t2 => some (EEXIST, t2)
    else tree_move_source new_name to_move t lca dest_folder is_father_dest_the_lca source

/-- `tree_move`, lines 278-310: the lca is locked for writing and the parent of
the target is reached from it; `source` and `target` are paths from the lca. -/
def tree_move_dest (new_name to_move : Str) (t : Tree) (lca : Loc) (source target : Str) :
    Option (Int × Tree) :=
  match sync_wait synchro_change_from_visiting_to_mod t lca with
  | none => none
  | some t1 =>
    match split_path target with
    | none => tree_move_target_free new_name to_move t1 lca lca true source
    | some (component, subpath) =>
      match t1.get lca with
      | none => none
      | some node =>
        match hmap_get node.children component with
        | none =>
          match sync_call synchro_leave_after_modifying t1 lca with
          | none => none
          | some t2 => some (ENOENT, t2)
        | some _ =>
          match sync_wait synchro_visit t1 (lca ++ [component]) with
          | none => none
          | some t2 =>
            match synchro_get_to_path t2 (lca ++ [component]) subpath with
            | none => none
            | some (r, dest_folder, t3) =>
              if r = ENOENT then
                match sync_call synchro_leave_after_modifying t3 lca with
                | none => none
                | some t4 =>
                  match sync_call synchro_leave_after_visiting t4 dest_folder with
                  | none => none
                  | some t5 => some (ENOENT, t5)
              else tree_move_target_free new_name to_move t3 lca dest_folder false source

/-- `tree_move`, lines 258-276: the hand-over-hand walk to the lca.  `step` is
what the last `split_path` on `subpath` returned; `source` and `target` lose
one name per round. -/
def tree_move_lca_loop (new_name to_move : Str) :
    Nat → Tree → Loc → Str → Str → Option (Str × Str) → Option (Int × Tree)
  | lca_path + 1, t, lca, source, target, some (component, subpath) =>
    match t.get lca with
    | none => none
    | some prev_folder =>
      match hmap_get prev_folder.children component with
      | none =>
        match sync_call synchro_leave_after_visiting t lca with
        | none => none
        | some t1 => some (ENOENT, t1)
      | some _ =>
        match sync_wait synchro_visit t (lca ++ [component]) with
        | none => none
        | some t1 =>
          match sync_call synchro_leave_after_visiting t1 lca with
          | none => none
          | some t2 =>
            match split_path source, split_path target with
            | some (_, source1), some (_, target1) =>
              tree_move_lca_loop new_name to_move lca_path t2 (lca ++ [component])
                source1 target1 (split_path subpath)
            | _, _ => none
  | _, t, lca, source, target, _ => tree_move_dest new_name to_move t lca source target

/-- `tree_move`: the result is the return value and the tree. -/
def tree_move (tree : Tree) (source target : Str) : Option (Int × Tree) :=
  if !is_path_valid source || !is_path_valid target then some (EINVAL, tree)
  else if strcmp_eq source ['/'] then some (EBUSY, tree)
  else if strcmp_eq target ['/'] then some (EEXIST, tree)
  else if strncmp_eq source target source.length then some (EILLEGALMOVE, tree)
  else
    match sync_wait synchro_visit tree [] with
    | none => none
    | some t1 =>
      match make_path_to_parent target, make_path_to_parent source with
      | some (target1, new_name), some (source1, to_move) =>
        tree_move_lca_loop new_name to_move (get_lca_path_length source1 target1) t1 []
          source1 target1 (split_path source1)
      | _, _ => none

/-! ## Paths as lists of names -/

/-- What follows the leading `/` of the path with the names `cs`. -/
def path_tail : List Str → Str
  | [] => []
  | c :: cs => c ++ '/' :: path_tail cs

/-- The path string with the names `cs`: `/name1/name2/.../`. -/
def path_of (cs : List Str) : Str := '/' :: path_tail cs

/-- Collects the names of what follows the leading `/`; `acc` is the name read
so far, reversed. -/
def names_from : Str → Str → List Str
  | _, [] => []
  | acc, c :: cs => if c = '/' then acc.reverse :: names_from [] cs else names_from (c :: acc) cs

/-- The names of a path, in order. -/
def path_names (p : Str) : List Str :=
  match p with
  | [] => []
  | _ :: cs => names_from [] cs

/-- The names leading to the parent of the node a path denotes. -/
def parent_names (p : Str) : Loc := (path_names p).dropLast

/-- The last name of a path. -/
def last_name (p : Str) : Str := (path_names p).getLastD []

/-- A name of the grammar: `[a-z]{1..MAX_NAME}`. -/
def good_name (c : Str) : Prop :=
  c ≠ [] ∧ c.length ≤ MAX_FOLDER_NAME_LENGTH ∧ ∀ x ∈ c, is_name_char x = true

/-! ## Predicates on trees -/

mutual
/-- Every synchronizer of the tree is in the state written by `synchro_init`:
no thread is inside the tree. -/
def Tree.idle : Tree → Bool
  | .mk _ s c => decide (s = synchro_init) && HashMap.idle c
/-- Every synchronizer below the map is in the state written by `synchro_init`. -/
def HashMap.idle : HashMap → Bool
  | .nil => true
  | .cons _ v r => Tree.idle v && HashMap.idle r
end

/-- Every key of the map is greater than `k` (for a sorted map: the first is). -/
def HashMap.above (k : Str) : HashMap → Bool
  | .nil => true
  | .cons k1 _ _ => decide (k < k1)

/-- The node holds the string `k` as its name, inside the buffer of the name. -/
def Tree.named (t : Tree) (k : Str) : Bool :=
  match t.name with
  | none => false
  | some b => decide (b.str = k) && decide (k.length + 1 ≤ b.size)

mutual
/-- The invariants of the data model below a node: in every children map each
key occurs once (the entries are in increasing key order) and each child is
stored under its own `name`, which lies inside its buffer. -/
def Tree.wf : Tree → Bool
  | .mk _ _ c => HashMap.wf c
/-- The invariants of the data model for a children map and the nodes below. -/
def HashMap.wf : HashMap → Bool
  | .nil => true
  | .cons k v r => v.named k && Tree.wf v && HashMap.above k r && HashMap.wf r
end

mutual
/-- The number of nodes of the tree. -/
def Tree.size : Tree → Nat
  | .mk _ _ c => HashMap.size c + 1
/-- The number of nodes stored in or below the map. -/
def HashMap.size : HashMap → Nat
  | .nil => 0
  | .cons _ v r => Tree.size v + HashMap.size r
end

/-- The fields of a node other than its children map. -/
def Tree.label (t : Tree) : Option Buf × Synchro := (t.name, t.synchronizer)

/-- The synchronizer of a node that one reader is visiting and nobody else uses. -/
def synchro_visited : Synchro := { synchro_init with accessing_count := 1 }

/-- The synchronizer of a node that one writer holds and nobody else uses. -/
def synchro_modified : Synchro := { synchro_init with is_modifying := true }

/-- The longest beginning of the names `cs` that can be followed from `t`. -/
def Tree.reach (t : Tree) : Loc → Loc
  | [] => []
  | c :: cs =>
    match hmap_get t.children c with
    | none => []
    | some child => c :: child.reach cs

/-- The synchronizer of an unused node that is flagged for removal. -/
def synchro_flagged : Synchro := { synchro_init with want_to_be_removed := true }

/-- The tree `t` with the node at `p` replaced by `n`. -/
def Tree.set (t : Tree) (p : Loc) (n : Tree) : Tree := Tree.modify (fun _ => n) p t

/-! ## Trees used as concrete inputs -/

/-- The tree with the one directory `/a/`, as `tree_create` makes it. -/
def tree_a : Tree :=
  .mk none synchro_init (.cons ['a'] (.mk (some (strdup_exact ['a'])) synchro_init .nil) .nil)

/-- The tree with the directories `/a/` and `/a/b/`, as `tree_create` makes it. -/
def tree_ab : Tree :=
  .mk none synchro_init (.cons ['a'] (.mk (some (strdup_exact ['a'])) synchro_init
    (.cons ['b'] (.mk (some (strdup_exact ['b'])) synchro_init .nil) .nil)) .nil)

/-! ## The outcome of `tree_move` -/

/-- The node with the string in the buffer of its name replaced by `n`. -/
def Tree.rename (n : Str) : Tree → Tree
  | .mk (some b) s c => .mk (some { b with str := n }) s c
  | .mk none s c => .mk none s c

/-- The store of `tree_move` into the parent of the target. -/
def move_insert (tn : Str) (child : Tree) (k : Tree) : Tree :=
  k.setChildren (hmap_insert k.children tn (child.rename tn))

/-- The store of `tree_move` into the parent of the source. -/
def move_remove (sn : Str) (k : Tree) : Tree :=
  k.setChildren (hmap_remove k.children sn)

/-- What `tree_move` returns once the target is known to be free: `r` is the
result, `t` the tree before the call, `parent` the node the parent path of the
source resolves to, `sn` and `tn` the names of the source and of the target and
`final child` the tree after a move of the node `child`.  A source stored
under its own name is moved when the target name fits into the buffer of its
name; otherwise there is no result. -/
def source_outcome (r : Option (Int × Tree)) (t : Tree) (parent : Option Tree) (tn sn : Str)
    (final : Tree → Tree) : Prop :=
  match parent with
  | none => r = some (ENOENT, t)
  | some p =>
    match hmap_get p.children sn with
    | none => r = some (ENOENT, t)
    | some child =>
      (∀ code t1, r = some (code, t1) → code = 0) ∧
        ∀ b, child.name = some b → b.str = sn →
          (tn.length + 1 ≤ b.size → r = some (0, final child)) ∧
          (b.size < tn.length + 1 → r = none)

/-- What `tree_move` returns once its paths have passed the validation: `dest`
and `parent` are the nodes the parent paths of the target and of the source
resolve to. -/
def move_outcome (r : Option (Int × Tree)) (t : Tree) (dest parent : Option Tree)
    (tn sn : Str) (final : Tree → Tree) : Prop :=
  match dest with
  | none => r = some (ENOENT, t)
  | some d =>
    if (hmap_get d.children tn).isSome = true then r = some (EEXIST, t)
    else source_outcome r t parent tn sn final

/-- The names two lists of names begin with in common. -/
def common_names : Loc → Loc → Loc
  | a :: as, b :: bs => if a = b then a :: common_names as bs else []
  | _, _ => []

/-- The tree with the directories `/a/`, `/a/x/` and `/b/`, as `tree_create`
makes it. -/
def tree_axb : Tree :=
  .mk none synchro_init
    (.cons ['a'] (.mk (some (strdup_exact ['a'])) synchro_init
      (.cons ['x'] (.mk (some (strdup_exact ['x'])) synchro_init .nil) .nil))
    (.cons ['b'] (.mk (some (strdup_exact ['b'])) synchro_init .nil) .nil))

/-- The tree with the directories `/a/`, `/b/` and `/b/y/`, the last one being
the node that `tree_create` made for `/a/x/`. -/
def tree_aby : Tree :=
  .mk none synchro_init
    (.cons ['a'] (.mk (some (strdup_exact ['a'])) synchro_init .nil)
    (.cons ['b'] (.mk (some (strdup_exact ['b'])) synchro_init
      (.cons ['y'] (.mk (some { size := 2, str := ['y'] }) synchro_init .nil) .nil)) .nil))

/-! ## The trees one thread can build -/

/-- The trees that calls of one thread make from the tree of `tree_new`. -/
inductive Built : Tree → Prop
  | new : Built tree_new
  | create (t : Tree) (p : Str) (r : Int) (t1 : Tree) :
      Built t → tree_create t p = some (r, t1) → Built t1
  | remove (t : Tree) (p : Str) (r : Int) (t1 : Tree) :
      Built t → tree_remove t p = some (r, t1) → Built t1
  | move (t : Tree) (source target : Str) (r : Int) (t1 : Tree) :
      Built t → tree_move t source target = some (r, t1) → Built t1


/-! ## The mutex-protected sections of `Synchro.c`

With several threads a call of the synchronizer that waits is a sequence of
sections, each run with the mutex held: from `pthread_mutex_lock` to the first
`pthread_cond_wait` or to the unlock, and from the return of a
`pthread_cond_wait` to the next one or to the unlock.  A section gives the new
fields and whether the call has returned (`false`: the thread sleeps). -/

/-- The condition variables of `struct Synchro`. -/
inductive Cond
  | can_modify
  | can_access
  | can_be_removed
deriving DecidableEq, Repr

/-- `synchro_visit` from the lock (line 45) to the first wait or to the unlock. -/
def synchro_visit_arrive (s : Synchro) : Synchro × Bool :=
  if visit_must_wait s then ({ s with accessing_waiting := s.accessing_waiting + 1 }, false)
  else ({ s with accessing_count := s.accessing_count + 1 }, true)

/-- `synchro_visit` from the return of `pthread_cond_wait` (line 58) to the next
wait or to the unlock: with `how_many_to_wake > 0` the loop is left by `break`,
otherwise its condition is evaluated again. -/
def synchro_visit_wake (s : Synchro) : Synchro × Bool :=
  let s1 := { s with accessing_waiting := s.accessing_waiting - 1 }
  if s1.how_many_to_wake > 0 then
    ({ s1 with how_many_to_wake := s1.how_many_to_wake - 1,
               accessing_count := s1.accessing_count + 1 }, true)
  else synchro_visit_arrive s1

/-- `synchro_modify_while_holding_mutex` from its first line to the first wait
or to its end. -/
def synchro_modify_arrive (s : Synchro) : Synchro × Bool :=
  if modify_must_wait s then ({ s with modifying_waiting := s.modifying_waiting + 1 }, false)
  else ({ s with modify_now := false, is_modifying := true }, true)

/-- `synchro_modify_while_holding_mutex` from the return of `pthread_cond_wait`
(line 117) to the next wait or to its end. -/
def synchro_modify_wake (s : Synchro) : Synchro × Bool :=
  synchro_modify_arrive { s with modifying_waiting := s.modifying_waiting - 1 }

/-- `synchro_change_from_visiting_to_mod` from the lock to the first wait or to
the unlock. -/
def synchro_change_arrive (s : Synchro) : Synchro × Bool :=
  synchro_modify_arrive { s with accessing_count := s.accessing_count - 1 }

/-- `synchro_prepare_for_being_removed` from the lock to the first wait or to
the unlock. -/
def synchro_prepare_arrive (s : Synchro) : Synchro × Bool :=
  let s1 := { s with want_to_be_removed := true }
  (s1, !remove_must_wait s1)

/-- `synchro_prepare_for_being_removed` from the return of `pthread_cond_wait`
to the next wait or to the unlock. -/
def synchro_prepare_wake (s : Synchro) : Synchro × Bool :=
  (s, !remove_must_wait s)

/-- The condition variable `synchro_leave_after_visiting` broadcasts on. -/
def synchro_leave_after_visiting_broadcast (s : Synchro) : Option Cond :=
  let s1 := { s with accessing_count := s.accessing_count - 1 }
  if s1.accessing_count == 0 && s1.how_many_to_wake == 0 && decide (s1.modifying_waiting > 0)
  then some .can_modify
  else if s1.accessing_count == 0 && s1.accessing_waiting == 0 &&
      s1.modifying_waiting == 0 && s1.want_to_be_removed
  then some .can_be_removed
  else none

/-- The condition variable `synchro_leave_after_modifying` broadcasts on. -/
def synchro_leave_after_modifying_broadcast (s : Synchro) : Option Cond :=
  let s1 := { s with is_modifying := false }
  if s1.accessing_waiting > 0 then some .can_access
  else if s1.modifying_waiting > 0 then some .can_modify
  else if s1.accessing_waiting == 0 && s1.modifying_waiting == 0 && s1.want_to_be_removed
  then some .can_be_removed
  else none

/-- `synchro_leave_after_visiting` followed by `synchro_modify`, as the comment
of `synchro_change_from_visiting_to_mod` in `Synchro.h` puts it. -/
def leave_then_modify (s : Synchro) : Option Synchro :=
  synchro_modify (synchro_leave_after_visiting s)

/-- The synchronizer after `synchro_init` and `synchro_prepare_for_being_removed`
with one reader inside. -/
def synchro_flagged_visited : Synchro :=
  { synchro_init with want_to_be_removed := true, accessing_count := 1 }

/-- A synchronizer held by a writer, with two readers and one writer waiting. -/
def synchro_writer_and_queue : Synchro :=
  { synchro_init with is_modifying := true, accessing_waiting := 2, modifying_waiting := 1 }

/-- A synchronizer with one reader inside and one writer waiting. -/
def synchro_last_reader : Synchro :=
  { synchro_init with accessing_count := 1, modifying_waiting := 1 }

/-! ## The permit operations of the descent -/

/-- A permit operation of the caller: `synchro_visit` or
`synchro_leave_after_visiting` on the synchronizer of the node at a pointer. -/
inductive PermitOp
  | acquire_read (node : Loc)
  | release_read (node : Loc)
deriving DecidableEq, Repr

/-- The loop of `synchro_get_to_path` once more, giving the permit operations
in the order the loop makes them: `synchro_visit` on the child, then
`synchro_leave_after_visiting` on `prev_folder`.  The list ends where the
function returns or where `synchro_visit` sleeps. -/
def synchro_get_to_path_ops : Nat → Tree → Loc → Option (Str × Str) → List PermitOp
  | _, _, _, none => []
  | 0, _, _, some _ => []
  | fuel + 1, t, cur_folder, some (component, subpath) =>
    match t.get cur_folder with
    | none => []
    | some prev_folder =>
      match hmap_get prev_folder.children component with
      | none => []
      | some _ =>
        match sync_wait synchro_visit t (cur_folder ++ [component]) with
        | none => []
        | some t1 =>
          .acquire_read (cur_folder ++ [component]) ::
            match sync_call synchro_leave_after_visiting t1 cur_folder with
            | none => []
            | some t2 =>
              .release_read cur_folder ::
                synchro_get_to_path_ops fuel t2 (cur_folder ++ [component]) (split_path subpath)

/-- The read permits the caller holds after the operations `ops`, having held
those of `held` before. -/
def permits_held : List Loc → List PermitOp → List Loc
  | held, [] => held
  | held, .acquire_read n :: ops => permits_held (held ++ [n]) ops
  | held, .release_read n :: ops => permits_held (held.erase n) ops

/-- Hand-over-hand descent from the node at `p` along the names `cs`, as the
specification words it: acquire read on the child, release read on the parent,
advance. -/
def hand_over_hand : Loc → List Str → List PermitOp
  | _, [] => []
  | p, c :: cs => .acquire_read (p ++ [c]) :: .release_read p :: hand_over_hand (p ++ [c]) cs

/-! ## Client threads at one synchronizer

Any number of threads use one synchronizer, each pairing its calls: a thread
outside calls `synchro_visit`, `synchro_modify` or
`synchro_prepare_for_being_removed`; a reader calls
`synchro_leave_after_visiting` or `synchro_change_from_visiting_to_mod`; a
writer calls `synchro_leave_after_modifying`; a remover calls
`synchro_leave_after_bad_remove`.  A step is one mutex-protected section of one
thread. -/

/-- Where a client thread is: outside, asleep in the `pthread_cond_wait` of a
call (`signalled`: a broadcast on its condition variable has been made since
it went to sleep), or between a call that gave it a permit and the matching
release. -/
inductive Pc
  | outside
  | visit_waiting (signalled : Bool)
  | reading
  | modify_waiting (signalled : Bool)
  | writing
  | remove_waiting (signalled : Bool)
  | removing
deriving DecidableEq, Repr

/-- The thread holds a read permit. -/
def Pc.is_reading : Pc → Bool
  | .reading => true
  | _ => false

/-- The thread holds the write permit. -/
def Pc.is_writing : Pc → Bool
  | .writing => true
  | _ => false

/-- The thread sleeps in `synchro_visit`. -/
def Pc.is_visit_waiting : Pc → Bool
  | .visit_waiting _ => true
  | _ => false

/-- The thread sleeps in `synchro_modify_while_holding_mutex`. -/
def Pc.is_modify_waiting : Pc → Bool
  | .modify_waiting _ => true
  | _ => false

/-- The thread sleeps in `synchro_visit` and a broadcast on `can_access` has
been made for it. -/
def Pc.is_batch : Pc → Bool
  | .visit_waiting true => true
  | _ => false

/-- A broadcast on a condition variable has been made for the sleeping thread. -/
def Pc.signalled : Pc → Bool
  | .visit_waiting b => b
  | .modify_waiting b => b
  | .remove_waiting b => b
  | _ => false

/-- What `pthread_cond_broadcast` on `c` does to a thread: all threads asleep
on `c` are signalled. -/
def Pc.signal (c : Option Cond) : Pc → Pc
  | .visit_waiting b => .visit_waiting (b || decide (c = some .can_access))
  | .modify_waiting b => .modify_waiting (b || decide (c = some .can_modify))
  | .remove_waiting b => .remove_waiting (b || decide (c = some .can_be_removed))
  | pc => pc

/-- One synchronizer and the threads that use it. -/
structure Sys where
  synchronizer : Synchro
  threads : List Pc
deriving DecidableEq, Repr

/-- The synchronizer after `synchro_init`, with `n` threads outside. -/
def Sys.init (n : Nat) : Sys :=
  { synchronizer := synchro_init, threads := List.replicate n .outside }

/-- A mutex-protected section of thread `i`. -/
inductive Act
  | visit (i : Nat)
  | leave_after_visiting (i : Nat)
  | change_from_visiting_to_mod (i : Nat)
  | modify (i : Nat)
  | leave_after_modifying (i : Nat)
  | prepare_for_being_removed (i : Nat)
  | leave_after_bad_remove (i : Nat)
  | wake (i : Nat)
  | spurious_wake (i : Nat)
deriving DecidableEq, Repr

/-- The section is a return from `pthread_cond_wait` without a broadcast. -/
def Act.is_spurious : Act → Bool
  | .spurious_wake _ => true
  | _ => false

/-- Thread `i` ends a section of a call that can wait: it sleeps, or it has the
permit. -/
def Sys.section_end (σ : Sys) (i : Nat) (r : Synchro × Bool) (asleep awake : Pc) : Sys :=
  { synchronizer := r.1, threads := σ.threads.set i (if r.2 then awake else asleep) }

/-- Thread `i` ends a call that gives a permit back, with a broadcast on `c`. -/
def Sys.release (σ : Sys) (i : Nat) (s : Synchro) (c : Option Cond) : Sys :=
  { synchronizer := s, threads := (σ.threads.set i .outside).map (Pc.signal c) }

/-- Thread `i`, asleep at `pc`, returns from `pthread_cond_wait` and runs to
the next wait or to the unlock. -/
def Sys.wake (σ : Sys) (i : Nat) : Pc → Option Sys
  | .visit_waiting _ =>
    some (σ.section_end i (synchro_visit_wake σ.synchronizer) (.visit_waiting false) .reading)
  | .modify_waiting _ =>
    some (σ.section_end i (synchro_modify_wake σ.synchronizer) (.modify_waiting false) .writing)
  | .remove_waiting _ =>
    some (σ.section_end i (synchro_prepare_wake σ.synchronizer) (.remove_waiting false)
      .removing)
  | _ => none

/-- One step: the section `a`, when the thread is where the section starts. -/
def Sys.step (σ : Sys) : Act → Option Sys
  | .visit i =>
    match σ.threads[i]? with
    | some .outside =>
      some (σ.section_end i (synchro_visit_arrive σ.synchronizer) (.visit_waiting false)
        .reading)
    | _ => none
  | .leave_after_visiting i =>
    match σ.threads[i]? with
    | some .reading =>
      some (σ.release i (synchro_leave_after_visiting σ.synchronizer)
        (synchro_leave_after_visiting_broadcast σ.synchronizer))
    | _ => none
  | .change_from_visiting_to_mod i =>
    match σ.threads[i]? with
    | some .reading =>
      some (σ.section_end i (synchro_change_arrive σ.synchronizer) (.modify_waiting false)
        .writing)
    | _ => none
  | .modify i =>
    match σ.threads[i]? with
    | some .outside =>
      some (σ.section_end i (synchro_modify_arrive σ.synchronizer) (.modify_waiting false)
        .writing)
    | _ => none
  | .leave_after_modifying i =>
    match σ.threads[i]? with
    | some .writing =>
      some (σ.release i (synchro_leave_after_modifying σ.synchronizer)
        (synchro_leave_after_modifying_broadcast σ.synchronizer))
    | _ => none
  | .prepare_for_being_removed i =>
    match σ.threads[i]? with
    | some .outside =>
      some (σ.section_end i (synchro_prepare_arrive σ.synchronizer) (.remove_waiting false)
        .removing)
    | _ => none
  | .leave_after_bad_remove i =>
    match σ.threads[i]? with
    | some .removing =>
      some (σ.release i (synchro_leave_after_bad_remove σ.synchronizer) none)
    | _ => none
  | .wake i =>
    match σ.threads[i]? with
    | some pc => if pc.signalled then σ.wake i pc else none
    | none => none
  | .spurious_wake i =>
    match σ.threads[i]? with
    | some pc => σ.wake i pc
    | none => none

/-- The steps `as` one after the other. -/
def Sys.run (σ : Sys) : List Act → Option Sys
  | [] => some σ
  | a :: as =>
    match σ.step a with
    | none => none
    | some σ1 => σ1.run as

/-- The states reachable from the state of `synchro_init`; with `spurious`
false no thread returns from `pthread_cond_wait` without a broadcast. -/
inductive Reach (spurious : Bool) : Sys → Prop
  | init (n : Nat) : Reach spurious (Sys.init n)
  | step (σ : Sys) (a : Act) (σ1 : Sys) :
      Reach spurious σ → (a.is_spurious = true → spurious = true) → σ.step a = some σ1 →
      Reach spurious σ1

/-- The fields of the synchronizer agree with `r` readers, `w` writers, `vw`
threads asleep in `synchro_visit` and `mw` threads asleep in `synchro_modify`,
and the batch and the hand-over are consistent. -/
def Synchro.good (s : Synchro) (r w vw mw : Int) : Prop :=
  s.accessing_count = r ∧ s.accessing_waiting = vw ∧ s.modifying_waiting = mw ∧
  0 ≤ r ∧ 0 ≤ mw ∧
  w = (if s.is_modifying = true then 1 else 0) ∧
  0 ≤ s.how_many_to_wake ∧ s.how_many_to_wake ≤ s.accessing_waiting ∧
  (s.how_many_to_wake > 0 → s.is_modifying = false ∧ s.modify_now = false) ∧
  (s.modify_now = true → s.is_modifying = false ∧ s.accessing_count = 0) ∧
  (s.is_modifying = true → s.accessing_count = 0)

/-- The invariant of the reachable states. -/
def Sys.inv (σ : Sys) : Prop :=
  σ.synchronizer.good (σ.threads.countP Pc.is_reading) (σ.threads.countP Pc.is_writing)
    (σ.threads.countP Pc.is_visit_waiting) (σ.threads.countP Pc.is_modify_waiting)

/-- Two threads, the first holding the write permit, the second asleep in
`synchro_modify`. -/
def sys_writer_and_waiter : Sys :=
  { synchronizer := { synchro_init with is_modifying := true, modifying_waiting := 1 },
    threads := [.writing, .modify_waiting false] }

/-- Without spurious wake-ups the readers that a broadcast on `can_access` has
signalled and that have not run yet are as many as `how_many_to_wake`. -/
def Sys.batch_inv (σ : Sys) : Prop :=
  (σ.threads.countP Pc.is_batch : Int) = σ.synchronizer.how_many_to_wake

/-- The list of sections `as`, `k` times over. -/
def repeat_acts : Nat → List Act → List Act
  | 0, _ => []
  | k + 1, as => as ++ repeat_acts k as

/-- The writer has left and handed the node to the waiting writers: thread 1
is signalled. -/
def sys_handed_over : Sys :=
  { synchronizer := { synchro_init with modify_now := true, modifying_waiting := 1 },
    threads := [.outside, .modify_waiting true] }

/-- Thread 0 has called `synchro_modify` again and got the write permit before
thread 1 ran. -/
def sys_overtaken : Sys :=
  { synchronizer := { synchro_init with is_modifying := true, modifying_waiting := 1 },
    threads := [.writing, .modify_waiting true] }

/-- A writer has left while one reader and one writer slept: the reader is
signalled and is the batch. -/
def sys_batch_pending : Sys :=
  { synchronizer := { synchro_init with accessing_waiting := 1, modifying_waiting := 1,
                                        how_many_to_wake := 1 },
    threads := [.outside, .visit_waiting true, .modify_waiting false] }

/-- Writer 0 has left while reader 1 slept, has called `synchro_modify` again
and sleeps behind the batch; reader 2 arrived after that and sleeps behind the
writer.  Reader 1 is the batch. -/
def sys_late_reader : Sys :=
  { synchronizer := { synchro_init with accessing_waiting := 2, modifying_waiting := 1,
                                        how_many_to_wake := 1 },
    threads := [.modify_waiting false, .visit_waiting true, .visit_waiting false] }

/-- Reader 2 has returned from `pthread_cond_wait` without a broadcast and has
taken the one place of the batch. -/
def sys_place_taken : Sys :=
  { synchronizer := { synchro_init with accessing_count := 1, accessing_waiting := 1,
                                        modifying_waiting := 1 },
    threads := [.modify_waiting false, .visit_waiting true, .reading] }

/-- Reader 1 has woken, found no batch and a writer waiting, and sleeps again. -/
def sys_reader_asleep_again : Sys :=
  { synchronizer := { synchro_init with accessing_count := 1, accessing_waiting := 1,
                                        modifying_waiting := 1 },
    threads := [.modify_waiting false, .visit_waiting false, .reading] }

/-- Reader 2 has left and writer 0 holds the write permit for the second time,
reader 1 still asleep. -/
def sys_second_turn : Sys :=
  { synchronizer := { synchro_init with accessing_waiting := 1, is_modifying := true },
    threads := [.writing, .visit_waiting false, .outside] }

/-! ## `tree_move` with the copy of the name as a parameter

The only statement of `tree_move` whose behaviour the C standard leaves open is
the `strcpy` of line 380, when the new name is longer than the buffer of the
old one.  The definitions of this section are those of `tree_move` again with
that one call passed in as `cpy`; with `strcpy` for `cpy` they are `tree_move`
itself, and with `strcpy_past_end` they are the run of the compiled code, in
which the copy writes on past the end of the block and the call goes on. -/

/-- The node holds the string `k` as its name, whatever the size of the block. -/
def Tree.keyed_as (t : Tree) (k : Str) : Bool :=
  match t.name with
  | none => false
  | some b => decide (b.str = k)

mutual
/-- Each child below the node is stored under its own `name`. -/
def Tree.keyed : Tree → Bool
  | .mk _ _ c => HashMap.keyed c
/-- Each child in or below the map is stored under its own `name`. -/
def HashMap.keyed : HashMap → Bool
  | .nil => true
  | .cons k v r => v.keyed_as k && Tree.keyed v && HashMap.keyed r
end

/-- `tree_remove`, lines 145-180, up to the return of
`synchro_prepare_for_being_removed`: either the call has returned before (the
result is on the left), or the victim is flagged now (on the right: the
location of `cur_folder`, the name of the victim and the tree at that moment). -/
def tree_remove_to_flag (tree : Tree) (path : Str) :
    Option ((Int × Tree) ⊕ (Loc × Str × Tree)) :=
  if !is_path_valid path then some (.inl (EINVAL, tree))
  else
    match make_path_to_parent path with
    | none => some (.inl (EBUSY, tree))
    | some (subpath, folder_name) =>
      match sync_wait synchro_visit tree [] with
      | none => none
      | some t1 =>
        match synchro_get_to_path t1 [] subpath with
        | none => none
        | some (r, cur_folder, t2) =>
          if r = ENOENT then
            match sync_call synchro_leave_after_visiting t2 cur_folder with
            | none => none
            | some t3 => some (.inl (ENOENT, t3))
          else
            match sync_wait synchro_change_from_visiting_to_mod t2 cur_folder with
            | none => none
            | some t3 =>
              match t3.get cur_folder with
              | none => none
              | some node =>
                match hmap_get node.children folder_name with
                | none =>
                  match sync_call synchro_leave_after_modifying t3 cur_folder with
                  | none => none
                  | some t4 => some (.inl (ENOENT, t4))
                | some _ =>
                  let folder_to_delete := cur_folder ++ [folder_name]
                  match sync_wait synchro_prepare_for_being_removed t3 folder_to_delete with
                  | none => none
                  | some t4 => some (.inr (cur_folder, folder_name, t4))

/-- `tree_remove`, lines 182-196, from the return of
`synchro_prepare_for_being_removed` on. -/
def tree_remove_from_flag (cur_folder : Loc) (folder_name : Str) (t4 : Tree) :
    Option (Int × Tree) :=
  let folder_to_delete := cur_folder ++ [folder_name]
  match t4.get folder_to_delete with
  | none => none
  | some victim =>
    if hmap_size victim.children = 0 then
      let t5 := t4.modify
        (fun n => n.setChildren (hmap_remove n.children folder_name))
        cur_folder
      match synchro_modify victim.synchronizer with
      | none => none
      | some _ =>
        match sync_call synchro_leave_after_modifying t5 cur_folder with
        | none => none
        | some t6 => some (0, t6)
    else
      match sync_call synchro_leave_after_bad_remove t4 folder_to_delete with
      | none => none
      | some t5 =>
        match sync_call synchro_leave_after_modifying t5 cur_folder with
        | none => none
        | some t6 => some (ENOTEMPTY, t6)

/-- The two parts of `tree_remove` one after the other. -/
def tree_remove_in_two (tree : Tree) (path : Str) : Option (Int × Tree) :=
  match tree_remove_to_flag tree path with
  | none => none
  | some (.inl r) => some r
  | some (.inr (cur_folder, folder_name, t4)) => tree_remove_from_flag cur_folder folder_name t4

/-- The tree with the directory `/a/` when `tree_remove` of `/a/` has flagged
it: the remover holds the write permit of the root. -/
def tree_a_flagged : Tree :=
  .mk none synchro_modified
    (.cons ['a'] (.mk (some (strdup_exact ['a'])) synchro_flagged .nil) .nil)
/-! ## Path strings and lists of names -/

theorem is_name_char_ne_slash {x : Char} (h : is_name_char x = true) : x ≠ '/' := by
  rintro rfl
  revert h
  decide

theorem good_name_no_slash {c : Str} (h : good_name c) : ∀ x ∈ c, x ≠ '/' :=
  fun x hx => is_name_char_ne_slash (h.2.2 x hx)

theorem path_tail_append (cs ds : List Str) :
    path_tail (cs ++ ds) = path_tail cs ++ path_tail ds := by
  induction cs with
  | nil => rfl
  | cons c cs ih => simp [path_tail, ih]

theorem path_of_snoc (cs : List Str) (c : Str) :
    path_of (cs ++ [c]) = path_of cs ++ c ++ ['/'] := by
  simp [path_of, path_tail_append, path_tail]

theorem span_name (c rest : Str) (h : ∀ x ∈ c, x ≠ '/') :
    (c ++ '/' :: rest).span (fun x => x != '/') = (c, '/' :: rest) := by
  induction c with
  | nil => simp [List.span, List.span.loop]
  | cons x c ih =>
    have hx : x ≠ '/' := h x (by simp)
    have := ih (fun y hy => h y (by simp [hy]))
    simp [List.span_eq_take_drop, hx] at this ⊢
    exact this

theorem split_path_root : split_path (path_of []) = none := by
  simp [split_path, path_of, path_tail]

theorem split_path_cons (c : Str) (cs : List Str) (h : ∀ x ∈ c, x ≠ '/') :
    split_path (path_of (c :: cs)) = some (c, path_of cs) := by
  simp only [split_path, path_of, path_tail]
  rw [span_name c _ h]

theorem names_from_name (acc c rest : Str) (h : ∀ x ∈ c, x ≠ '/') :
    names_from acc (c ++ '/' :: rest) = (acc.reverse ++ c) :: names_from [] rest := by
  induction c generalizing acc with
  | nil => simp [names_from]
  | cons x c ih =>
    have hx : x ≠ '/' := h x (by simp)
    simp [names_from, hx, ih (x :: acc) (fun y hy => h y (by simp [hy]))]

theorem path_names_path_of (cs : List Str) (h : ∀ c ∈ cs, ∀ x ∈ c, x ≠ '/') :
    path_names (path_of cs) = cs := by
  simp only [path_names, path_of]
  induction cs with
  | nil => simp [path_tail, names_from]
  | cons c cs ih =>
    simp only [path_tail]
    rw [names_from_name [] c _ (h c (by simp))]
    simp [ih (fun d hd => h d (by simp [hd]))]

theorem path_of_length (cs : List Str) : cs.length < (path_of cs).length := by
  induction cs with
  | nil => simp [path_of, path_tail]
  | cons c cs ih =>
    simp only [path_of, path_tail, List.length_cons, List.length_append] at ih ⊢
    omega

theorem make_path_to_parent_root : make_path_to_parent (path_of []) = none := by
  simp [make_path_to_parent, path_of, path_tail]

theorem path_of_ne_nil (cs : List Str) : path_of cs ≠ [] := by simp [path_of]

theorem path_of_getLast (cs : List Str) : (path_of cs).reverse.head? = some '/' := by
  induction cs using List.reverseRecOn with
  | nil => simp [path_of, path_tail]
  | append_singleton cs c _ => simp [path_of_snoc]

theorem make_path_to_parent_snoc (cs : List Str) (c : Str) (h : ∀ x ∈ c, x ≠ '/') :
    make_path_to_parent (path_of (cs ++ [c])) = some (path_of cs, c) := by
  have hlen : ¬ (path_of (cs ++ [c])).length ≤ 1 := by
    have := path_of_length (cs ++ [c]); simp at this ⊢; omega
  simp only [make_path_to_parent, hlen, if_false]
  have hbody : (path_of (cs ++ [c])).dropLast = path_of cs ++ c := by
    rw [path_of_snoc, List.dropLast_concat]
  rw [hbody]
  have hrev : (path_of cs ++ c).reverse.takeWhile (fun x => x != '/') = c.reverse := by
    rw [List.reverse_append]
    obtain ⟨r, hr⟩ : ∃ r, (path_of cs).reverse = '/' :: r := by
      have := path_of_getLast cs
      cases hq : (path_of cs).reverse with
      | nil => simp [hq] at this
      | cons y r => simp [hq] at this; exact ⟨r, by rw [this]⟩
    rw [hr]
    rw [List.takeWhile_append_of_pos]
    · simp
    · intro x hx; simpa using h x (by simpa using hx)
  simp only [hrev, List.reverse_reverse, List.length_reverse, List.length_append,
    Nat.add_sub_cancel, List.take_left']

theorem valid_tail_name (c rest : Str) (n : Nat) (hc : ∀ x ∈ c, is_name_char x = true)
    (h1 : 1 ≤ n + c.length) (h2 : n + c.length ≤ MAX_FOLDER_NAME_LENGTH) :
    valid_tail n (c ++ '/' :: rest) = valid_tail 0 rest := by
  induction c generalizing n with
  | nil =>
    simp only [List.length_nil, Nat.add_zero] at h1
    simp [valid_tail, h1]
  | cons x c ih =>
    have hx : x ≠ '/' := is_name_char_ne_slash (hc x (by simp))
    simp only [List.length_cons] at h1 h2
    have hn : n < MAX_FOLDER_NAME_LENGTH := by omega
    simp only [List.cons_append, valid_tail, hx, if_false, hc x (by simp), hn, decide_True,
      Bool.true_and]
    exact ih (n + 1) (fun y hy => hc y (by simp [hy])) (by omega) (by omega)

theorem valid_tail_path_tail (cs : List Str) (h : ∀ c ∈ cs, good_name c) :
    valid_tail 0 (path_tail cs) = true := by
  induction cs with
  | nil => simp [path_tail, valid_tail]
  | cons c cs ih =>
    obtain ⟨hne, hlen, hch⟩ := h c (by simp)
    have hpos : 1 ≤ c.length := by
      cases c with
      | nil => exact absurd rfl hne
      | cons _ _ => simp
    simp only [path_tail]
    rw [valid_tail_name c _ 0 hch (by omega) (by omega)]
    exact ih (fun d hd => h d (by simp [hd]))

theorem valid_tail_cases (s : Str) (n : Nat) (hn : n ≤ MAX_FOLDER_NAME_LENGTH)
    (h : valid_tail n s = true) :
    (n = 0 ∧ s = []) ∨ ∃ c cs, s = c ++ '/' :: path_tail cs ∧ 1 ≤ n + c.length ∧
      n + c.length ≤ MAX_FOLDER_NAME_LENGTH ∧ (∀ x ∈ c, is_name_char x = true) ∧
      ∀ d ∈ cs, good_name d := by
  induction s generalizing n with
  | nil => left; simpa [valid_tail] using h
  | cons x s ih =>
    right
    by_cases hx : x = '/'
    · subst hx
      simp only [valid_tail, if_true, Bool.and_eq_true, decide_eq_true_eq] at h
      rcases ih 0 (Nat.zero_le _) h.2 with ⟨_, hs⟩ | ⟨c, cs, hs, h1, h2, hc, hcs⟩
      · exact ⟨[], [], by simp [hs, path_tail], by simpa using h.1, by simpa using hn, by simp,
          by simp⟩
      · refine ⟨[], c :: cs, by simp [hs, path_tail], by simpa using h.1, by simpa using hn,
          by simp, ?_⟩
        intro d hd
        rcases List.mem_cons.1 hd with rfl | hd
        · refine ⟨?_, by omega, hc⟩
          rintro rfl
          simp at h1
        · exact hcs d hd
    · simp only [valid_tail, hx, if_false, Bool.and_eq_true, decide_eq_true_eq] at h
      rcases ih (n + 1) h.1.2 h.2 with ⟨h0, _⟩ | ⟨c, cs, hs, h1, h2, hc, hcs⟩
      · omega
      · refine ⟨x :: c, cs, by simp [hs], by simp only [List.length_cons]; omega,
          by simp only [List.length_cons]; omega, ?_, hcs⟩
        intro y hy
        rcases List.mem_cons.1 hy with rfl | hy
        · exact h.1.1
        · exact hc y hy

/-- The strings accepted by `is_path_valid` are the paths of the grammar. -/
theorem is_path_valid_iff (p : Str) :
    is_path_valid p = true ↔ ∃ cs, p = path_of cs ∧ ∀ c ∈ cs, good_name c := by
  constructor
  · intro h
    cases p with
    | nil => simp [is_path_valid] at h
    | cons y s =>
      by_cases hy : y = '/'
      · subst hy
        simp only [is_path_valid] at h
        rcases valid_tail_cases s 0 (Nat.zero_le _) h with ⟨_, hs⟩ | ⟨c, cs, hs, h1, h2, hc, hcs⟩
        · exact ⟨[], by simp [hs, path_of, path_tail], by simp⟩
        · refine ⟨c :: cs, by simp [hs, path_of, path_tail], ?_⟩
          intro d hd
          rcases List.mem_cons.1 hd with rfl | hd
          · refine ⟨?_, by omega, hc⟩
            rintro rfl
            simp at h1
          · exact hcs d hd
      · exfalso
        revert h
        unfold is_path_valid
        split
        · rename_i heq
          exact absurd (List.cons.inj heq).1 hy
        · simp
  · rintro ⟨cs, rfl, h⟩
    simpa [is_path_valid, path_of] using valid_tail_path_tail cs h

/-! ## Maps -/

@[simp] theorem Tree.children_mk (n : Option Buf) (s : Synchro) (c : HashMap) :
    (Tree.mk n s c).children = c := rfl

@[simp] theorem Tree.name_mk (n : Option Buf) (s : Synchro) (c : HashMap) :
    (Tree.mk n s c).name = n := rfl

@[simp] theorem Tree.synchronizer_mk (n : Option Buf) (s : Synchro) (c : HashMap) :
    (Tree.mk n s c).synchronizer = s := rfl

@[simp] theorem Tree.setChildren_mk (n : Option Buf) (s : Synchro) (c d : HashMap) :
    (Tree.mk n s c).setChildren d = Tree.mk n s d := rfl

@[simp] theorem Tree.setSynchronizer_mk (n : Option Buf) (s r : Synchro) (c : HashMap) :
    (Tree.mk n s c).setSynchronizer r = Tree.mk n r c := rfl

@[simp] theorem Tree.setName_mk (n : Option Buf) (m : Buf) (s : Synchro) (c : HashMap) :
    (Tree.mk n s c).setName m = Tree.mk (some m) s c := rfl

theorem Tree.eta (t : Tree) : Tree.mk t.name t.synchronizer t.children = t := by
  cases t; rfl

/-- Induction along the entries of a map. -/
theorem HashMap.ind {P : HashMap → Prop} (hnil : P .nil)
    (hcons : ∀ k v r, P r → P (.cons k v r)) : ∀ m, P m
  | .nil => hnil
  | .cons k v r => hcons k v r (HashMap.ind hnil hcons r)

theorem hmap_get_put_same (m : HashMap) (k : Str) (v : Tree) :
    hmap_get (hmap_put m k v) k = (hmap_get m k).map (fun _ => v) := by
  induction m using HashMap.ind with
  | hnil => rfl
  | hcons k1 v1 r ih =>
    by_cases h : k = k1
    · simp [hmap_put, hmap_get, h]
    · simp [hmap_put, hmap_get, h, ih]

theorem hmap_get_put_ne (m : HashMap) (k k1 : Str) (v : Tree) (h : k1 ≠ k) :
    hmap_get (hmap_put m k v) k1 = hmap_get m k1 := by
  induction m using HashMap.ind with
  | hnil => rfl
  | hcons k2 v2 r ih =>
    by_cases h2 : k = k2
    · subst h2; simp [hmap_put, hmap_get, h]
    · simp [hmap_put, hmap_get, h2, ih]

theorem hmap_put_put (m : HashMap) (k : Str) (v w : Tree) :
    hmap_put (hmap_put m k v) k w = hmap_put m k w := by
  induction m using HashMap.ind with
  | hnil => rfl
  | hcons k2 v2 r ih =>
    by_cases h2 : k = k2
    · simp [hmap_put, h2]
    · simp [hmap_put, h2, ih]

theorem hmap_put_get (m : HashMap) (k : Str) (v : Tree) (h : hmap_get m k = some v) :
    hmap_put m k v = m := by
  induction m using HashMap.ind with
  | hnil => rfl
  | hcons k2 v2 r ih =>
    by_cases h2 : k = k2
    · simp [hmap_get, h2] at h; simp [hmap_put, h2, h]
    · simp [hmap_get, h2] at h; simp [hmap_put, h2, ih h]

theorem hmap_put_comm (m : HashMap) (k k1 : Str) (v w : Tree) (h : k ≠ k1) :
    hmap_put (hmap_put m k v) k1 w = hmap_put (hmap_put m k1 w) k v := by
  induction m using HashMap.ind with
  | hnil => rfl
  | hcons k2 v2 r ih =>
    by_cases h2 : k = k2
    · subst h2
      simp [hmap_put, Ne.symm h]
    · by_cases h3 : k1 = k2
      · simp [hmap_put, h2, h3]
      · simp [hmap_put, h2, h3, ih]

theorem hmap_get_insert_same (m : HashMap) (k : Str) (v : Tree) (h : hmap_get m k = none) :
    hmap_get (hmap_insert m k v) k = some v := by
  induction m using HashMap.ind with
  | hnil => simp [hmap_insert, hmap_get]
  | hcons k2 v2 r ih =>
    by_cases h2 : k = k2
    · simp [hmap_get, h2] at h
    · simp only [hmap_get, h2, if_false] at h
      simp only [hmap_insert, h2, if_false]
      split
      · simp [hmap_get]
      · simp [hmap_get, h2, ih h]

theorem hmap_get_insert_ne (m : HashMap) (k k1 : Str) (v : Tree) (h : k1 ≠ k) :
    hmap_get (hmap_insert m k v) k1 = hmap_get m k1 := by
  induction m using HashMap.ind with
  | hnil => simp [hmap_insert, hmap_get, h]
  | hcons k2 v2 r ih =>
    simp only [hmap_insert]
    split
    · simp [hmap_get, h]
    · split
      · rfl
      · simp [hmap_get, ih]

theorem hmap_get_remove_ne (m : HashMap) (k k1 : Str) (h : k1 ≠ k) :
    hmap_get (hmap_remove m k) k1 = hmap_get m k1 := by
  induction m using HashMap.ind with
  | hnil => rfl
  | hcons k2 v2 r ih =>
    by_cases h2 : k = k2
    · subst h2; simp [hmap_remove, hmap_get, h, ih]
    · simp [hmap_remove, hmap_get, h2, ih]

theorem hmap_remove_absent (m : HashMap) (k : Str) (h : hmap_get m k = none) :
    hmap_remove m k = m := by
  induction m using HashMap.ind with
  | hnil => rfl
  | hcons k2 v2 r ih =>
    by_cases h2 : k = k2
    · simp [hmap_get, h2] at h
    · simp only [hmap_get, h2, if_false] at h
      simp [hmap_remove, h2, ih h]

theorem hmap_remove_insert (m : HashMap) (k : Str) (v : Tree) (h : hmap_get m k = none) :
    hmap_remove (hmap_insert m k v) k = m := by
  induction m using HashMap.ind with
  | hnil => simp [hmap_insert, hmap_remove]
  | hcons k2 v2 r ih =>
    by_cases h2 : k = k2
    · simp [hmap_get, h2] at h
    · simp only [hmap_get, h2, if_false] at h
      simp only [hmap_insert, h2, if_false]
      split
      · simp [hmap_remove, h2, hmap_remove_absent r k h]
      · simp [hmap_remove, h2, ih h]

/-- In a sorted map no entry after a key smaller than the first key has it. -/
theorem hmap_get_above (m : HashMap) (k : Str) (hw : m.wf = true) (ha : m.above k = true) :
    hmap_get m k = none := by
  induction m using HashMap.ind generalizing k with
  | hnil => rfl
  | hcons k2 v2 r ih =>
    simp only [HashMap.wf, Bool.and_eq_true, decide_eq_true_eq] at hw
    simp only [HashMap.above, decide_eq_true_eq] at ha
    have hne : k ≠ k2 := ne_of_lt ha
    simp only [hmap_get, hne, if_false]
    apply ih k hw.2
    cases r with
    | nil => rfl
    | cons k3 v3 r3 =>
      have h3 := hw.1.2
      simp only [HashMap.above, decide_eq_true_eq] at h3 ⊢
      exact lt_trans ha h3

theorem hmap_get_remove_same (m : HashMap) (k : Str) :
    hmap_get (hmap_remove m k) k = none := by
  induction m using HashMap.ind with
  | hnil => rfl
  | hcons k2 v2 r ih =>
    by_cases h2 : k = k2
    · subst h2; simpa [hmap_remove] using ih
    · simp [hmap_remove, hmap_get, h2, ih]

theorem hmap_remove_put (m : HashMap) (k : Str) (v : Tree) :
    hmap_remove (hmap_put m k v) k = hmap_remove m k := by
  induction m using HashMap.ind with
  | hnil => rfl
  | hcons k2 v2 r ih =>
    by_cases h2 : k = k2
    · simp [hmap_put, hmap_remove, h2]
    · simp [hmap_put, hmap_remove, h2, ih]

theorem hmap_insert_remove (m : HashMap) (k : Str) (v : Tree) (hw : m.wf = true)
    (h : hmap_get m k = some v) : hmap_insert (hmap_remove m k) k v = m := by
  induction m using HashMap.ind with
  | hnil => simp [hmap_get] at h
  | hcons k2 v2 r ih =>
    simp only [HashMap.wf, Bool.and_eq_true, decide_eq_true_eq] at hw
    by_cases h2 : k = k2
    · subst h2
      simp only [hmap_get, if_true, Option.some.injEq] at h
      subst h
      simp only [hmap_remove, if_true]
      rw [hmap_remove_absent r k (hmap_get_above r k hw.2 hw.1.2)]
      cases r with
      | nil => rfl
      | cons k3 v3 r3 =>
        have h3 := hw.1.2
        simp only [HashMap.above, decide_eq_true_eq] at h3
        simp [hmap_insert, h3]
    · simp only [hmap_get, h2, if_false] at h
      have hlt : ¬ k < k2 := by
        intro hlt
        have := hmap_get_above (.cons k2 v2 r) k
          (by simp [HashMap.wf, hw.1.1.1, hw.1.1.2, hw.1.2, hw.2]) (by simp [HashMap.above, hlt])
        simp [hmap_get, h2, h] at this
      simp [hmap_remove, hmap_insert, h2, hlt, ih hw.2 h]

/-! ## Pointers into the tree -/

@[simp] theorem Tree.get_nil (t : Tree) : t.get [] = some t := rfl

@[simp] theorem Tree.modify_nil (f : Tree → Tree) (t : Tree) : Tree.modify f [] t = f t := rfl

theorem Tree.get_cons (t : Tree) (c : Str) (cs : Loc) :
    t.get (c :: cs) = (hmap_get t.children c).bind (fun child => child.get cs) := by
  cases h : hmap_get t.children c <;> simp [Tree.get, h]

theorem Tree.get_append (t : Tree) (p q : Loc) :
    t.get (p ++ q) = (t.get p).bind (fun n => n.get q) := by
  induction p generalizing t with
  | nil => simp
  | cons c cs ih =>
    simp only [List.cons_append, Tree.get_cons]
    cases hmap_get t.children c with
    | none => rfl
    | some child => simp [ih]

theorem Tree.modify_cons (f : Tree → Tree) (t : Tree) (c : Str) (cs : Loc) (child : Tree)
    (h : hmap_get t.children c = some child) :
    Tree.modify f (c :: cs) t = t.setChildren (hmap_put t.children c (Tree.modify f cs child)) := by
  simp [Tree.modify, h]

theorem Tree.modify_absent (f : Tree → Tree) (t : Tree) (p : Loc) (h : t.get p = none) :
    Tree.modify f p t = t := by
  induction p generalizing t with
  | nil => simp at h
  | cons c cs ih =>
    cases hc : hmap_get t.children c with
    | none => simp [Tree.modify, hc]
    | some child =>
      have : child.get cs = none := by simpa [Tree.get_cons, hc] using h
      rw [Tree.modify_cons f t c cs child hc, ih child this, hmap_put_get _ _ _ hc]
      cases t; rfl

theorem Tree.modify_append (f : Tree → Tree) (t : Tree) (p q : Loc) :
    Tree.modify f (p ++ q) t = Tree.modify (Tree.modify f q) p t := by
  induction p generalizing t with
  | nil => simp
  | cons c cs ih =>
    cases hc : hmap_get t.children c with
    | none => simp [Tree.modify, hc]
    | some child =>
      rw [List.cons_append, Tree.modify_cons f t c _ child hc,
        Tree.modify_cons _ t c cs child hc, ih]

theorem Tree.modify_modify (f g : Tree → Tree) (t : Tree) (p : Loc) :
    Tree.modify g p (Tree.modify f p t) = Tree.modify (fun n => g (f n)) p t := by
  induction p generalizing t with
  | nil => simp
  | cons c cs ih =>
    cases hc : hmap_get t.children c with
    | none => simp [Tree.modify, hc]
    | some child =>
      rw [Tree.modify_cons f t c cs child hc, Tree.modify_cons _ t c cs child hc]
      cases t with
      | mk n s m =>
        simp only [Tree.children_mk] at hc
        simp only [Tree.children_mk, Tree.setChildren_mk]
        rw [Tree.modify_cons g _ c cs (Tree.modify f cs child)
          (by simp [hmap_get_put_same, hc])]
        simp [hmap_put_put, ih]

theorem Tree.modify_congr (f g : Tree → Tree) (t : Tree) (p : Loc) (n : Tree)
    (h : t.get p = some n) (hfg : f n = g n) : Tree.modify f p t = Tree.modify g p t := by
  induction p generalizing t with
  | nil => simp at h; subst h; simpa using hfg
  | cons c cs ih =>
    cases hc : hmap_get t.children c with
    | none => simp [Tree.get_cons, hc] at h
    | some child =>
      have : child.get cs = some n := by simpa [Tree.get_cons, hc] using h
      rw [Tree.modify_cons f t c cs child hc, Tree.modify_cons g t c cs child hc, ih child this]

theorem Tree.modify_self (f : Tree → Tree) (t : Tree) (p : Loc) (n : Tree)
    (h : t.get p = some n) (hf : f n = n) : Tree.modify f p t = t := by
  induction p generalizing t with
  | nil => simp at h; subst h; simpa using hf
  | cons c cs ih =>
    cases hc : hmap_get t.children c with
    | none => simp [Tree.get_cons, hc] at h
    | some child =>
      have : child.get cs = some n := by simpa [Tree.get_cons, hc] using h
      rw [Tree.modify_cons f t c cs child hc, ih child this, hmap_put_get _ _ _ hc]
      cases t; rfl

theorem Tree.get_modify (f : Tree → Tree) (t : Tree) (p : Loc) :
    (Tree.modify f p t).get p = (t.get p).map f := by
  induction p generalizing t with
  | nil => simp
  | cons c cs ih =>
    cases hc : hmap_get t.children c with
    | none => simp [Tree.modify, Tree.get_cons, hc]
    | some child =>
      rw [Tree.modify_cons f t c cs child hc]
      cases t with
      | mk n s m =>
        simp only [Tree.children_mk] at hc
        simp [Tree.get_cons, hmap_get_put_same, hc, ih]

theorem Tree.get_modify_append (f : Tree → Tree) (t : Tree) (p q : Loc) :
    (Tree.modify f p t).get (p ++ q) = (t.get p).bind (fun n => (f n).get q) := by
  rw [Tree.get_append, Tree.get_modify]
  cases t.get p <;> rfl

/-- A store below a node leaves the name and the synchronizer of the node. -/
theorem Tree.label_modify_cons (f : Tree → Tree) (t : Tree) (c : Str) (cs : Loc) :
    (Tree.modify f (c :: cs) t).label = t.label := by
  cases hc : hmap_get t.children c with
  | none => simp [Tree.modify, hc]
  | some child =>
    rw [Tree.modify_cons f t c cs child hc]
    cases t; rfl

/-- A store through `p` is not seen at a pointer `q` that does not pass through
`p`: the node at `q` keeps its name and its synchronizer. -/
theorem Tree.get_modify_label (f : Tree → Tree) (t : Tree) (p q : Loc) (h : ¬ p <+: q) :
    ((Tree.modify f p t).get q).map Tree.label = (t.get q).map Tree.label := by
  induction p generalizing t q with
  | nil => exact absurd (List.nil_prefix) h
  | cons c cs ih =>
    cases q with
    | nil => simp [Tree.label_modify_cons]
    | cons d ds =>
      cases hc : hmap_get t.children c with
      | none => simp [Tree.modify, hc]
      | some child =>
        rw [Tree.modify_cons f t c cs child hc]
        cases t with
        | mk n s m =>
          simp only [Tree.children_mk] at hc
          by_cases hd : d = c
          · subst hd
            have h1 : ¬ cs <+: ds := fun hp => h (by simpa using hp)
            simp [Tree.get_cons, hmap_get_put_same, hc, ih child ds h1]
          · simp [Tree.get_cons, hmap_get_put_ne _ _ _ _ hd]

/-- A store through `p` is not seen through a pointer `q` that parts from `p`. -/
theorem Tree.get_modify_apart (f : Tree → Tree) (t : Tree) (p q : Loc) (h1 : ¬ p <+: q)
    (h2 : ¬ q <+: p) : (Tree.modify f p t).get q = t.get q := by
  induction p generalizing t q with
  | nil => exact absurd (List.nil_prefix) h1
  | cons c cs ih =>
    cases q with
    | nil => exact absurd (List.nil_prefix) h2
    | cons d ds =>
      cases hc : hmap_get t.children c with
      | none => simp [Tree.modify, hc]
      | some child =>
        rw [Tree.modify_cons f t c cs child hc]
        cases t with
        | mk n s m =>
          simp only [Tree.children_mk] at hc
          by_cases hd : d = c
          · subst hd
            have h3 : ¬ cs <+: ds := fun hp => h1 (by simpa using hp)
            have h4 : ¬ ds <+: cs := fun hp => h2 (by simpa using hp)
            simp [Tree.get_cons, hmap_get_put_same, hc, ih child ds h3 h4]
          · simp [Tree.get_cons, hmap_get_put_ne _ _ _ _ hd]

/-! ## Trees nobody is inside -/

theorem Tree.idle_mk (n : Option Buf) (s : Synchro) (c : HashMap) :
    (Tree.mk n s c).idle = true ↔ s = synchro_init ∧ c.idle = true := by
  simp [Tree.idle]

theorem Tree.idle_synchronizer {t : Tree} (h : t.idle = true) :
    t.synchronizer = synchro_init := by
  cases t; exact ((Tree.idle_mk _ _ _).1 h).1

theorem Tree.idle_children {t : Tree} (h : t.idle = true) : t.children.idle = true := by
  cases t; exact ((Tree.idle_mk _ _ _).1 h).2

theorem HashMap.idle_lookup (m : HashMap) (c : Str) (child : Tree) (hm : m.idle = true)
    (h : hmap_get m c = some child) : child.idle = true := by
  induction m using HashMap.ind with
  | hnil => simp [hmap_get] at h
  | hcons k v r ih =>
    simp only [HashMap.idle, Bool.and_eq_true] at hm
    by_cases hc : c = k
    · simp only [hmap_get, hc, if_true, Option.some.injEq] at h
      exact h ▸ hm.1
    · simp only [hmap_get, hc, if_false] at h
      exact ih hm.2 h

theorem Tree.idle_get {t : Tree} (p : Loc) (n : Tree) (ht : t.idle = true)
    (h : t.get p = some n) : n.idle = true := by
  induction p generalizing t with
  | nil => simp at h; exact h ▸ ht
  | cons c cs ih =>
    cases hc : hmap_get t.children c with
    | none => simp [Tree.get_cons, hc] at h
    | some child =>
      have : child.get cs = some n := by simpa [Tree.get_cons, hc] using h
      exact ih (HashMap.idle_lookup _ c child (Tree.idle_children ht) hc) this

theorem HashMap.idle_put (m : HashMap) (c : Str) (v : Tree) (hm : m.idle = true)
    (hv : v.idle = true) : (hmap_put m c v).idle = true := by
  induction m using HashMap.ind with
  | hnil => rfl
  | hcons k w r ih =>
    simp only [HashMap.idle, Bool.and_eq_true] at hm
    by_cases hc : c = k
    · simp [hmap_put, hc, HashMap.idle, hv, hm.2]
    · simp [hmap_put, hc, HashMap.idle, hm.1, ih hm.2]

theorem HashMap.idle_insert (m : HashMap) (c : Str) (v : Tree) (hm : m.idle = true)
    (hv : v.idle = true) : (hmap_insert m c v).idle = true := by
  induction m using HashMap.ind with
  | hnil => simp [hmap_insert, HashMap.idle, hv]
  | hcons k w r ih =>
    have hm1 := hm
    simp only [HashMap.idle, Bool.and_eq_true] at hm
    simp only [hmap_insert]
    split
    · simp [HashMap.idle, hv, hm.1, hm.2]
    · split
      · exact hm1
      · simp [HashMap.idle, hm.1, ih hm.2]

theorem HashMap.idle_remove (m : HashMap) (c : Str) (hm : m.idle = true) :
    (hmap_remove m c).idle = true := by
  induction m using HashMap.ind with
  | hnil => rfl
  | hcons k w r ih =>
    simp only [HashMap.idle, Bool.and_eq_true] at hm
    by_cases hc : c = k
    · subst hc; simpa [hmap_remove] using ih hm.2
    · simp [hmap_remove, hc, HashMap.idle, hm.1, ih hm.2]

theorem Tree.idle_modify (f : Tree → Tree) (t : Tree) (p : Loc) (ht : t.idle = true)
    (hf : ∀ n, n.idle = true → (f n).idle = true) : (Tree.modify f p t).idle = true := by
  induction p generalizing t with
  | nil => exact hf t ht
  | cons c cs ih =>
    cases hc : hmap_get t.children c with
    | none => simpa [Tree.modify, hc] using ht
    | some child =>
      rw [Tree.modify_cons f t c cs child hc]
      cases t with
      | mk n s m =>
        rw [Tree.idle_mk] at ht
        simp only [Tree.children_mk] at hc
        simp only [Tree.children_mk, Tree.setChildren_mk, Tree.idle_mk]
        exact ⟨ht.1, HashMap.idle_put _ _ _ ht.2 (ih child (HashMap.idle_lookup _ c child ht.2 hc))⟩

theorem Tree.reach_eq_self (t : Tree) (cs : Loc) : t.reach cs = cs ↔ (t.get cs).isSome := by
  induction cs generalizing t with
  | nil => simp [Tree.reach]
  | cons c cs ih =>
    cases hc : hmap_get t.children c with
    | none => simp [Tree.reach, Tree.get_cons, hc]
    | some child => simp [Tree.reach, Tree.get_cons, hc, ih]

theorem Tree.get_reach (t : Tree) (cs : Loc) : (t.get (t.reach cs)).isSome := by
  induction cs generalizing t with
  | nil => simp [Tree.reach]
  | cons c cs ih =>
    cases hc : hmap_get t.children c with
    | none => simp [Tree.reach, hc]
    | some child => simp [Tree.reach, Tree.get_cons, hc, ih]

/-! ## Synchronizer calls on the tree -/

theorem synchro_visit_init : synchro_visit synchro_init = some synchro_visited := by decide

theorem synchro_leave_visited : synchro_leave_after_visiting synchro_visited = synchro_init := by
  decide

theorem synchro_upgrade_visited :
    synchro_change_from_visiting_to_mod synchro_visited = some synchro_modified := by decide

theorem synchro_modify_init : synchro_modify synchro_init = some synchro_modified := by decide

theorem synchro_leave_modified :
    synchro_leave_after_modifying synchro_modified = synchro_init := by decide

theorem Tree.synchronizer_setSynchronizer (s : Synchro) (t : Tree) :
    (t.setSynchronizer s).synchronizer = s := by cases t; rfl

theorem Tree.children_setSynchronizer (s : Synchro) (t : Tree) :
    (t.setSynchronizer s).children = t.children := by cases t; rfl

theorem Tree.synchronizer_modify_cons (f : Tree → Tree) (t : Tree) (c : Str) (cs : Loc) :
    (Tree.modify f (c :: cs) t).synchronizer = t.synchronizer :=
  congrArg Prod.snd (Tree.label_modify_cons f t c cs)

/-- A synchronizer call on the node at `p ++ q`, the tree being `x` with a
store `f` through `p`. -/
theorem sync_wait_at (op : Synchro → Option Synchro) (x : Tree) (f : Tree → Tree) (p q : Loc)
    (n m : Tree) (s : Synchro) (hx : x.get p = some n) (hq : (f n).get q = some m)
    (hop : op m.synchronizer = some s) :
    sync_wait op (Tree.modify f p x) (p ++ q) =
      some (Tree.modify (fun k => Tree.modify (Tree.setSynchronizer s) q (f k)) p x) := by
  unfold sync_wait
  rw [Tree.get_modify_append, hx]
  simp only [Option.some_bind, hq, hop]
  rw [Tree.modify_append, Tree.modify_modify]

theorem sync_call_at (op : Synchro → Synchro) (x : Tree) (f : Tree → Tree) (p q : Loc)
    (n m : Tree) (hx : x.get p = some n) (hq : (f n).get q = some m) :
    sync_call op (Tree.modify f p x) (p ++ q) =
      some (Tree.modify
        (fun k => Tree.modify (Tree.setSynchronizer (op m.synchronizer)) q (f k)) p x) :=
  sync_wait_at (fun s => some (op s)) x f p q n m _ hx hq rfl

/-! ## The hand-over-hand walk -/

theorem path_of_cons_length (c : Str) (cs : Loc) :
    (path_of cs).length < (path_of (c :: cs)).length := by
  simp only [path_of, path_tail, List.length_cons, List.length_append]
  omega

/-- One round of the walk: the child is visited, the parent is left. -/
theorem walk_step (x : Tree) (p : Loc) (n child : Tree) (c : Str) (hx : x.get p = some n)
    (hn : n.synchronizer = synchro_init) (hc : hmap_get n.children c = some child)
    (hchild : child.synchronizer = synchro_init) :
    ∃ t1, sync_wait synchro_visit (Tree.modify (Tree.setSynchronizer synchro_visited) p x)
        (p ++ [c]) = some t1 ∧
      sync_call synchro_leave_after_visiting t1 p =
        some (Tree.modify (Tree.setSynchronizer synchro_visited) (p ++ [c]) x) := by
  have hq : (n.setSynchronizer synchro_visited).get [c] = some child := by
    simp [Tree.get_cons, Tree.children_setSynchronizer, hc]
  refine ⟨_, sync_wait_at synchro_visit x _ p [c] n child synchro_visited hx hq
    (by rw [hchild]; exact synchro_visit_init), ?_⟩
  have h2 := sync_call_at synchro_leave_after_visiting x
    (fun k => Tree.modify (Tree.setSynchronizer synchro_visited) [c]
      (k.setSynchronizer synchro_visited)) p [] n _ hx (Tree.get_nil _)
  simp only [List.append_nil] at h2
  rw [h2, Tree.modify_append]
  congr 1
  apply Tree.modify_congr _ _ x p n hx
  cases n with
  | mk nm s m =>
    simp only [Tree.children_mk, Tree.synchronizer_mk] at hc hn
    subst hn
    simp [Tree.modify, hc, synchro_leave_visited]

theorem synchro_get_to_path_loop_spec (cs : Loc) (hcs : ∀ c ∈ cs, ∀ y ∈ c, y ≠ '/') :
    ∀ (fuel : Nat) (x : Tree) (p : Loc) (n : Tree), (path_of cs).length ≤ fuel →
      x.get p = some n → n.idle = true →
      synchro_get_to_path_loop fuel (Tree.modify (Tree.setSynchronizer synchro_visited) p x) p
          (split_path (path_of cs)) =
        some (if n.reach cs = cs then 0 else ENOENT, p ++ n.reach cs,
          Tree.modify (Tree.setSynchronizer synchro_visited) (p ++ n.reach cs) x) := by
  induction cs with
  | nil =>
    intro fuel x p n _ _ _
    rw [split_path_root]
    cases fuel <;> simp [synchro_get_to_path_loop, Tree.reach]
  | cons c cs ih =>
    intro fuel x p n hfuel hx hn
    rw [split_path_cons c cs (hcs c (by simp))]
    cases fuel with
    | zero => simp [path_of] at hfuel
    | succ fuel =>
      have hlen := path_of_cons_length c cs
      simp only [synchro_get_to_path_loop]
      rw [Tree.get_modify, hx]
      simp only [Option.map_some', Tree.children_setSynchronizer]
      cases hc : hmap_get n.children c with
      | none => simp [Tree.reach, hc, ENOENT]
      | some child =>
        have hchild : child.idle = true :=
          HashMap.idle_lookup _ c child (Tree.idle_children hn) hc
        obtain ⟨t1, h1, h2⟩ := walk_step x p n child c hx (Tree.idle_synchronizer hn) hc
          (Tree.idle_synchronizer hchild)
        simp only [h1, h2]
        have hx1 : x.get (p ++ [c]) = some child := by
          simp [Tree.get_append, hx, Tree.get_cons, hc]
        rw [ih (fun d hd => hcs d (by simp [hd])) fuel x (p ++ [c]) child (by omega) hx1 hchild]
        simp [Tree.reach, hc]

theorem synchro_get_to_path_spec (cs : Loc) (hcs : ∀ c ∈ cs, ∀ y ∈ c, y ≠ '/') (x : Tree)
    (p : Loc) (n : Tree) (hx : x.get p = some n) (hn : n.idle = true) :
    synchro_get_to_path (Tree.modify (Tree.setSynchronizer synchro_visited) p x) p (path_of cs) =
      some (if n.reach cs = cs then 0 else ENOENT, p ++ n.reach cs,
        Tree.modify (Tree.setSynchronizer synchro_visited) (p ++ n.reach cs) x) :=
  synchro_get_to_path_loop_spec cs hcs _ x p n (Nat.le_refl _) hx hn

/-! ## `tree_list`, `tree_create` and `tree_remove` on names -/

theorem sync_wait_root (op : Synchro → Option Synchro) (t : Tree) (s : Synchro)
    (h : op t.synchronizer = some s) :
    sync_wait op t [] = some (Tree.modify (Tree.setSynchronizer s) [] t) := by
  simp [sync_wait, h]

theorem sync_wait_here (op : Synchro → Option Synchro) (x : Tree) (f : Tree → Tree) (p : Loc)
    (n : Tree) (s : Synchro) (hx : x.get p = some n) (hop : op (f n).synchronizer = some s) :
    sync_wait op (Tree.modify f p x) p =
      some (Tree.modify (fun k => (f k).setSynchronizer s) p x) := by
  have := sync_wait_at op x f p [] n (f n) s hx (Tree.get_nil _) hop
  simpa using this

theorem sync_call_here (op : Synchro → Synchro) (x : Tree) (f : Tree → Tree) (p : Loc)
    (n : Tree) (hx : x.get p = some n) :
    sync_call op (Tree.modify f p x) p =
      some (Tree.modify (fun k => (f k).setSynchronizer (op (f n).synchronizer)) p x) :=
  sync_wait_here (fun s => some (op s)) x f p n _ hx rfl

theorem good_names_no_slash {cs : Loc} (h : ∀ c ∈ cs, good_name c) :
    ∀ c ∈ cs, ∀ y ∈ c, y ≠ '/' :=
  fun c hc => good_name_no_slash (h c hc)

/-- The walk from the visited root of an idle tree. -/
theorem walk_from_root (t : Tree) (cs : Loc) (hcs : ∀ c ∈ cs, good_name c)
    (ht : t.idle = true) :
    ∃ t1, sync_wait synchro_visit t [] = some t1 ∧
      synchro_get_to_path t1 [] (path_of cs) =
        some (if t.reach cs = cs then 0 else ENOENT, t.reach cs,
          Tree.modify (Tree.setSynchronizer synchro_visited) (t.reach cs) t) := by
  refine ⟨_, sync_wait_root synchro_visit t synchro_visited
    (by rw [Tree.idle_synchronizer ht]; exact synchro_visit_init), ?_⟩
  have := synchro_get_to_path_spec cs (good_names_no_slash hcs) t [] t rfl ht
  simpa using this

/-- Leaving the node the walk stopped at restores the idle tree. -/
theorem leave_visited (t : Tree) (p : Loc) (n : Tree) (ht : t.idle = true)
    (hp : t.get p = some n) :
    sync_call synchro_leave_after_visiting
      (Tree.modify (Tree.setSynchronizer synchro_visited) p t) p = some t := by
  rw [sync_call_here _ t _ p n hp]
  congr 1
  apply Tree.modify_self _ t p n hp
  have := Tree.idle_synchronizer (Tree.idle_get p n ht hp)
  cases n with
  | mk nm s m =>
    simp only [Tree.synchronizer_mk] at this
    subst this
    simp [synchro_leave_visited]

theorem tree_list_eval (t : Tree) (cs : Loc) (hcs : ∀ c ∈ cs, good_name c)
    (ht : t.idle = true) :
    tree_list t (path_of cs) =
      some ((t.get cs).map (fun n => make_map_contents_string n.children), t) := by
  have hv : is_path_valid (path_of cs) = true := (is_path_valid_iff _).2 ⟨cs, rfl, hcs⟩
  obtain ⟨t1, h1, h2⟩ := walk_from_root t cs hcs ht
  simp only [tree_list, hv, Bool.not_true, h1, h2]
  obtain ⟨m, hm⟩ := Option.isSome_iff_exists.1 (Tree.get_reach t cs)
  by_cases hr : t.reach cs = cs
  · have hn : t.get cs = some m := by rw [hr] at hm; exact hm
    simp only [hr, if_true, Tree.get_modify, hn, Option.map_some', leave_visited t cs m ht hn]
    simp [ENOENT, Tree.children_setSynchronizer]
  · have hn : t.get cs = none := by
      cases h : t.get cs with
      | none => rfl
      | some k => exact absurd ((Tree.reach_eq_self t cs).2 (by simp [h])) hr
    simp [hr, hn, leave_visited t _ m ht hm]

theorem good_snoc {cs : Loc} {c : Str} (h : ∀ d ∈ cs ++ [c], good_name d) :
    (∀ d ∈ cs, good_name d) ∧ good_name c :=
  ⟨fun d hd => h d (by simp [hd]), h c (by simp)⟩

theorem reach_of_get_none (t : Tree) (cs : Loc) (h : t.get cs = none) : t.reach cs ≠ cs :=
  fun hr => by simpa [h] using (Tree.reach_eq_self t cs).1 hr

theorem reach_of_get_some (t : Tree) (cs : Loc) (n : Tree) (h : t.get cs = some n) :
    t.reach cs = cs := (Tree.reach_eq_self t cs).2 (by simp [h])

/-- The upgrade of the visited node at `p` to a writer. -/
theorem upgrade_visited (t : Tree) (p : Loc) (n : Tree) (hp : t.get p = some n) :
    sync_wait synchro_change_from_visiting_to_mod
      (Tree.modify (Tree.setSynchronizer synchro_visited) p t) p =
      some (Tree.modify (Tree.setSynchronizer synchro_modified) p t) := by
  rw [sync_wait_here _ t _ p n synchro_modified hp
    (by rw [Tree.synchronizer_setSynchronizer]; exact synchro_upgrade_visited)]
  congr 1
  apply Tree.modify_congr _ _ t p n hp
  cases n; rfl

/-- The writer at `p` stores `f` and leaves: only the store remains. -/
theorem leave_modified (t : Tree) (p : Loc) (n : Tree) (f : Tree → Tree)
    (ht : n.synchronizer = synchro_init) (hp : t.get p = some n)
    (hf : ∀ s, f (n.setSynchronizer s) = (f n).setSynchronizer s) :
    sync_call synchro_leave_after_modifying
      (Tree.modify f p (Tree.modify (Tree.setSynchronizer synchro_modified) p t)) p =
      some (Tree.modify f p t) := by
  rw [Tree.modify_modify, sync_call_here _ t _ p n hp]
  congr 1
  apply Tree.modify_congr _ _ t p n hp
  rw [hf, Tree.synchronizer_setSynchronizer, synchro_leave_modified]
  cases hfn : f n with
  | mk nm s m =>
    have : s = synchro_init := by
      have := hf n.synchronizer
      rw [(by cases n; rfl : n.setSynchronizer n.synchronizer = n), hfn] at this
      simp only [Tree.setSynchronizer_mk, Tree.mk.injEq, true_and, and_true] at this
      rw [this, ht]
    simp [this]

/-- The writer at `p` leaves without a store: the idle tree is back. -/
theorem leave_modified_id (t : Tree) (p : Loc) (n : Tree)
    (ht : n.synchronizer = synchro_init) (hp : t.get p = some n) :
    sync_call synchro_leave_after_modifying
      (Tree.modify (Tree.setSynchronizer synchro_modified) p t) p = some t := by
  rw [sync_call_here _ t _ p n hp]
  congr 1
  apply Tree.modify_self _ t p n hp
  rw [Tree.synchronizer_setSynchronizer, synchro_leave_modified]
  cases n with
  | mk nm s m =>
    simp only [Tree.synchronizer_mk] at ht
    simp [ht]

theorem tree_create_eval (t : Tree) (cs : Loc) (c : Str) (hcs : ∀ d ∈ cs ++ [c], good_name d)
    (ht : t.idle = true) :
    tree_create t (path_of (cs ++ [c])) =
      match t.get cs with
      | none => some (ENOENT, t)
      | some n =>
        if (hmap_get n.children c).isSome then some (EEXIST, t)
        else some (0, Tree.modify
          (fun k => k.setChildren (hmap_insert k.children c (tree_new.setName (strdup_exact c)))) cs t) := by
  have hv : is_path_valid (path_of (cs ++ [c])) = true := (is_path_valid_iff _).2 ⟨_, rfl, hcs⟩
  obtain ⟨hcs1, hc⟩ := good_snoc hcs
  obtain ⟨t1, h1, h2⟩ := walk_from_root t cs hcs1 ht
  simp only [tree_create, hv, Bool.not_true, make_path_to_parent_snoc cs c (good_name_no_slash hc),
    h1, h2]
  obtain ⟨m, hm⟩ := Option.isSome_iff_exists.1 (Tree.get_reach t cs)
  cases hn : t.get cs with
  | none => simp [reach_of_get_none t cs hn, leave_visited t _ m ht hm]
  | some n =>
    have hni := Tree.idle_synchronizer (Tree.idle_get cs n ht hn)
    simp only [reach_of_get_some t cs n hn, if_true, upgrade_visited t cs n hn, Tree.get_modify,
      hn, Option.map_some', Tree.children_setSynchronizer]
    have hE : (0 : Int) ≠ ENOENT := by decide
    simp only [hE, Bool.false_eq_true, if_false]
    by_cases hex : (hmap_get n.children c).isSome = true
    · simp [hex, leave_modified_id t cs n hni hn]
    · have := leave_modified t cs n
        (fun k => k.setChildren (hmap_insert k.children c (tree_new.setName (strdup_exact c)))) hni hn
        (fun s => by cases n; rfl)
      simp [hex, this]

theorem synchro_prepare_init :
    synchro_prepare_for_being_removed synchro_init = some synchro_flagged := by decide

theorem synchro_modify_flagged : (synchro_modify synchro_flagged).isSome = true := by decide

theorem synchro_unflag : synchro_leave_after_bad_remove synchro_flagged = synchro_init := by
  decide

/-! ### The tree with one node replaced -/

theorem Tree.modify_eq_set (f : Tree → Tree) (t : Tree) (p : Loc) (n : Tree)
    (h : t.get p = some n) : Tree.modify f p t = t.set p (f n) :=
  Tree.modify_congr _ _ t p n h rfl

theorem Tree.set_self (t : Tree) (p : Loc) (n : Tree) (h : t.get p = some n) : t.set p n = t :=
  Tree.modify_self _ t p n h rfl

theorem Tree.get_set (t : Tree) (p q : Loc) (n k : Tree) (h : t.get p = some n) :
    (t.set p k).get (p ++ q) = k.get q := by
  unfold Tree.set
  rw [Tree.get_modify_append, h]
  rfl

theorem Tree.get_set_here (t : Tree) (p : Loc) (n k : Tree) (h : t.get p = some n) :
    (t.set p k).get p = some k := by
  simpa using Tree.get_set t p [] n k h

theorem Tree.modify_set (f : Tree → Tree) (t : Tree) (p q : Loc) (k : Tree) :
    Tree.modify f (p ++ q) (t.set p k) = t.set p (Tree.modify f q k) := by
  unfold Tree.set
  rw [Tree.modify_append, Tree.modify_modify]

theorem Tree.modify_set_here (f : Tree → Tree) (t : Tree) (p : Loc) (k : Tree) :
    Tree.modify f p (t.set p k) = t.set p (f k) := by
  simpa using Tree.modify_set f t p [] k

theorem sync_wait_set (op : Synchro → Option Synchro) (t : Tree) (p q : Loc) (n k m : Tree)
    (s : Synchro) (h : t.get p = some n) (hq : k.get q = some m)
    (hop : op m.synchronizer = some s) :
    sync_wait op (t.set p k) (p ++ q) =
      some (t.set p (Tree.modify (Tree.setSynchronizer s) q k)) := by
  unfold sync_wait
  rw [Tree.get_set t p q n k h, hq]
  simp only [hop, Tree.modify_set]

theorem sync_wait_set_here (op : Synchro → Option Synchro) (t : Tree) (p : Loc) (n k : Tree)
    (s : Synchro) (h : t.get p = some n) (hop : op k.synchronizer = some s) :
    sync_wait op (t.set p k) p = some (t.set p (k.setSynchronizer s)) := by
  simpa using sync_wait_set op t p [] n k k s h rfl hop

theorem sync_call_set (op : Synchro → Synchro) (t : Tree) (p q : Loc) (n k m : Tree)
    (h : t.get p = some n) (hq : k.get q = some m) :
    sync_call op (t.set p k) (p ++ q) =
      some (t.set p (Tree.modify (Tree.setSynchronizer (op m.synchronizer)) q k)) :=
  sync_wait_set (fun s => some (op s)) t p q n k m _ h hq rfl

theorem sync_call_set_here (op : Synchro → Synchro) (t : Tree) (p : Loc) (n k : Tree)
    (h : t.get p = some n) :
    sync_call op (t.set p k) p = some (t.set p (k.setSynchronizer (op k.synchronizer))) :=
  sync_wait_set_here (fun s => some (op s)) t p n k _ h rfl

theorem tree_remove_eval (t : Tree) (cs : Loc) (c : Str) (hcs : ∀ d ∈ cs ++ [c], good_name d)
    (ht : t.idle = true) :
    tree_remove t (path_of (cs ++ [c])) =
      match t.get cs with
      | none => some (ENOENT, t)
      | some n =>
        match hmap_get n.children c with
        | none => some (ENOENT, t)
        | some victim =>
          if hmap_size victim.children = 0 then
            some (0, Tree.modify (fun k => k.setChildren (hmap_remove k.children c)) cs t)
          else some (ENOTEMPTY, t) := by
  have hv : is_path_valid (path_of (cs ++ [c])) = true := (is_path_valid_iff _).2 ⟨_, rfl, hcs⟩
  obtain ⟨hcs1, hc⟩ := good_snoc hcs
  obtain ⟨t1, h1, h2⟩ := walk_from_root t cs hcs1 ht
  simp only [tree_remove, hv, Bool.not_true, make_path_to_parent_snoc cs c (good_name_no_slash hc),
    h1, h2]
  obtain ⟨m, hm⟩ := Option.isSome_iff_exists.1 (Tree.get_reach t cs)
  cases hn : t.get cs with
  | none => simp [reach_of_get_none t cs hn, leave_visited t _ m ht hm]
  | some n =>
    have hnidle := Tree.idle_get cs n ht hn
    have hni := Tree.idle_synchronizer hnidle
    simp only [reach_of_get_some t cs n hn, if_true, upgrade_visited t cs n hn, Tree.get_modify,
      hn, Option.map_some', Tree.children_setSynchronizer]
    have hE : (0 : Int) ≠ ENOENT := by decide
    simp only [hE, Bool.false_eq_true, if_false]
    cases hex : hmap_get n.children c with
    | none => simp [leave_modified_id t cs n hni hn]
    | some victim =>
      have hvi := Tree.idle_synchronizer
        (HashMap.idle_lookup _ c victim (Tree.idle_children hnidle) hex)
      rw [Tree.modify_eq_set _ t cs n hn]
      cases n with
      | mk nm s mp =>
        simp only [Tree.children_mk, Tree.synchronizer_mk] at hex hni
        subst hni
        cases victim with
        | mk vn vs vm =>
          simp only [Tree.synchronizer_mk] at hvi
          subst hvi
          rw [sync_wait_set synchro_prepare_for_being_removed t cs [c] _ _
            (Tree.mk vn synchro_init vm) synchro_flagged hn
            (by simp [Tree.get_cons, hex]) synchro_prepare_init]
          simp only [Tree.get_set t cs [c] _ _ hn, Tree.setSynchronizer_mk, Tree.modify,
            Tree.children_mk, hex, Tree.setChildren_mk, Tree.get_cons, hmap_get_put_same,
            Option.map_some', Option.some_bind, Tree.get_nil, Tree.synchronizer_mk]
          by_cases hsz : hmap_size vm = 0
          · obtain ⟨s2, hs2⟩ := Option.isSome_iff_exists.1 synchro_modify_flagged
            simp only [hsz, if_true, hs2, Tree.modify_set_here, Tree.setChildren_mk,
              Tree.children_mk, hmap_remove_put]
            rw [sync_call_set_here _ t cs _ _ hn, Tree.modify_eq_set _ t cs _ hn]
            simp [synchro_leave_modified]
          · simp only [hsz, if_false]
            rw [sync_call_set _ t cs [c] _ _ (Tree.mk vn synchro_flagged vm) hn
              (by simp [Tree.get_cons, hmap_get_put_same, hex])]
            simp only [Tree.setSynchronizer_mk, Tree.modify, Tree.children_mk, hex,
              Tree.setChildren_mk, Tree.synchronizer_mk, hmap_get_put_same, Option.map_some',
              hmap_put_put, synchro_unflag]
            rw [sync_call_set_here _ t cs _ _ hn]
            simp only [Tree.setSynchronizer_mk, Tree.synchronizer_mk, synchro_leave_modified,
              hmap_put_get _ _ _ hex, Tree.set_self t cs _ hn]

/-- For `/` there is no parent path: `tree_create` returns EEXIST. -/
theorem tree_create_root (t : Tree) : tree_create t ['/'] = some (EEXIST, t) := by
  have h1 : is_path_valid ['/'] = true := by decide
  have h2 : make_path_to_parent ['/'] = none := by decide
  simp [tree_create, h1, h2]

/-- For `/` there is no parent path: `tree_remove` returns EBUSY. -/
theorem tree_remove_root (t : Tree) : tree_remove t ['/'] = some (EBUSY, t) := by
  have h1 : is_path_valid ['/'] = true := by decide
  have h2 : make_path_to_parent ['/'] = none := by decide
  simp [tree_remove, h1, h2]

/-! ## Valid paths -/

theorem valid_cases (p : Str) (h : is_path_valid p = true) :
    p = ['/'] ∨ ∃ cs c, p = path_of (cs ++ [c]) ∧ ∀ d ∈ cs ++ [c], good_name d := by
  obtain ⟨cs, rfl, hcs⟩ := (is_path_valid_iff p).1 h
  rcases List.eq_nil_or_concat cs with rfl | ⟨l, c, rfl⟩
  · left; rfl
  · right
    rw [List.concat_eq_append] at hcs ⊢
    exact ⟨l, c, rfl, hcs⟩

theorem path_names_snoc (cs : Loc) (c : Str) (h : ∀ d ∈ cs ++ [c], good_name d) :
    path_names (path_of (cs ++ [c])) = cs ++ [c] :=
  path_names_path_of _ (good_names_no_slash h)

theorem path_of_snoc_ne_root (cs : Loc) (c : Str) : path_of (cs ++ [c]) ≠ ['/'] := by
  intro h
  have := path_of_length (cs ++ [c])
  rw [h] at this
  simp at this

theorem parent_names_snoc (cs : Loc) (c : Str) (h : ∀ d ∈ cs ++ [c], good_name d) :
    parent_names (path_of (cs ++ [c])) = cs := by
  simp [parent_names, path_names_snoc cs c h]

theorem last_name_snoc (cs : Loc) (c : Str) (h : ∀ d ∈ cs ++ [c], good_name d) :
    last_name (path_of (cs ++ [c])) = c := by
  simp [last_name, path_names_snoc cs c h]

theorem Tree.get_empty (n : Option Buf) (s : Synchro) (r : Loc) (h : r ≠ []) :
    (Tree.mk n s .nil).get r = none := by
  cases r with
  | nil => exact absurd rfl h
  | cons k r => simp [Tree.get_cons, hmap_get]

/-- What a new childless entry under `c` changes below its parent. -/
theorem get_insert_frame (parent v : Tree) (c : Str) (r : Loc)
    (hex : hmap_get parent.children c = none) (hr : r ≠ [c])
    (hv : ∀ q, q ≠ [] → v.get q = none) :
    ((parent.setChildren (hmap_insert parent.children c v)).get r).map Tree.label =
      (parent.get r).map Tree.label := by
  cases parent with
  | mk nm s m =>
    simp only [Tree.children_mk] at hex
    cases r with
    | nil => rfl
    | cons k r =>
      by_cases hk : k = c
      · subst hk
        have hr1 : r ≠ [] := fun h => hr (by rw [h])
        simp [Tree.get_cons, hmap_get_insert_same _ _ _ hex, hex, hv r hr1]
      · simp [Tree.get_cons, hmap_get_insert_ne _ _ _ _ hk]

/-- C2: `tree_create` on a tree nobody is inside returns EINVAL for a path that
is not valid; otherwise EEXIST for `/`; otherwise ENOENT when the parent path
does not resolve; otherwise EEXIST when the parent has a child of the last
name; otherwise 0, and then the path resolves to a new node with that name (in a buffer of its
length plus one), an initialised synchronizer and no children, while at every other pointer the
same node (name, synchronizer) is found as before. -/
theorem tree_create_contract (t : Tree) (p : Str) (ht : t.idle = true) :
    (is_path_valid p = false → tree_create t p = some (EINVAL, t)) ∧
    (is_path_valid p = true → p = ['/'] → tree_create t p = some (EEXIST, t)) ∧
    (is_path_valid p = true → p ≠ ['/'] →
      (t.get (parent_names p) = none → tree_create t p = some (ENOENT, t)) ∧
      ∀ parent, t.get (parent_names p) = some parent →
        ((hmap_get parent.children (last_name p)).isSome = true →
          tree_create t p = some (EEXIST, t)) ∧
        (hmap_get parent.children (last_name p) = none →
          ∃ t1, tree_create t p = some (0, t1) ∧
            t1.get (path_names p) = some (Tree.mk (some (strdup_exact (last_name p))) synchro_init .nil) ∧
            ∀ q, q ≠ path_names p → (t1.get q).map Tree.label = (t.get q).map Tree.label)) := by
  refine ⟨fun h => by simp [tree_create, h], ?_, ?_⟩
  · rintro _ rfl
    have h1 : is_path_valid ['/'] = true := by decide
    have h2 : make_path_to_parent ['/'] = none := by decide
    simp [tree_create, h1, h2]
  · intro hv hne
    rcases valid_cases p hv with rfl | ⟨cs, c, rfl, hcs⟩
    · exact absurd rfl hne
    · have he := tree_create_eval t cs c hcs ht
      rw [parent_names_snoc cs c hcs, last_name_snoc cs c hcs, path_names_snoc cs c hcs]
      refine ⟨fun h => by rw [he, h], fun parent hp => ⟨fun hex => ?_, fun hex => ?_⟩⟩
      · rw [he, hp]; simp [hex]
      · rw [hp] at he
        simp only [hex, Option.isSome_none, Bool.false_eq_true, if_false] at he
        refine ⟨_, he, ?_, ?_⟩
        · rw [Tree.get_modify_append, hp]
          cases parent with
          | mk nm s m =>
            simp only [Tree.children_mk] at hex
            simp [Tree.get_cons, hmap_get_insert_same _ _ _ hex, tree_new, hmap_new]
        · intro q hq
          by_cases hpre : cs <+: q
          · obtain ⟨r, rfl⟩ := hpre
            rw [Tree.get_modify_append, Tree.get_append, hp]
            exact get_insert_frame parent _ c r hex (fun h => hq (by rw [h]))
              (fun q hq => Tree.get_empty _ _ q hq)
          · exact Tree.get_modify_label _ t cs q hpre
/-- C2 at a concrete input: `/a/` is created in the tree made by `tree_new`. -/
theorem tree_create_contract_witness :
    tree_new.idle = true ∧
    ∃ t1, tree_create tree_new ['/', 'a', '/'] = some (0, t1) ∧
      t1.get (path_names ['/', 'a', '/']) =
        some (Tree.mk (some (strdup_exact (last_name ['/', 'a', '/']))) synchro_init .nil) ∧
      ∀ q, q ≠ path_names ['/', 'a', '/'] →
        (t1.get q).map Tree.label = (tree_new.get q).map Tree.label :=
  ⟨by decide,
    (((tree_create_contract tree_new ['/', 'a', '/'] (by decide)).2.2 (by decide)
      (by decide)).2 tree_new (by decide)).2 (by decide)⟩

/-- What the removal of a childless entry under `c` changes below its parent. -/
theorem get_remove_frame (parent victim : Tree) (c : Str) (r : Loc)
    (hex : hmap_get parent.children c = some victim) (hr : r ≠ [c])
    (hv : hmap_size victim.children = 0) :
    ((parent.setChildren (hmap_remove parent.children c)).get r).map Tree.label =
      (parent.get r).map Tree.label := by
  cases parent with
  | mk nm s m =>
    simp only [Tree.children_mk] at hex
    cases r with
    | nil => rfl
    | cons k r =>
      by_cases hk : k = c
      · subst hk
        cases r with
        | nil => exact absurd rfl hr
        | cons k2 r =>
          cases victim with
          | mk vn vs vm =>
            cases vm with
            | nil => simp [Tree.get_cons, hmap_get_remove_same, hex, hmap_get]
            | cons _ _ _ => simp [hmap_size] at hv
      · simp [Tree.get_cons, hmap_get_remove_ne _ _ _ hk]

/-- C3: `tree_remove` on a tree nobody is inside, for a valid path: EBUSY for
`/`; otherwise ENOENT when the parent path does not resolve or the parent has
no child of the last name; otherwise ENOTEMPTY when the victim has a child;
otherwise 0, and then the path no longer resolves while at every other pointer
the same node (name, synchronizer) is found as before. -/
theorem tree_remove_contract (t : Tree) (p : Str) (ht : t.idle = true)
    (hv : is_path_valid p = true) :
    (p = ['/'] → tree_remove t p = some (EBUSY, t)) ∧
    (p ≠ ['/'] →
      (t.get (parent_names p) = none → tree_remove t p = some (ENOENT, t)) ∧
      ∀ parent, t.get (parent_names p) = some parent →
        (hmap_get parent.children (last_name p) = none →
          tree_remove t p = some (ENOENT, t)) ∧
        ∀ victim, hmap_get parent.children (last_name p) = some victim →
          (hmap_size victim.children ≠ 0 → tree_remove t p = some (ENOTEMPTY, t)) ∧
          (hmap_size victim.children = 0 →
            ∃ t1, tree_remove t p = some (0, t1) ∧ t1.get (path_names p) = none ∧
              ∀ q, q ≠ path_names p →
                (t1.get q).map Tree.label = (t.get q).map Tree.label)) := by
  refine ⟨?_, ?_⟩
  · rintro rfl
    have h2 : make_path_to_parent ['/'] = none := by decide
    simp [tree_remove, hv, h2]
  · intro hne
    rcases valid_cases p hv with rfl | ⟨cs, c, rfl, hcs⟩
    · exact absurd rfl hne
    · have he := tree_remove_eval t cs c hcs ht
      rw [parent_names_snoc cs c hcs, last_name_snoc cs c hcs, path_names_snoc cs c hcs]
      refine ⟨fun h => by rw [he, h], fun parent hp => ⟨fun hex => ?_, fun victim hex => ?_⟩⟩
      · rw [he, hp]; simp [hex]
      · rw [hp] at he
        simp only [hex] at he
        refine ⟨fun hsz => by rw [he]; simp [hsz], fun hsz => ?_⟩
        simp only [hsz, if_true] at he
        refine ⟨_, he, ?_, ?_⟩
        · rw [Tree.get_modify_append, hp]
          cases parent with
          | mk nm s m => simp [Tree.get_cons, hmap_get_remove_same]
        · intro q hq
          by_cases hpre : cs <+: q
          · obtain ⟨r, rfl⟩ := hpre
            rw [Tree.get_modify_append, Tree.get_append, hp]
            exact get_remove_frame parent victim c r hex (fun h => hq (by rw [h])) hsz
          · exact Tree.get_modify_label _ t cs q hpre

/-- C3 at a concrete input: `/a/` is removed from the tree that has only it. -/
theorem tree_remove_contract_witness :
    (tree_a.idle = true ∧ is_path_valid ['/', 'a', '/'] = true) ∧
    ∃ t1, tree_remove tree_a ['/', 'a', '/'] = some (0, t1) ∧
      t1.get (path_names ['/', 'a', '/']) = none ∧
      ∀ q, q ≠ path_names ['/', 'a', '/'] →
        (t1.get q).map Tree.label = (tree_a.get q).map Tree.label :=
  ⟨⟨by decide, by decide⟩,
    ((((tree_remove_contract tree_a ['/', 'a', '/'] (by decide) (by decide)).2
      (by decide)).2 tree_a (by decide)).2 (.mk (some (strdup_exact ['a'])) synchro_init .nil)
        (by decide)).2 (by decide)⟩

theorem mem_hmap_keys (m : HashMap) (k : Str) :
    k ∈ hmap_keys m ↔ (hmap_get m k).isSome = true := by
  induction m using HashMap.ind with
  | hnil => simp [hmap_keys, hmap_get]
  | hcons k2 v2 r ih =>
    by_cases h : k = k2
    · simp [hmap_keys, hmap_get, h]
    · simp [hmap_keys, hmap_get, h, ih]

theorem hmap_keys_above (m : HashMap) (k : Str) (hw : m.wf = true) (ha : m.above k = true) :
    ∀ k1 ∈ hmap_keys m, k < k1 := by
  intro k1 hk1
  induction m using HashMap.ind generalizing k with
  | hnil => simp [hmap_keys] at hk1
  | hcons k2 v2 r ih =>
    simp only [HashMap.wf, Bool.and_eq_true, decide_eq_true_eq] at hw
    simp only [HashMap.above, decide_eq_true_eq] at ha
    rcases List.mem_cons.1 hk1 with rfl | hk1
    · exact ha
    · have har : r.above k = true := by
        cases r with
        | nil => rfl
        | cons k3 v3 r3 =>
          have h3 := hw.1.2
          simp only [HashMap.above, decide_eq_true_eq] at h3 ⊢
          exact lt_trans ha h3
      exact ih k hw.2 har hk1

theorem hmap_keys_nodup (m : HashMap) (hw : m.wf = true) : (hmap_keys m).Nodup := by
  induction m using HashMap.ind with
  | hnil => simp [hmap_keys]
  | hcons k2 v2 r ih =>
    simp only [HashMap.wf, Bool.and_eq_true, decide_eq_true_eq] at hw
    simp only [hmap_keys, List.nodup_cons]
    exact ⟨fun hmem => lt_irrefl _ (hmap_keys_above r k2 hw.2 hw.1.2 k2 hmem), ih hw.2⟩

theorem hmap_keys_of_size_zero (m : HashMap) (h : hmap_size m = 0) : hmap_keys m = [] := by
  cases m with
  | nil => rfl
  | cons _ _ _ => simp [hmap_size] at h

theorem Tree.wf_children {t : Tree} (h : t.wf = true) : t.children.wf = true := by
  cases t; simpa [Tree.wf] using h

theorem path_names_root : path_names ['/'] = [] := by decide

/-- C4: `tree_list` on a tree nobody is inside returns a string exactly for a
valid path that resolves; the string is then the keys of the children map of
the node the path denotes, joined by one `,` (each key of the map occurs among
them, once when the map has each key once; the empty string for no children),
and the tree is as before. -/
theorem tree_list_contract (t : Tree) (p : Str) (ht : t.idle = true) :
    ∃ r, tree_list t p = some (r, t) ∧
      (r.isSome = true ↔ is_path_valid p = true ∧ (t.get (path_names p)).isSome = true) ∧
      ∀ n, is_path_valid p = true → t.get (path_names p) = some n →
        r = some ([','].intercalate (hmap_keys n.children)) ∧
        (∀ k, k ∈ hmap_keys n.children ↔ (hmap_get n.children k).isSome = true) ∧
        (hmap_size n.children = 0 → r = some []) ∧
        (n.wf = true → (hmap_keys n.children).Nodup) := by
  by_cases hv : is_path_valid p = true
  · obtain ⟨cs, rfl, hcs⟩ := (is_path_valid_iff p).1 hv
    rw [path_names_path_of cs (good_names_no_slash hcs)]
    refine ⟨_, tree_list_eval t cs hcs ht, ?_, ?_⟩
    · simp [hv]
    · intro n _ hn
      refine ⟨by simp [hn, make_map_contents_string], fun k => mem_hmap_keys _ k, ?_,
        fun hw => hmap_keys_nodup _ (Tree.wf_children hw)⟩
      intro hsz
      simp [hn, make_map_contents_string, hmap_keys_of_size_zero _ hsz, List.intercalate]
  · refine ⟨none, by simp [tree_list, hv], by simp [hv], fun n h => absurd h hv⟩

/-- C4 at a concrete input: listing `/` of the tree with the one directory `/a/`. -/
theorem tree_list_contract_witness :
    tree_a.idle = true ∧ tree_list tree_a ['/'] = some (some ['a'], tree_a) := by
  refine ⟨by decide, ?_⟩
  obtain ⟨r, h1, _, h3⟩ := tree_list_contract tree_a ['/'] (by decide)
  rw [h1, (h3 tree_a (by decide) (by decide)).1]
  decide

/-- C10: in a tree nobody is inside, for a valid path that does not resolve
while its parent path does, `tree_create` returns 0, `tree_remove` right after
it returns 0, and the tree is then the one before the two calls. -/
theorem create_remove_roundtrip (t : Tree) (p : Str) (ht : t.idle = true)
    (hv : is_path_valid p = true) (hno : t.get (path_names p) = none)
    (hpar : (t.get (parent_names p)).isSome = true) :
    ∃ t1, tree_create t p = some (0, t1) ∧ tree_remove t1 p = some (0, t) := by
  rcases valid_cases p hv with rfl | ⟨cs, c, rfl, hcs⟩
  · simp [path_names_root] at hno
  · rw [path_names_snoc cs c hcs] at hno
    rw [parent_names_snoc cs c hcs] at hpar
    obtain ⟨n, hn⟩ := Option.isSome_iff_exists.1 hpar
    have hex : hmap_get n.children c = none := by
      have := hno
      rw [Tree.get_append, hn] at this
      cases h : hmap_get n.children c with
      | none => rfl
      | some v => simp [Tree.get_cons, h] at this
    have hc := tree_create_eval t cs c hcs ht
    rw [hn] at hc
    simp only [hex, Option.isSome_none, Bool.false_eq_true, if_false] at hc
    refine ⟨_, hc, ?_⟩
    have hidle : (Tree.modify
        (fun k => k.setChildren (hmap_insert k.children c (tree_new.setName (strdup_exact c)))) cs t).idle
        = true := by
      apply Tree.idle_modify _ t cs ht
      intro k hk
      cases k with
      | mk kn ks km =>
        rw [Tree.idle_mk] at hk
        simp only [Tree.children_mk, Tree.setChildren_mk, Tree.idle_mk]
        exact ⟨hk.1, HashMap.idle_insert _ _ _ hk.2 (by simp [tree_new, hmap_new, Tree.idle, HashMap.idle])⟩
    rw [tree_remove_eval _ cs c hcs hidle, Tree.get_modify, hn]
    cases n with
    | mk nm s m =>
      simp only [Tree.children_mk] at hex
      simp only [Option.map_some', Tree.children_mk, Tree.setChildren_mk,
        hmap_get_insert_same _ _ _ hex]
      have hsz : hmap_size (tree_new.setName (strdup_exact c)).children = 0 := rfl
      simp only [hsz, if_true, Tree.modify_modify, Tree.children_mk, Tree.setChildren_mk]
      congr 2
      apply Tree.modify_self _ t cs _ hn
      simp [hmap_remove_insert _ _ _ hex]

/-- C10 at a concrete input: `/a/` is created in the tree made by `tree_new`
and removed again. -/
theorem create_remove_roundtrip_witness :
    (tree_new.idle = true ∧ is_path_valid ['/', 'a', '/'] = true ∧
      tree_new.get (path_names ['/', 'a', '/']) = none ∧
      (tree_new.get (parent_names ['/', 'a', '/'])).isSome = true) ∧
    ∃ t1, tree_create tree_new ['/', 'a', '/'] = some (0, t1) ∧
      tree_remove t1 ['/', 'a', '/'] = some (0, tree_new) :=
  ⟨⟨by decide, by decide, by decide, by decide⟩,
    create_remove_roundtrip tree_new ['/', 'a', '/'] (by decide) (by decide) (by decide)
      (by decide)⟩

/-! ## The byte comparison of `tree_move` -/

theorem strncmp_eq_iff (a b : Str) : strncmp_eq a b a.length = true ↔ a <+: b := by
  simp [strncmp_eq, List.prefix_iff_eq_take]

theorem name_slash_split (c d X Y : Str) (hc : ∀ x ∈ c, x ≠ '/') (hd : ∀ x ∈ d, x ≠ '/')
    (h : c ++ '/' :: X <+: d ++ '/' :: Y) : c = d ∧ X <+: Y := by
  induction c generalizing d with
  | nil =>
    cases d with
    | nil => simpa using h
    | cons y d =>
      have hy : y ≠ '/' := hd y (by simp)
      simp only [List.nil_append, List.cons_append, List.cons_prefix_cons] at h
      exact absurd h.1.symm hy
  | cons x c ih =>
    have hx : x ≠ '/' := hc x (by simp)
    cases d with
    | nil =>
      simp only [List.nil_append, List.cons_append, List.cons_prefix_cons] at h
      exact absurd h.1 hx
    | cons y d =>
      simp only [List.cons_append, List.cons_prefix_cons] at h
      obtain ⟨h1, h2⟩ := ih d (fun z hz => hc z (by simp [hz])) (fun z hz => hd z (by simp [hz]))
        h.2
      exact ⟨by rw [h.1, h1], h2⟩

theorem path_tail_le_iff (a b : Loc) (ha : ∀ c ∈ a, ∀ y ∈ c, y ≠ '/')
    (hb : ∀ c ∈ b, ∀ y ∈ c, y ≠ '/') : path_tail a <+: path_tail b ↔ a <+: b := by
  constructor
  · intro h
    induction a generalizing b with
    | nil => exact List.nil_prefix
    | cons c a ih =>
      cases b with
      | nil => simp [path_tail] at h
      | cons d b =>
        simp only [path_tail] at h
        obtain ⟨h1, h2⟩ := name_slash_split c d _ _ (ha c (by simp)) (hb d (by simp)) h
        subst h1
        rw [List.cons_prefix_cons]
        exact ⟨rfl, ih b (fun e he => ha e (by simp [he])) (fun e he => hb e (by simp [he])) h2⟩
  · rintro ⟨r, rfl⟩
    rw [path_tail_append]
    exact List.prefix_append _ _

/-- The bytes of one path begin another exactly when its names do. -/
theorem path_of_le_iff (a b : Loc) (ha : ∀ c ∈ a, ∀ y ∈ c, y ≠ '/')
    (hb : ∀ c ∈ b, ∀ y ∈ c, y ≠ '/') : path_of a <+: path_of b ↔ a <+: b := by
  simp only [path_of, List.cons_prefix_cons, true_and]
  exact path_tail_le_iff a b ha hb

theorem path_of_inj (a b : Loc) (ha : ∀ c ∈ a, ∀ y ∈ c, y ≠ '/')
    (hb : ∀ c ∈ b, ∀ y ∈ c, y ≠ '/') (h : path_of a = path_of b) : a = b := by
  rw [← path_names_path_of a ha, ← path_names_path_of b hb, h]

/-- The checks `tree_move` makes on its two paths before it looks at the tree. -/
theorem tree_move_checks (t : Tree) (source target : Str) :
    ((is_path_valid source = false ∨ is_path_valid target = false) →
      tree_move t source target = some (EINVAL, t)) ∧
    (is_path_valid source = true → is_path_valid target = true →
      (source = ['/'] → tree_move t source target = some (EBUSY, t)) ∧
      (source ≠ ['/'] → target = ['/'] → tree_move t source target = some (EEXIST, t)) ∧
      (source ≠ ['/'] → target ≠ ['/'] → path_names source <+: path_names target →
        tree_move t source target = some (EILLEGALMOVE, t))) := by
  refine ⟨?_, fun hs ht => ⟨?_, ?_, ?_⟩⟩
  · rintro (h | h) <;> simp [tree_move, h]
  · rintro rfl
    simp [tree_move, hs, ht, strcmp_eq]
  · rintro h1 rfl
    simp [tree_move, hs, ht, strcmp_eq, h1]
  · intro h1 h2 hpre
    obtain ⟨a, rfl, ha⟩ := (is_path_valid_iff source).1 hs
    obtain ⟨b, rfl, hb⟩ := (is_path_valid_iff target).1 ht
    rw [path_names_path_of a (good_names_no_slash ha),
      path_names_path_of b (good_names_no_slash hb)] at hpre
    have := (strncmp_eq_iff _ _).2
      ((path_of_le_iff a b (good_names_no_slash ha) (good_names_no_slash hb)).2 hpre)
    simp [tree_move, hs, ht, strcmp_eq, h1, h2, this]

/-- C6: whatever the tree, `tree_move` returns EINVAL when a path is not
valid; otherwise EBUSY when the source is `/`; otherwise EEXIST when the
target is `/`; otherwise EILLEGALMOVE when the names of the source begin the
names of the target (the target is the source or lies under it).  The tree is
not consulted and not changed. -/
theorem tree_move_validation (t : Tree) (source target : Str) :
    ((is_path_valid source = false ∨ is_path_valid target = false) →
      tree_move t source target = some (EINVAL, t)) ∧
    (is_path_valid source = true → is_path_valid target = true →
      (source = ['/'] → tree_move t source target = some (EBUSY, t)) ∧
      (source ≠ ['/'] → target = ['/'] → tree_move t source target = some (EEXIST, t)) ∧
      (source ≠ ['/'] → target ≠ ['/'] → path_names source <+: path_names target →
        tree_move t source target = some (EILLEGALMOVE, t))) :=
  tree_move_checks t source target
/-! ## `tree_move` on names -/

theorem hmap_put_insert_same (m : HashMap) (k : Str) (v w : Tree) (h : hmap_get m k = none) :
    hmap_put (hmap_insert m k v) k w = hmap_insert m k w := by
  induction m using HashMap.ind with
  | hnil => simp [hmap_insert, hmap_put]
  | hcons k2 v2 r ih =>
    by_cases h2 : k = k2
    · simp [hmap_get, h2] at h
    · simp only [hmap_get, h2, if_false] at h
      simp only [hmap_insert, h2, if_false]
      split
      · simp [hmap_put]
      · simp [hmap_put, h2, ih h]

theorem hmap_put_insert_ne (m : HashMap) (k k1 : Str) (v w : Tree) (h : k1 ≠ k) :
    hmap_put (hmap_insert m k v) k1 w = hmap_insert (hmap_put m k1 w) k v := by
  induction m using HashMap.ind with
  | hnil => simp [hmap_insert, hmap_put, h]
  | hcons k2 v2 r ih =>
    by_cases h1 : k1 = k2
    · subst h1
      have hk : k ≠ k1 := fun e => h e.symm
      simp only [hmap_insert, hk, if_false, hmap_put, if_true]
      split <;> simp [hmap_put, h]
    · simp only [hmap_insert, hmap_put, h1, if_false]
      split
      · simp [hmap_put, h, h1]
      · split
        · simp [hmap_put, h1]
        · simp [hmap_put, h1, ih]

theorem hmap_remove_put_ne (m : HashMap) (k k1 : Str) (w : Tree) (h : k1 ≠ k) :
    hmap_remove (hmap_put m k1 w) k = hmap_put (hmap_remove m k) k1 w := by
  induction m using HashMap.ind with
  | hnil => rfl
  | hcons k2 v2 r ih =>
    by_cases h1 : k1 = k2
    · subst h1
      have hk : k ≠ k1 := fun e => h e.symm
      simp [hmap_remove, hmap_put, hk]
    · by_cases h2 : k = k2
      · subst h2; simp [hmap_remove, hmap_put, h1, ih]
      · simp [hmap_remove, hmap_put, h1, h2, ih]

theorem hmap_get_remove (m : HashMap) (k k1 : Str) (h : hmap_get m k1 = none) :
    hmap_get (hmap_remove m k) k1 = none := by
  by_cases hk : k1 = k
  · rw [hk]; exact hmap_get_remove_same m k
  · rw [hmap_get_remove_ne m k k1 hk]; exact h

/-- What `tree_move_relink` returns is 0. -/
theorem relink_code (tn : Str) (t : Tree) (L D S : Loc) (fd fs : Bool) (child : Tree)
    (r : Int) (t1 : Tree) (h : tree_move_relink tn t L D S fd fs child = some (r, t1)) :
    r = 0 := by
  unfold tree_move_relink at h
  split at h
  · simp at h
  · split at h
    · simp at h
    · split at h
      · simp at h
      · dsimp only at h
        split at h
        · simp at h
        · split at h
          · simp at h
          · split at h
            · simp at h
            · split at h
              · simp at h
              · simp only [Option.some.injEq, Prod.mk.injEq] at h
                exact h.1.symm

/-- `tree_move_relink` has no result when the new name does not fit into the
buffer of the old one. -/
theorem relink_overflow (tn : Str) (t : Tree) (L D S : Loc) (fd fs : Bool) (b : Buf)
    (cm : HashMap) (h : b.size < tn.length + 1) :
    tree_move_relink tn t L D S fd fs (Tree.mk (some b) synchro_init cm) = none := by
  have : ¬ tn.length + 1 ≤ b.size := by omega
  simp [tree_move_relink, synchro_modify_init, strcpy, this]

/-- `tree_move_relink` when both parents are the lca. -/
theorem relink_here (t : Tree) (L : Loc) (nm : Option Buf) (mp cm : HashMap) (tn sn : Str)
    (hn : t.get L = some (Tree.mk nm synchro_init mp)) (htn : hmap_get mp tn = none)
    (cap : Nat) (hfit : tn.length + 1 ≤ cap) :
    tree_move_relink tn (t.set L (Tree.mk nm synchro_modified mp)) L L L true true
        (Tree.mk (some ⟨cap, sn⟩) synchro_init cm) =
      some (0, t.set L (Tree.mk nm synchro_init
        (hmap_insert (hmap_remove mp sn) tn (Tree.mk (some ⟨cap, tn⟩) synchro_init cm)))) := by
  have hg : hmap_get (hmap_remove mp sn) tn = none := hmap_get_remove mp sn tn htn
  simp only [tree_move_relink, Tree.name_mk, Tree.synchronizer_mk, synchro_modify_init, strcpy,
    hfit, if_true,
    Tree.modify_set_here, Tree.setChildren_mk, Tree.children_mk, Tree.setSynchronizer_mk,
    Tree.setName_mk, sync_call_unless, if_true]
  rw [sync_call_set _ t L [tn] _ _ (Tree.mk (some ⟨cap, tn⟩) synchro_modified cm) hn
    (by simp [Tree.get_cons, hmap_get_insert_same _ _ _ hg])]
  simp only [Tree.modify, Tree.children_mk, hmap_get_insert_same _ _ _ hg,
    Tree.setChildren_mk, Tree.setSynchronizer_mk, Tree.synchronizer_mk,
    synchro_leave_modified, hmap_put_insert_same _ _ _ _ hg,
    sync_call_set_here _ t L _ _ hn]

/-- `tree_move_finish` when both parents are the lca. -/
theorem finish_here (t : Tree) (L : Loc) (nm : Option Buf) (mp : HashMap) (tn sn : Str)
    (hn : t.get L = some (Tree.mk nm synchro_init mp)) :
    tree_move_finish tn sn (t.set L (Tree.mk nm synchro_modified mp)) L L L true true =
      match hmap_get mp sn with
      | none => some (ENOENT, t)
      | some child =>
        tree_move_relink tn (t.set L (Tree.mk nm synchro_modified mp)) L L L true true child := by
  simp only [tree_move_finish, bne_self_eq_false, Bool.false_eq_true, if_false,
    Tree.get_set_here t L _ _ hn, Tree.children_mk, sync_call_unless, if_true]
  cases hsn : hmap_get mp sn with
  | none =>
    simp only [sync_call_set_here _ t L _ _ hn, Tree.setSynchronizer_mk, Tree.synchronizer_mk,
      synchro_leave_modified, Tree.set_self t L _ hn]
  | some child => rfl

theorem loc_below_ne (L : Loc) (c : Str) (r : Loc) : (L ++ c :: r != L) = true := by
  simp only [bne_iff_ne, ne_eq]
  intro h
  have := congrArg List.length h
  simp at this

theorem loc_above_ne (L : Loc) (c : Str) (r : Loc) : (L != L ++ c :: r) = true := by
  simp only [bne_iff_ne, ne_eq]
  intro h
  have := congrArg List.length h
  simp at this

theorem loc_apart_ne (L : Loc) (c d : Str) (r q : Loc) (h : c ≠ d) :
    (L ++ c :: r != L ++ d :: q) = true := by
  simp only [bne_iff_ne, ne_eq, List.append_cancel_left_eq, List.cons.injEq, not_and]
  exact fun e => absurd e h

/-- `tree_move_finish` when the parent of the target is the lca and the parent
of the source lies below it. -/
theorem finish_src_below (t : Tree) (L : Loc) (nm bn : Option Buf) (mp bm : HashMap)
    (ns : Tree) (tn sn sc : Str) (ss : Loc)
    (hn : t.get L = some (Tree.mk nm synchro_init mp)) (hsc : hmap_get mp sc = some ns)
    (hB : ns.get ss = some (Tree.mk bn synchro_init bm)) :
    tree_move_finish tn sn (t.set L (Tree.mk nm synchro_modified
        (hmap_put mp sc (ns.set ss (Tree.mk bn synchro_visited bm))))) L L (L ++ sc :: ss)
        true false =
      match hmap_get bm sn with
      | none => some (ENOENT, t)
      | some child =>
        tree_move_relink tn (t.set L (Tree.mk nm synchro_modified
          (hmap_put mp sc (ns.set ss (Tree.mk bn synchro_modified bm))))) L L (L ++ sc :: ss)
          true false child := by
  have hg : (Tree.mk nm synchro_modified
      (hmap_put mp sc (ns.set ss (Tree.mk bn synchro_visited bm)))).get (sc :: ss) =
      some (Tree.mk bn synchro_visited bm) := by
    simp [Tree.get_cons, hmap_get_put_same, hsc, Tree.get_set_here ns ss _ _ hB]
  simp only [tree_move_finish, loc_below_ne, if_true, sync_wait_unless, Bool.false_eq_true,
    if_false, sync_call_unless]
  rw [sync_wait_set _ t L (sc :: ss) _ _ _ synchro_modified hn hg synchro_upgrade_visited]
  simp only [Tree.modify, Tree.children_mk, hmap_get_put_same, hsc, Option.map_some',
    Tree.setChildren_mk, hmap_put_put, Tree.modify_set_here, Tree.setSynchronizer_mk]
  have hg2 : (Tree.mk nm synchro_modified
      (hmap_put mp sc (ns.set ss (Tree.mk bn synchro_modified bm)))).get (sc :: ss) =
      some (Tree.mk bn synchro_modified bm) := by
    simp [Tree.get_cons, hmap_get_put_same, hsc, Tree.get_set_here ns ss _ _ hB]
  rw [Tree.get_set t L (sc :: ss) _ _ hn, hg2]
  simp only [Tree.children_mk]
  cases hsn : hmap_get bm sn with
  | none =>
    simp only [sync_call_set_here _ t L _ _ hn, Tree.setSynchronizer_mk, Tree.synchronizer_mk,
      synchro_leave_modified]
    rw [sync_call_set _ t L (sc :: ss) _ _ (Tree.mk bn synchro_modified bm) hn
      (by simp [Tree.get_cons, hmap_get_put_same, hsc, Tree.get_set_here ns ss _ _ hB])]
    simp only [Tree.modify, Tree.children_mk, hmap_get_put_same, hsc, Option.map_some',
      Tree.setChildren_mk, hmap_put_put, Tree.modify_set_here, Tree.setSynchronizer_mk,
      Tree.synchronizer_mk, synchro_leave_modified, Tree.set_self ns ss _ hB,
      hmap_put_get _ _ _ hsc, Tree.set_self t L _ hn]
  | some child => rfl

theorem ne_of_get (m : HashMap) (a b : Str) (v : Tree) (ha : hmap_get m a = none)
    (hb : hmap_get m b = some v) : a ≠ b := by
  rintro rfl
  rw [ha] at hb
  exact absurd hb (by simp)

/-- `tree_move_relink` when the parent of the target is the lca and the parent
of the source lies below it. -/
theorem relink_src_below (t : Tree) (L : Loc) (nm bn : Option Buf) (mp bm cm : HashMap)
    (ns : Tree) (tn sn sc : Str) (ss : Loc)
    (hn : t.get L = some (Tree.mk nm synchro_init mp)) (hsc : hmap_get mp sc = some ns)
    (hB : ns.get ss = some (Tree.mk bn synchro_init bm)) (htn : hmap_get mp tn = none)
    (cap : Nat) (hfit : tn.length + 1 ≤ cap) :
    tree_move_relink tn (t.set L (Tree.mk nm synchro_modified
        (hmap_put mp sc (ns.set ss (Tree.mk bn synchro_modified bm))))) L L (L ++ sc :: ss)
        true false (Tree.mk (some ⟨cap, sn⟩) synchro_init cm) =
      some (0, t.set L (Tree.mk nm synchro_init (hmap_insert
        (hmap_put mp sc (ns.set ss (Tree.mk bn synchro_init (hmap_remove bm sn)))) tn
        (Tree.mk (some ⟨cap, tn⟩) synchro_init cm)))) := by
  have hne : tn ≠ sc := ne_of_get mp tn sc ns htn hsc
  have hne2 : sc ≠ tn := fun e => hne e.symm
  have hg : ∀ x, hmap_get (hmap_put mp sc x) tn = none := fun x => by
    rw [hmap_get_put_ne _ _ _ _ hne, htn]
  simp only [tree_move_relink, Tree.name_mk, Tree.synchronizer_mk, synchro_modify_init, strcpy,
    hfit, if_true,
    Tree.modify_set, Tree.modify_set_here, Tree.setChildren_mk, Tree.children_mk,
    Tree.setSynchronizer_mk, Tree.setName_mk, sync_call_unless, if_true, Bool.false_eq_true,
    if_false, Tree.modify, hmap_get_put_same, hsc, Option.map_some', hmap_put_put]
  rw [sync_call_set _ t L [tn] _ _ (Tree.mk (some ⟨cap, tn⟩) synchro_modified cm) hn
    (by simp [Tree.get_cons, hmap_get_insert_same _ _ _ (hg _)])]
  simp only [Tree.modify, Tree.children_mk, hmap_get_insert_same _ _ _ (hg _),
    Tree.setChildren_mk, Tree.setSynchronizer_mk, Tree.synchronizer_mk,
    synchro_leave_modified, hmap_put_insert_same _ _ _ _ (hg _),
    sync_call_set_here _ t L _ _ hn]
  rw [sync_call_set _ t L (sc :: ss) _ _ (Tree.mk bn synchro_modified (hmap_remove bm sn)) hn
    (by simp [Tree.get_cons, hmap_get_insert_ne _ _ _ _ hne2, hmap_get_put_same, hsc,
      Tree.get_set_here ns ss _ _ hB])]
  simp only [Tree.modify, Tree.children_mk, hmap_get_insert_ne _ _ _ _ hne2,
    hmap_get_put_same, hsc, Option.map_some', Tree.setChildren_mk,
    hmap_put_insert_ne _ _ _ _ _ hne2, hmap_put_put, Tree.modify_set_here,
    Tree.setSynchronizer_mk, Tree.synchronizer_mk, synchro_leave_modified]

/-- `tree_move_finish` when the parent of the source is the lca and the parent
of the target lies below it, under another name than the source. -/
theorem finish_dest_below (t : Tree) (L : Loc) (nm an : Option Buf) (mp am : HashMap)
    (nd : Tree) (tn sn dc : Str) (ds : Loc)
    (hn : t.get L = some (Tree.mk nm synchro_init mp)) (hdc : hmap_get mp dc = some nd)
    (hA : nd.get ds = some (Tree.mk an synchro_init am)) (hsd : sn ≠ dc) :
    tree_move_finish tn sn (t.set L (Tree.mk nm synchro_modified
        (hmap_put mp dc (nd.set ds (Tree.mk an synchro_visited am))))) L (L ++ dc :: ds) L
        false true =
      match hmap_get mp sn with
      | none => some (ENOENT, t)
      | some child =>
        tree_move_relink tn (t.set L (Tree.mk nm synchro_modified
          (hmap_put mp dc (nd.set ds (Tree.mk an synchro_modified am))))) L (L ++ dc :: ds) L
          false true child := by
  have hg : (Tree.mk nm synchro_modified
      (hmap_put mp dc (nd.set ds (Tree.mk an synchro_visited am)))).get (dc :: ds) =
      some (Tree.mk an synchro_visited am) := by
    simp [Tree.get_cons, hmap_get_put_same, hdc, Tree.get_set_here nd ds _ _ hA]
  simp only [tree_move_finish, loc_above_ne, if_true, sync_wait_unless, Bool.false_eq_true,
    if_false, sync_call_unless]
  rw [sync_wait_set _ t L (dc :: ds) _ _ _ synchro_modified hn hg synchro_upgrade_visited]
  simp only [Tree.modify, Tree.children_mk, hmap_get_put_same, hdc, Option.map_some',
    Tree.setChildren_mk, hmap_put_put, Tree.modify_set_here, Tree.setSynchronizer_mk,
    Tree.get_set_here t L _ _ hn, hmap_get_put_ne _ _ _ _ hsd]
  cases hsn : hmap_get mp sn with
  | none =>
    simp only [sync_call_set_here _ t L _ _ hn, Tree.setSynchronizer_mk, Tree.synchronizer_mk,
      synchro_leave_modified]
    rw [sync_call_set _ t L (dc :: ds) _ _ (Tree.mk an synchro_modified am) hn
      (by simp [Tree.get_cons, hmap_get_put_same, hdc, Tree.get_set_here nd ds _ _ hA])]
    simp only [Tree.modify, Tree.children_mk, hmap_get_put_same, hdc, Option.map_some',
      Tree.setChildren_mk, hmap_put_put, Tree.modify_set_here, Tree.setSynchronizer_mk,
      Tree.synchronizer_mk, synchro_leave_modified, Tree.set_self nd ds _ hA,
      hmap_put_get _ _ _ hdc, Tree.set_self t L _ hn]
  | some child => rfl

/-- `tree_move_relink` when the parent of the source is the lca and the parent
of the target lies below it. -/
theorem relink_dest_below (t : Tree) (L : Loc) (nm an : Option Buf) (mp am cm : HashMap)
    (nd : Tree) (tn sn dc : Str) (ds : Loc)
    (hn : t.get L = some (Tree.mk nm synchro_init mp)) (hdc : hmap_get mp dc = some nd)
    (hA : nd.get ds = some (Tree.mk an synchro_init am)) (hsd : sn ≠ dc)
    (htn : hmap_get am tn = none) (cap : Nat) (hfit : tn.length + 1 ≤ cap) :
    tree_move_relink tn (t.set L (Tree.mk nm synchro_modified
        (hmap_put mp dc (nd.set ds (Tree.mk an synchro_modified am))))) L (L ++ dc :: ds) L
        false true (Tree.mk (some ⟨cap, sn⟩) synchro_init cm) =
      some (0, t.set L (Tree.mk nm synchro_init (hmap_put (hmap_remove mp sn) dc
        (nd.set ds (Tree.mk an synchro_init
          (hmap_insert am tn (Tree.mk (some ⟨cap, tn⟩) synchro_init cm))))))) := by
  have hds : dc ≠ sn := fun e => hsd e.symm
  have hgd : hmap_get (hmap_remove mp sn) dc = some nd := by
    rw [hmap_get_remove_ne _ _ _ hds, hdc]
  simp only [tree_move_relink, Tree.name_mk, Tree.synchronizer_mk, synchro_modify_init, strcpy,
    hfit, if_true,
    Tree.modify_set, Tree.modify_set_here, Tree.setChildren_mk, Tree.children_mk,
    Tree.setSynchronizer_mk, Tree.setName_mk, sync_call_unless, if_true, Bool.false_eq_true,
    if_false, hmap_remove_put_ne _ _ _ _ hds, Tree.modify, hmap_get_put_same, hgd,
    Option.map_some', hmap_put_put]
  rw [List.append_assoc, List.cons_append]
  rw [sync_call_set _ t L (dc :: (ds ++ [tn])) _ _ (Tree.mk (some ⟨cap, tn⟩) synchro_modified cm) hn
    (by simp [Tree.get_cons, hmap_get_put_same, hgd, Tree.get_set nd ds [tn] _ _ hA,
      hmap_get_insert_same _ _ _ htn])]
  simp only [Tree.modify, Tree.children_mk, hmap_get_put_same, hgd, Option.map_some',
    Tree.setChildren_mk, hmap_put_put, Tree.modify_set, hmap_get_insert_same _ _ _ htn,
    Tree.setSynchronizer_mk, Tree.synchronizer_mk, synchro_leave_modified,
    hmap_put_insert_same _ _ _ _ htn, sync_call_set_here _ t L _ _ hn]
  rw [sync_call_set _ t L (dc :: ds) _ _
    (Tree.mk an synchro_modified (hmap_insert am tn (Tree.mk (some ⟨cap, tn⟩) synchro_init cm))) hn
    (by simp [Tree.get_cons, hmap_get_put_same, hgd, Tree.get_set_here nd ds _ _ hA])]
  simp only [Tree.modify, Tree.children_mk, hmap_get_put_same, hgd, Option.map_some',
    Tree.setChildren_mk, hmap_put_put, Tree.modify_set_here, Tree.setSynchronizer_mk,
    Tree.synchronizer_mk, synchro_leave_modified]

theorem hmap_put_put_ne (m : HashMap) (k k1 : Str) (v w x : Tree) (h : k ≠ k1) :
    hmap_put (hmap_put (hmap_put m k v) k1 w) k x = hmap_put (hmap_put m k x) k1 w := by
  rw [hmap_put_comm _ k1 k w x (fun e => h e.symm), hmap_put_put]

/-- `tree_move_finish` when both parents lie below the lca, under different
names. -/
theorem finish_both_below (t : Tree) (L : Loc) (nm an bn : Option Buf) (mp am bm : HashMap)
    (nd ns : Tree) (tn sn dc sc : Str) (ds ss : Loc)
    (hn : t.get L = some (Tree.mk nm synchro_init mp)) (hdc : hmap_get mp dc = some nd)
    (hA : nd.get ds = some (Tree.mk an synchro_init am)) (hsc : hmap_get mp sc = some ns)
    (hB : ns.get ss = some (Tree.mk bn synchro_init bm)) (hne : dc ≠ sc) :
    tree_move_finish tn sn (t.set L (Tree.mk nm synchro_modified
        (hmap_put (hmap_put mp dc (nd.set ds (Tree.mk an synchro_visited am))) sc
          (ns.set ss (Tree.mk bn synchro_visited bm))))) L (L ++ dc :: ds) (L ++ sc :: ss)
        false false =
      match hmap_get bm sn with
      | none => some (ENOENT, t)
      | some child =>
        tree_move_relink tn (t.set L (Tree.mk nm synchro_modified
          (hmap_put (hmap_put mp dc (nd.set ds (Tree.mk an synchro_modified am))) sc
            (ns.set ss (Tree.mk bn synchro_modified bm))))) L (L ++ dc :: ds) (L ++ sc :: ss)
          false false child := by
  have hne2 : sc ≠ dc := fun e => hne e.symm
  simp only [tree_move_finish, loc_apart_ne L sc dc ss ds hne2, if_true, sync_wait_unless,
    Bool.false_eq_true, if_false, sync_call_unless]
  rw [sync_wait_set _ t L (dc :: ds) _ _ (Tree.mk an synchro_visited am) synchro_modified hn
    (by simp [Tree.get_cons, hmap_get_put_same, hmap_get_put_ne _ _ _ _ hne, hdc,
      Tree.get_set_here nd ds _ _ hA]) synchro_upgrade_visited]
  simp only [Tree.modify, Tree.children_mk, hmap_get_put_same, hmap_get_put_ne _ _ _ _ hne,
    hdc, Option.map_some', Tree.setChildren_mk, hmap_put_put_ne _ _ _ _ _ _ hne,
    Tree.modify_set_here, Tree.setSynchronizer_mk]
  rw [sync_wait_set _ t L (sc :: ss) _ _ (Tree.mk bn synchro_visited bm) synchro_modified hn
    (by simp [Tree.get_cons, hmap_get_put_same, hmap_get_put_ne _ _ _ _ hne2, hsc,
      Tree.get_set_here ns ss _ _ hB]) synchro_upgrade_visited]
  simp only [Tree.modify, Tree.children_mk, hmap_get_put_same, hmap_get_put_ne _ _ _ _ hne2,
    hsc, Option.map_some', Tree.setChildren_mk, hmap_put_put, Tree.modify_set_here,
    Tree.setSynchronizer_mk]
  have hg2 : (Tree.mk nm synchro_modified
      (hmap_put (hmap_put mp dc (nd.set ds (Tree.mk an synchro_modified am))) sc
        (ns.set ss (Tree.mk bn synchro_modified bm)))).get (sc :: ss) =
      some (Tree.mk bn synchro_modified bm) := by
    simp [Tree.get_cons, hmap_get_put_same, hmap_get_put_ne _ _ _ _ hne2, hsc,
      Tree.get_set_here ns ss _ _ hB]
  rw [Tree.get_set t L (sc :: ss) _ _ hn, hg2]
  simp only [Tree.children_mk]
  cases hsn : hmap_get bm sn with
  | none =>
    simp only [sync_call_set_here _ t L _ _ hn, Tree.setSynchronizer_mk, Tree.synchronizer_mk,
      synchro_leave_modified]
    rw [sync_call_set _ t L (dc :: ds) _ _ (Tree.mk an synchro_modified am) hn
      (by simp [Tree.get_cons, hmap_get_put_same, hmap_get_put_ne _ _ _ _ hne, hdc,
        Tree.get_set_here nd ds _ _ hA])]
    simp only [Tree.modify, Tree.children_mk, hmap_get_put_same, hmap_get_put_ne _ _ _ _ hne,
      hdc, Option.map_some', Tree.setChildren_mk, hmap_put_put_ne _ _ _ _ _ _ hne,
      Tree.modify_set_here, Tree.setSynchronizer_mk, Tree.synchronizer_mk,
      synchro_leave_modified]
    rw [sync_call_set _ t L (sc :: ss) _ _ (Tree.mk bn synchro_modified bm) hn
      (by simp [Tree.get_cons, hmap_get_put_same, hmap_get_put_ne _ _ _ _ hne2, hsc,
        Tree.get_set_here ns ss _ _ hB])]
    simp only [Tree.modify, Tree.children_mk, hmap_get_put_same, hmap_get_put_ne _ _ _ _ hne2,
      hsc, Option.map_some', Tree.setChildren_mk, hmap_put_put, Tree.modify_set_here,
      Tree.setSynchronizer_mk, Tree.synchronizer_mk, synchro_leave_modified,
      Tree.set_self ns ss _ hB, Tree.set_self nd ds _ hA, hmap_put_get _ _ _ hdc,
      hmap_put_get _ _ _ hsc, Tree.set_self t L _ hn]
  | some child => rfl

/-- `tree_move_relink` when both parents lie below the lca, under different
names. -/
theorem relink_both_below (t : Tree) (L : Loc) (nm an bn : Option Buf)
    (mp am bm cm : HashMap) (nd ns : Tree) (tn sn dc sc : Str) (ds ss : Loc)
    (hn : t.get L = some (Tree.mk nm synchro_init mp)) (hdc : hmap_get mp dc = some nd)
    (hA : nd.get ds = some (Tree.mk an synchro_init am)) (hsc : hmap_get mp sc = some ns)
    (hB : ns.get ss = some (Tree.mk bn synchro_init bm)) (hne : dc ≠ sc)
    (htn : hmap_get am tn = none) (cap : Nat) (hfit : tn.length + 1 ≤ cap) :
    tree_move_relink tn (t.set L (Tree.mk nm synchro_modified
        (hmap_put (hmap_put mp dc (nd.set ds (Tree.mk an synchro_modified am))) sc
          (ns.set ss (Tree.mk bn synchro_modified bm))))) L (L ++ dc :: ds) (L ++ sc :: ss)
        false false (Tree.mk (some ⟨cap, sn⟩) synchro_init cm) =
      some (0, t.set L (Tree.mk nm synchro_init
        (hmap_put (hmap_put mp dc (nd.set ds (Tree.mk an synchro_init
            (hmap_insert am tn (Tree.mk (some ⟨cap, tn⟩) synchro_init cm))))) sc
          (ns.set ss (Tree.mk bn synchro_init (hmap_remove bm sn)))))) := by
  have hne2 : sc ≠ dc := fun e => hne e.symm
  simp only [tree_move_relink, Tree.name_mk, Tree.synchronizer_mk, synchro_modify_init, strcpy,
    hfit, if_true,
    Tree.modify_set, Tree.modify_set_here, Tree.setChildren_mk, Tree.children_mk,
    Tree.setSynchronizer_mk, Tree.setName_mk, sync_call_unless, if_true, Bool.false_eq_true,
    if_false, Tree.modify, hmap_get_put_same, hmap_get_put_ne _ _ _ _ hne,
    hmap_get_put_ne _ _ _ _ hne2, hsc, hdc, Option.map_some', hmap_put_put,
    hmap_put_put_ne _ _ _ _ _ _ hne]
  rw [List.append_assoc, List.cons_append]
  rw [sync_call_set _ t L (dc :: (ds ++ [tn])) _ _ (Tree.mk (some ⟨cap, tn⟩) synchro_modified cm) hn
    (by simp [Tree.get_cons, hmap_get_put_same, hmap_get_put_ne _ _ _ _ hne, hdc,
      Tree.get_set nd ds [tn] _ _ hA, hmap_get_insert_same _ _ _ htn])]
  simp only [Tree.modify, Tree.children_mk, hmap_get_put_same, hmap_get_put_ne _ _ _ _ hne,
    hdc, Option.map_some', Tree.setChildren_mk, hmap_put_put_ne _ _ _ _ _ _ hne,
    Tree.modify_set, hmap_get_insert_same _ _ _ htn, Tree.setSynchronizer_mk,
    Tree.synchronizer_mk, synchro_leave_modified, hmap_put_insert_same _ _ _ _ htn,
    sync_call_set_here _ t L _ _ hn]
  rw [sync_call_set _ t L (dc :: ds) _ _
    (Tree.mk an synchro_modified (hmap_insert am tn (Tree.mk (some ⟨cap, tn⟩) synchro_init cm))) hn
    (by simp [Tree.get_cons, hmap_get_put_same, hmap_get_put_ne _ _ _ _ hne, hdc,
      Tree.get_set_here nd ds _ _ hA])]
  simp only [Tree.modify, Tree.children_mk, hmap_get_put_same, hmap_get_put_ne _ _ _ _ hne,
    hdc, Option.map_some', Tree.setChildren_mk, hmap_put_put_ne _ _ _ _ _ _ hne,
    Tree.modify_set_here, Tree.setSynchronizer_mk, Tree.synchronizer_mk,
    synchro_leave_modified]
  rw [sync_call_set _ t L (sc :: ss) _ _ (Tree.mk bn synchro_modified (hmap_remove bm sn)) hn
    (by simp [Tree.get_cons, hmap_get_put_same, hmap_get_put_ne _ _ _ _ hne2, hsc,
      Tree.get_set_here ns ss _ _ hB])]
  simp only [Tree.modify, Tree.children_mk, hmap_get_put_same, hmap_get_put_ne _ _ _ _ hne2,
    hsc, Option.map_some', Tree.setChildren_mk, hmap_put_put, Tree.modify_set_here,
    Tree.setSynchronizer_mk, Tree.synchronizer_mk, synchro_leave_modified]

/-- The descent from the node at `L` into its child `sc` and on along `qs`. -/
theorem descend (t : Tree) (L : Loc) (n0 : Tree) (nm : Option Buf) (σ : Synchro)
    (m : HashMap) (sc : Str) (ns : Tree) (qs : Loc) (hn : t.get L = some n0)
    (hsc : hmap_get m sc = some ns) (hidle : ns.idle = true)
    (hq : ∀ c ∈ qs, ∀ y ∈ c, y ≠ '/') :
    ∃ t1, sync_wait synchro_visit (t.set L (Tree.mk nm σ m)) (L ++ [sc]) = some t1 ∧
      synchro_get_to_path t1 (L ++ [sc]) (path_of qs) =
        some (if ns.reach qs = qs then 0 else ENOENT, L ++ sc :: ns.reach qs,
          t.set L (Tree.mk nm σ
            (hmap_put m sc (Tree.modify (Tree.setSynchronizer synchro_visited)
              (ns.reach qs) ns)))) := by
  have hg : (Tree.mk nm σ m).get [sc] = some ns := by simp [Tree.get_cons, hsc]
  refine ⟨_, sync_wait_set _ t L [sc] _ _ ns synchro_visited hn hg
    (by rw [Tree.idle_synchronizer hidle]; exact synchro_visit_init), ?_⟩
  rw [← Tree.modify_set]
  have hx : (t.set L (Tree.mk nm σ m)).get (L ++ [sc]) = some ns := by
    rw [Tree.get_set t L [sc] _ _ hn, hg]
  rw [synchro_get_to_path_spec qs hq _ (L ++ [sc]) ns hx hidle]
  simp only [List.append_assoc, List.singleton_append, Tree.modify_set, Tree.modify,
    Tree.children_mk, hsc, Tree.setChildren_mk]

/-- Leaving the node a walk through an idle subtree stopped at. -/
theorem modify_visited_back (ns : Tree) (r : Loc) (k : Tree) (hidle : ns.idle = true)
    (hr : ns.get r = some k) :
    (Tree.modify (Tree.setSynchronizer synchro_visited) r ns).get r =
        some (k.setSynchronizer synchro_visited) ∧
      Tree.modify (Tree.setSynchronizer
        (synchro_leave_after_visiting (k.setSynchronizer synchro_visited).synchronizer)) r
        (Tree.modify (Tree.setSynchronizer synchro_visited) r ns) = ns := by
  refine ⟨by rw [Tree.get_modify, hr]; rfl, ?_⟩
  rw [Tree.modify_modify]
  apply Tree.modify_self _ ns r k hr
  have := Tree.idle_synchronizer (Tree.idle_get r k hidle hr)
  cases k with
  | mk kn ks km =>
    simp only [Tree.synchronizer_mk] at this
    subst this
    simp [synchro_leave_visited]

theorem modify_visited_reach (ns : Tree) (qs : Loc) (k : Tree) (hr : ns.get qs = some k) :
    Tree.modify (Tree.setSynchronizer synchro_visited) qs ns =
      ns.set qs (Tree.mk k.name synchro_visited k.children) := by
  rw [Tree.modify_eq_set _ ns qs k hr]
  cases k; rfl

theorem zero_ne_ENOENT : ((0 : Int) = ENOENT) = False := by decide

/-- `tree_move_source` when the parent of the target is the lca. -/
theorem source_dest_here (t : Tree) (L : Loc) (nm : Option Buf) (mp : HashMap) (tn sn : Str)
    (s : Loc) (hn : t.get L = some (Tree.mk nm synchro_init mp)) (hmi : mp.idle = true)
    (hs : ∀ c ∈ s, ∀ y ∈ c, y ≠ '/') (htn : hmap_get mp tn = none) :
    source_outcome
      (tree_move_source tn sn (t.set L (Tree.mk nm synchro_modified mp)) L L true (path_of s))
      t ((Tree.mk nm synchro_init mp).get s) tn sn
      (fun child => t.set L (move_insert tn child
        (Tree.modify (move_remove sn) s (Tree.mk nm synchro_init mp)))) := by
  cases s with
  | nil =>
    simp only [tree_move_source, split_path_root, finish_here t L nm mp tn sn hn,
      Tree.get_nil, source_outcome, Tree.children_mk]
    cases hsn : hmap_get mp sn with
    | none => rfl
    | some child =>
      refine ⟨fun code t1 h => relink_code _ _ _ _ _ _ _ _ _ _ h, fun b hname hstr => ?_⟩
      have hci := Tree.idle_synchronizer (HashMap.idle_lookup _ sn child hmi hsn)
      cases child with
      | mk cnm cs cm =>
        simp only [Tree.synchronizer_mk, Tree.name_mk] at hci hname
        subst hci hname
        cases b with
        | mk cap str =>
          simp only at hstr
          subst hstr
          dsimp only
          refine ⟨fun hfit => ?_, fun hover => relink_overflow _ _ _ _ _ _ _ _ _ hover⟩
          rw [relink_here t L nm mp cm tn _ hn htn cap hfit]
          simp [move_insert, move_remove,
            Tree.rename]
  | cons sc ss =>
    have hsc1 := hs sc (by simp)
    have hss : ∀ c ∈ ss, ∀ y ∈ c, y ≠ '/' := fun c hc => hs c (by simp [hc])
    simp only [tree_move_source, split_path_cons sc ss hsc1, Tree.get_set_here t L _ _ hn,
      Tree.children_mk, Tree.get_cons, sync_call_unless, if_true]
    cases hsc : hmap_get mp sc with
    | none =>
      simp only [Option.none_bind, source_outcome, sync_call_set_here _ t L _ _ hn,
        Tree.setSynchronizer_mk, Tree.synchronizer_mk, synchro_leave_modified,
        Tree.set_self t L _ hn]
    | some ns =>
      have hnsi := HashMap.idle_lookup _ sc ns hmi hsc
      obtain ⟨t1, h1, h2⟩ := descend t L _ nm synchro_modified mp sc ns ss hn hsc hnsi hss
      simp only [Option.some_bind, h1, h2]
      cases hB : ns.get ss with
      | none =>
        obtain ⟨k, hk⟩ := Option.isSome_iff_exists.1 (Tree.get_reach ns ss)
        obtain ⟨hk1, hk2⟩ := modify_visited_back ns _ k hnsi hk
        simp only [reach_of_get_none ns ss hB, if_false, if_true, source_outcome,
          sync_call_set_here _ t L _ _ hn, Tree.setSynchronizer_mk, Tree.synchronizer_mk,
          synchro_leave_modified]
        rw [sync_call_set _ t L (sc :: ns.reach ss) _ _ (k.setSynchronizer synchro_visited) hn
          (by simp [Tree.get_cons, hmap_get_put_same, hsc, hk1])]
        simp only [Tree.modify, Tree.children_mk, hmap_get_put_same, hsc, Option.map_some',
          Tree.setChildren_mk, hmap_put_put, hk2, hmap_put_get _ _ _ hsc,
          Tree.set_self t L _ hn]
      | some B =>
        have hBi := Tree.idle_synchronizer (Tree.idle_get ss B hnsi hB)
        cases B with
        | mk bn bs bm =>
          simp only [Tree.synchronizer_mk] at hBi
          subst hBi
          simp only [reach_of_get_some ns ss _ hB, if_true, zero_ne_ENOENT, if_false,
            modify_visited_reach ns ss _ hB, Tree.name_mk, Tree.children_mk,
            finish_src_below t L nm bn mp bm ns tn sn sc ss hn hsc hB, source_outcome]
          cases hsn : hmap_get bm sn with
          | none => rfl
          | some child =>
            refine ⟨fun code t1 h => relink_code _ _ _ _ _ _ _ _ _ _ h, fun b hname hstr => ?_⟩
            have hci := Tree.idle_synchronizer (HashMap.idle_lookup _ sn child
              (Tree.idle_children (Tree.idle_get ss _ hnsi hB)) hsn)
            cases child with
            | mk cnm cs cm =>
              simp only [Tree.synchronizer_mk, Tree.name_mk] at hci hname
              subst hci hname
              cases b with
              | mk cap str =>
                simp only at hstr
                subst hstr
                dsimp only
                refine ⟨fun hfit => ?_, fun hover => relink_overflow _ _ _ _ _ _ _ _ _ hover⟩
                rw [relink_src_below t L nm bn mp bm cm ns tn _ sc ss hn hsc hB htn cap hfit]
                simp [move_insert, move_remove, Tree.modify, hsc, Tree.modify_eq_set _ ns ss _ hB,
                  Tree.rename]

/-- `tree_move_source` when the parent of the target lies below the lca. -/
theorem source_dest_below (t : Tree) (L : Loc) (nm an : Option Buf) (mp am : HashMap)
    (nd : Tree) (tn sn dc : Str) (ds s : Loc)
    (hn : t.get L = some (Tree.mk nm synchro_init mp)) (hmi : mp.idle = true)
    (hdc : hmap_get mp dc = some nd) (hA : nd.get ds = some (Tree.mk an synchro_init am))
    (hs : ∀ c ∈ s, ∀ y ∈ c, y ≠ '/') (htn : hmap_get am tn = none)
    (hill : s = [] → sn ≠ dc) (hdiv : ∀ sc ss, s = sc :: ss → sc ≠ dc) :
    source_outcome
      (tree_move_source tn sn (t.set L (Tree.mk nm synchro_modified
        (hmap_put mp dc (nd.set ds (Tree.mk an synchro_visited am))))) L (L ++ dc :: ds) false
        (path_of s))
      t ((Tree.mk nm synchro_init mp).get s) tn sn
      (fun child => t.set L (Tree.modify (move_insert tn child) (dc :: ds)
        (Tree.modify (move_remove sn) s (Tree.mk nm synchro_init mp)))) := by
  cases s with
  | nil =>
    have hsd := hill rfl
    have hds : dc ≠ sn := fun e => hsd e.symm
    simp only [tree_move_source, split_path_root,
      finish_dest_below t L nm an mp am nd tn sn dc ds hn hdc hA hsd,
      Tree.get_nil, source_outcome, Tree.children_mk]
    cases hsn : hmap_get mp sn with
    | none => rfl
    | some child =>
      refine ⟨fun code t1 h => relink_code _ _ _ _ _ _ _ _ _ _ h, fun b hname hstr => ?_⟩
      have hci := Tree.idle_synchronizer (HashMap.idle_lookup _ sn child hmi hsn)
      cases child with
      | mk cnm cs cm =>
        simp only [Tree.synchronizer_mk, Tree.name_mk] at hci hname
        subst hci hname
        cases b with
        | mk cap str =>
          simp only at hstr
          subst hstr
          dsimp only
          refine ⟨fun hfit => ?_, fun hover => relink_overflow _ _ _ _ _ _ _ _ _ hover⟩
          rw [relink_dest_below t L nm an mp am cm nd tn _ dc ds hn hdc hA hsd htn cap hfit]
          simp [move_insert, move_remove, Tree.modify, hmap_get_remove_ne _ _ _ hds, hdc, Tree.modify_eq_set _ nd ds _ hA,
            Tree.rename]
  | cons sc ss =>
    have hne2 : sc ≠ dc := hdiv sc ss rfl
    have hne : dc ≠ sc := fun e => hne2 e.symm
    have hsc1 := hs sc (by simp)
    have hss : ∀ c ∈ ss, ∀ y ∈ c, y ≠ '/' := fun c hc => hs c (by simp [hc])
    have hgd : ∀ (σ : Synchro) (y : Tree), (Tree.mk nm σ (hmap_put (hmap_put mp dc
        (nd.set ds (Tree.mk an synchro_visited am))) sc y)).get (dc :: ds) =
        some (Tree.mk an synchro_visited am) := fun σ y => by
      simp [Tree.get_cons, hmap_get_put_same, hmap_get_put_ne _ _ _ _ hne, hdc,
        Tree.get_set_here nd ds _ _ hA]
    simp only [tree_move_source, split_path_cons sc ss hsc1, Tree.get_set_here t L _ _ hn,
      Tree.children_mk, Tree.get_cons, sync_call_unless, Bool.false_eq_true, if_false,
      hmap_get_put_ne _ _ _ _ hne2]
    cases hsc : hmap_get mp sc with
    | none =>
      simp only [Option.none_bind, source_outcome, sync_call_set_here _ t L _ _ hn,
        Tree.setSynchronizer_mk, Tree.synchronizer_mk, synchro_leave_modified]
      rw [sync_call_set _ t L (dc :: ds) _ _ (Tree.mk an synchro_visited am) hn
        (by simp [Tree.get_cons, hmap_get_put_same, hdc, Tree.get_set_here nd ds _ _ hA])]
      simp only [Tree.modify, Tree.children_mk, hmap_get_put_same, hdc, Option.map_some',
        Tree.setChildren_mk, hmap_put_put, Tree.modify_set_here, Tree.setSynchronizer_mk,
        Tree.synchronizer_mk, synchro_leave_visited, Tree.set_self nd ds _ hA,
        hmap_put_get _ _ _ hdc, Tree.set_self t L _ hn]
    | some ns =>
      have hnsi := HashMap.idle_lookup _ sc ns hmi hsc
      have hsc2 : hmap_get (hmap_put mp dc (nd.set ds (Tree.mk an synchro_visited am))) sc =
          some ns := by rw [hmap_get_put_ne _ _ _ _ hne2, hsc]
      obtain ⟨t1, h1, h2⟩ := descend t L _ nm synchro_modified _ sc ns ss hn hsc2 hnsi hss
      simp only [Option.some_bind, h1, h2]
      cases hB : ns.get ss with
      | none =>
        obtain ⟨k, hk⟩ := Option.isSome_iff_exists.1 (Tree.get_reach ns ss)
        obtain ⟨hk1, hk2⟩ := modify_visited_back ns _ k hnsi hk
        simp only [reach_of_get_none ns ss hB, if_false, if_true, source_outcome,
          sync_call_set_here _ t L _ _ hn, Tree.setSynchronizer_mk, Tree.synchronizer_mk,
          synchro_leave_modified]
        rw [sync_call_set _ t L (dc :: ds) _ _ (Tree.mk an synchro_visited am) hn (hgd _ _)]
        simp only [Tree.modify, Tree.children_mk, hmap_get_put_same,
          hmap_get_put_ne _ _ _ _ hne, hdc, Option.map_some', Tree.setChildren_mk,
          hmap_put_put_ne _ _ _ _ _ _ hne, Tree.modify_set_here, Tree.setSynchronizer_mk,
          Tree.synchronizer_mk, synchro_leave_visited, Tree.set_self nd ds _ hA,
          hmap_put_get _ _ _ hdc]
        rw [sync_call_set _ t L (sc :: ns.reach ss) _ _ (k.setSynchronizer synchro_visited) hn
          (by simp [Tree.get_cons, hmap_get_put_same, hsc, hk1])]
        simp only [Tree.modify, Tree.children_mk, hmap_get_put_same, hsc, Option.map_some',
          Tree.setChildren_mk, hmap_put_put, hk2, hmap_put_get _ _ _ hsc,
          Tree.set_self t L _ hn]
      | some B =>
        have hBi := Tree.idle_synchronizer (Tree.idle_get ss B hnsi hB)
        cases B with
        | mk bn bs bm =>
          simp only [Tree.synchronizer_mk] at hBi
          subst hBi
          simp only [reach_of_get_some ns ss _ hB, if_true, zero_ne_ENOENT, if_false,
            modify_visited_reach ns ss _ hB, Tree.name_mk, Tree.children_mk,
            finish_both_below t L nm an bn mp am bm nd ns tn sn dc sc ds ss hn hdc hA hsc hB hne,
            source_outcome]
          cases hsn : hmap_get bm sn with
          | none => rfl
          | some child =>
            refine ⟨fun code t1 h => relink_code _ _ _ _ _ _ _ _ _ _ h, fun b hname hstr => ?_⟩
            have hci := Tree.idle_synchronizer (HashMap.idle_lookup _ sn child
              (Tree.idle_children (Tree.idle_get ss _ hnsi hB)) hsn)
            cases child with
            | mk cnm cs cm =>
              simp only [Tree.synchronizer_mk, Tree.name_mk] at hci hname
              subst hci hname
              cases b with
              | mk cap str =>
                simp only at hstr
                subst hstr
                dsimp only
                refine ⟨fun hfit => ?_, fun hover => relink_overflow _ _ _ _ _ _ _ _ _ hover⟩
                rw [relink_both_below t L nm an bn mp am bm cm nd ns tn _ dc sc ds ss hn hdc hA hsc hB hne htn cap hfit]
                simp [move_insert, move_remove, Tree.modify, hsc, hdc, hmap_get_put_ne _ _ _ _ hne, Tree.modify_eq_set _ ns ss _ hB, Tree.modify_eq_set _ nd ds _ hA, hmap_put_comm _ sc dc _ _ hne2,
                  Tree.rename]

/-- `tree_move_dest`: the outcome of `tree_move` from the visited lca on. -/
theorem dest_from_lca (t : Tree) (L : Loc) (nm : Option Buf) (mp : HashMap) (tn sn : Str)
    (d s : Loc) (hn : t.get L = some (Tree.mk nm synchro_init mp)) (hmi : mp.idle = true)
    (hd : ∀ c ∈ d, ∀ y ∈ c, y ≠ '/') (hs : ∀ c ∈ s, ∀ y ∈ c, y ≠ '/')
    (hill : s = [] → ∀ dc ds, d = dc :: ds → sn ≠ dc)
    (hdiv : ∀ sc ss dc ds, s = sc :: ss → d = dc :: ds → sc ≠ dc) :
    move_outcome
      (tree_move_dest tn sn (Tree.modify (Tree.setSynchronizer synchro_visited) L t) L
        (path_of s) (path_of d))
      t ((Tree.mk nm synchro_init mp).get d) ((Tree.mk nm synchro_init mp).get s) tn sn
      (fun child => t.set L (Tree.modify (move_insert tn child) d
        (Tree.modify (move_remove sn) s (Tree.mk nm synchro_init mp)))) := by
  simp only [tree_move_dest, upgrade_visited t L _ hn]
  rw [Tree.modify_eq_set _ t L _ hn]
  simp only [Tree.setSynchronizer_mk]
  cases d with
  | nil =>
    simp only [split_path_root, tree_move_target_free, Tree.get_set_here t L _ _ hn,
      Tree.children_mk, Tree.get_nil, move_outcome, sync_call_unless, if_true, Tree.modify_nil]
    cases htn : hmap_get mp tn with
    | some v =>
      simp only [Option.isSome_some, if_true, sync_call_set_here _ t L _ _ hn,
        Tree.setSynchronizer_mk, Tree.synchronizer_mk, synchro_leave_modified,
        Tree.set_self t L _ hn]
    | none =>
      simp only [Option.isSome_none, Bool.false_eq_true, if_false]
      exact source_dest_here t L nm mp tn sn s hn hmi hs htn
  | cons dc ds =>
    have hdc1 := hd dc (by simp)
    have hds : ∀ c ∈ ds, ∀ y ∈ c, y ≠ '/' := fun c hc => hd c (by simp [hc])
    simp only [split_path_cons dc ds hdc1, Tree.get_set_here t L _ _ hn, Tree.children_mk,
      Tree.get_cons, move_outcome]
    cases hdc : hmap_get mp dc with
    | none =>
      simp only [Option.none_bind, sync_call_set_here _ t L _ _ hn, Tree.setSynchronizer_mk,
        Tree.synchronizer_mk, synchro_leave_modified, Tree.set_self t L _ hn]
    | some nd =>
      have hndi := HashMap.idle_lookup _ dc nd hmi hdc
      obtain ⟨t1, h1, h2⟩ := descend t L _ nm synchro_modified mp dc nd ds hn hdc hndi hds
      simp only [Option.some_bind, h1, h2]
      cases hA : nd.get ds with
      | none =>
        obtain ⟨k, hk⟩ := Option.isSome_iff_exists.1 (Tree.get_reach nd ds)
        obtain ⟨hk1, hk2⟩ := modify_visited_back nd _ k hndi hk
        simp only [reach_of_get_none nd ds hA, if_false, if_true,
          sync_call_set_here _ t L _ _ hn, Tree.setSynchronizer_mk, Tree.synchronizer_mk,
          synchro_leave_modified]
        rw [sync_call_set _ t L (dc :: nd.reach ds) _ _ (k.setSynchronizer synchro_visited) hn
          (by simp [Tree.get_cons, hmap_get_put_same, hdc, hk1])]
        simp only [Tree.modify, Tree.children_mk, hmap_get_put_same, hdc, Option.map_some',
          Tree.setChildren_mk, hmap_put_put, hk2, hmap_put_get _ _ _ hdc,
          Tree.set_self t L _ hn]
      | some A =>
        have hAi := Tree.idle_synchronizer (Tree.idle_get ds A hndi hA)
        cases A with
        | mk an as am =>
          simp only [Tree.synchronizer_mk] at hAi
          subst hAi
          have hg : (Tree.mk nm synchro_modified
              (hmap_put mp dc (nd.set ds (Tree.mk an synchro_visited am)))).get (dc :: ds) =
              some (Tree.mk an synchro_visited am) := by
            simp [Tree.get_cons, hmap_get_put_same, hdc, Tree.get_set_here nd ds _ _ hA]
          simp only [reach_of_get_some nd ds _ hA, if_true, zero_ne_ENOENT, if_false,
            modify_visited_reach nd ds _ hA, Tree.name_mk, Tree.children_mk,
            tree_move_target_free, Tree.get_set t L (dc :: ds) _ _ hn, hg, sync_call_unless,
            Bool.false_eq_true]
          cases htn : hmap_get am tn with
          | some v =>
            simp only [Option.isSome_some, if_true, sync_call_set_here _ t L _ _ hn,
              Tree.setSynchronizer_mk, Tree.synchronizer_mk, synchro_leave_modified]
            rw [sync_call_set _ t L (dc :: ds) _ _ (Tree.mk an synchro_visited am) hn
              (by simp [Tree.get_cons, hmap_get_put_same, hdc,
                Tree.get_set_here nd ds _ _ hA])]
            simp only [Tree.modify, Tree.children_mk, hmap_get_put_same, hdc,
              Option.map_some', Tree.setChildren_mk, hmap_put_put, Tree.modify_set_here,
              Tree.setSynchronizer_mk, Tree.synchronizer_mk, synchro_leave_visited,
              Tree.set_self nd ds _ hA, hmap_put_get _ _ _ hdc, Tree.set_self t L _ hn]
          | none =>
            simp only [Option.isSome_none, Bool.false_eq_true, if_false]
            exact source_dest_below t L nm an mp am nd tn sn dc ds s hn hmi hdc hA hs htn
              (fun h => hill h dc ds rfl) (fun sc ss h => hdiv sc ss dc ds h rfl)

theorem common_split (a b : Loc) :
    ∃ a1 b1, a = common_names a b ++ a1 ∧ b = common_names a b ++ b1 ∧
      ∀ x xs y ys, a1 = x :: xs → b1 = y :: ys → x ≠ y := by
  induction a generalizing b with
  | nil => exact ⟨[], b, by simp [common_names], by simp [common_names], by simp⟩
  | cons x a ih =>
    cases b with
    | nil => exact ⟨x :: a, [], by simp [common_names], by simp [common_names], by simp⟩
    | cons y b =>
      by_cases h : x = y
      · subst h
        obtain ⟨a1, b1, h1, h2, h3⟩ := ih b
        refine ⟨a1, b1, ?_, ?_, h3⟩
        · simp only [common_names, if_true, List.cons_append]; rw [← h1]
        · simp only [common_names, if_true, List.cons_append]; rw [← h2]
      · refine ⟨x :: a, y :: b, by simp [common_names, h], by simp [common_names, h], ?_⟩
        intro x1 xs y1 ys hx hy
        simp only [List.cons.injEq] at hx hy
        rw [← hx.1, ← hy.1]
        exact h

theorem get_lca_path_length_loop_spec (a b : Loc) (ha : ∀ c ∈ a, ∀ y ∈ c, y ≠ '/')
    (hb : ∀ c ∈ b, ∀ y ∈ c, y ≠ '/') (fuel : Nat) (hf : (path_of a).length ≤ fuel) :
    get_lca_path_length_loop fuel (path_of a) (path_of b) = (common_names a b).length := by
  induction a generalizing b fuel with
  | nil =>
    cases fuel with
    | zero => simp [path_of] at hf
    | succ fuel => simp [get_lca_path_length_loop, split_path_root, common_names]
  | cons x a ih =>
    cases fuel with
    | zero => simp [path_of] at hf
    | succ fuel =>
      have hlen := path_of_cons_length x a
      simp only [get_lca_path_length_loop, split_path_cons x a (ha x (by simp))]
      cases b with
      | nil => simp [split_path_root, common_names]
      | cons y b =>
        simp only [split_path_cons y b (hb y (by simp)), strcmp_eq]
        by_cases h : x = y
        · simp [h, common_names, ih b (fun c hc => ha c (by simp [hc]))
            (fun c hc => hb c (by simp [hc])) fuel (by omega)]
        · simp [h, common_names]

theorem get_lca_path_length_spec (a b : Loc) (ha : ∀ c ∈ a, ∀ y ∈ c, y ≠ '/')
    (hb : ∀ c ∈ b, ∀ y ∈ c, y ≠ '/') :
    get_lca_path_length (path_of a) (path_of b) = (common_names a b).length :=
  get_lca_path_length_loop_spec a b ha hb _ (Nat.le_refl _)

/-- The walk of `tree_move` along the names the two parent paths share. -/
theorem lca_loop_spec (t : Tree) (tn sn : Str) (a1 b1 : Loc) (ht : t.idle = true) (l : Loc)
    (hl : ∀ c ∈ l, ∀ y ∈ c, y ≠ '/') :
    ∀ (p : Loc) (n : Tree), t.get p = some n →
      tree_move_lca_loop tn sn l.length (Tree.modify (Tree.setSynchronizer synchro_visited) p t)
          p (path_of (l ++ a1)) (path_of (l ++ b1)) (split_path (path_of (l ++ a1))) =
        if n.reach l = l then
          tree_move_dest tn sn (Tree.modify (Tree.setSynchronizer synchro_visited) (p ++ l) t)
            (p ++ l) (path_of a1) (path_of b1)
        else some (ENOENT, t) := by
  induction l with
  | nil =>
    intro p n _
    simp [tree_move_lca_loop, Tree.reach]
  | cons c l ih =>
    intro p n hp
    have hc := hl c (by simp)
    have hni := Tree.idle_get p n ht hp
    simp only [List.length_cons, List.cons_append, split_path_cons c _ hc, tree_move_lca_loop,
      Tree.get_modify, hp, Option.map_some', Tree.children_setSynchronizer]
    cases hch : hmap_get n.children c with
    | none => simp [leave_visited t p n ht hp, Tree.reach, hch]
    | some child =>
      have hchild := HashMap.idle_lookup _ c child (Tree.idle_children hni) hch
      obtain ⟨t1, h1, h2⟩ := walk_step t p n child c hp (Tree.idle_synchronizer hni) hch
        (Tree.idle_synchronizer hchild)
      have hp1 : t.get (p ++ [c]) = some child := by
        simp [Tree.get_append, hp, Tree.get_cons, hch]
      simp only [h1, h2, ih (fun d hd => hl d (by simp [hd])) (p ++ [c]) child hp1]
      simp [Tree.reach, hch]

theorem move_outcome_congr (r : Option (Int × Tree)) (t : Tree) (dest parent : Option Tree)
    (tn sn : Str) (f g : Tree → Tree) (h : ∀ c, f c = g c)
    (hm : move_outcome r t dest parent tn sn f) : move_outcome r t dest parent tn sn g := by
  have : f = g := funext h
  rw [← this]; exact hm

/-- `tree_move` on two valid paths other than `/`, the names of the source not
beginning the names of the target, in a tree nobody is inside. -/
theorem tree_move_eval (t : Tree) (ss ts : Loc) (sn tn : Str)
    (hs : ∀ c ∈ ss ++ [sn], good_name c) (hg : ∀ c ∈ ts ++ [tn], good_name c)
    (ht : t.idle = true) (hill : ¬ (ss ++ [sn]) <+: (ts ++ [tn])) :
    move_outcome (tree_move t (path_of (ss ++ [sn])) (path_of (ts ++ [tn]))) t
      (t.get ts) (t.get ss) tn sn
      (fun child => Tree.modify (move_insert tn child) ts
        (Tree.modify (move_remove sn) ss t)) := by
  have hvs : is_path_valid (path_of (ss ++ [sn])) = true := (is_path_valid_iff _).2 ⟨_, rfl, hs⟩
  have hvt : is_path_valid (path_of (ts ++ [tn])) = true := (is_path_valid_iff _).2 ⟨_, rfl, hg⟩
  obtain ⟨hss, hsn⟩ := good_snoc hs
  obtain ⟨hts, htn⟩ := good_snoc hg
  have hss1 := good_names_no_slash hss
  have hts1 := good_names_no_slash hts
  have hpre : strncmp_eq (path_of (ss ++ [sn])) (path_of (ts ++ [tn]))
      (path_of (ss ++ [sn])).length = false := by
    rw [Bool.eq_false_iff]
    intro h
    exact hill ((path_of_le_iff _ _ (good_names_no_slash hs) (good_names_no_slash hg)).1
      ((strncmp_eq_iff _ _).1 h))
  obtain ⟨l, a1, b1, ha, hb, hcl, hdiv⟩ : ∃ l a1 b1, ss = l ++ a1 ∧ ts = l ++ b1 ∧
      common_names ss ts = l ∧ ∀ x xs y ys, a1 = x :: xs → b1 = y :: ys → x ≠ y := by
    obtain ⟨a1, b1, ha, hb, hdiv⟩ := common_split ss ts
    exact ⟨_, a1, b1, ha, hb, rfl, hdiv⟩
  subst ha hb
  have hl : ∀ c ∈ l, ∀ y ∈ c, y ≠ '/' := fun c hc => hss1 c (by simp [hc])
  have ha1 : ∀ c ∈ a1, ∀ y ∈ c, y ≠ '/' := fun c hc => hss1 c (by simp [hc])
  have hb1 : ∀ c ∈ b1, ∀ y ∈ c, y ≠ '/' := fun c hc => hts1 c (by simp [hc])
  have hloop := lca_loop_spec t tn sn a1 b1 ht l hl [] t rfl
  simp only [tree_move, hvs, hvt, Bool.not_true, Bool.or_self, Bool.false_eq_true, if_false,
    strcmp_eq, path_of_snoc_ne_root, decide_False, hpre,
    sync_wait_root synchro_visit t synchro_visited
      (by rw [Tree.idle_synchronizer ht]; exact synchro_visit_init),
    make_path_to_parent_snoc (l ++ a1) sn (good_name_no_slash hsn),
    make_path_to_parent_snoc (l ++ b1) tn (good_name_no_slash htn),
    get_lca_path_length_spec (l ++ a1) (l ++ b1) hss1 hts1, hcl, hloop, List.nil_append]
  cases hL : t.get l with
  | none =>
    have hts0 : t.get (l ++ b1) = none := by rw [Tree.get_append, hL]; rfl
    simp only [reach_of_get_none t _ hL, if_false, hts0, move_outcome]
  | some n =>
    have hni := Tree.idle_get _ n ht hL
    have hnsy := Tree.idle_synchronizer hni
    cases n with
    | mk nm nsy mp =>
      simp only [Tree.synchronizer_mk] at hnsy
      subst hnsy
      have hmi : mp.idle = true := Tree.idle_children hni
      have hd := dest_from_lca t l nm mp tn sn b1 a1 hL hmi hb1 ha1
        (fun h1 dc ds h2 hsd => hill (by
          rw [h1, h2, hsd]
          simp [List.prefix_append_right_inj]))
        (fun sc ss1 dc ds h1 h2 => hdiv sc ss1 dc ds h1 h2)
      simp only [reach_of_get_some t _ _ hL, if_true]
      have e1 : t.get (l ++ b1) = (Tree.mk nm synchro_init mp).get b1 := by
        rw [Tree.get_append, hL]; rfl
      have e2 : t.get (l ++ a1) = (Tree.mk nm synchro_init mp).get a1 := by
        rw [Tree.get_append, hL]; rfl
      rw [e1, e2]
      refine move_outcome_congr _ _ _ _ _ _ _ _ (fun child => ?_) hd
      rw [Tree.modify_append, Tree.modify_append, Tree.modify_modify,
        Tree.modify_eq_set _ t _ _ hL]

/-! ## Errors leave the tree as it was -/

theorem path_names_ne_nil_of_ne_root (p : Str) (hv : is_path_valid p = true)
    (hne : p ≠ ['/']) : ∃ cs c, p = path_of (cs ++ [c]) ∧ ∀ d ∈ cs ++ [c], good_name d := by
  rcases valid_cases p hv with rfl | h
  · exact absurd rfl hne
  · exact h

/-- A non-zero result of `tree_move` in a tree nobody is inside comes with
the tree as it was. -/
theorem tree_move_error (t : Tree) (source target : Str) (ht : t.idle = true) (r : Int)
    (t1 : Tree) (h : tree_move t source target = some (r, t1)) (hr : r ≠ 0) : t1 = t := by
  by_cases hvs : is_path_valid source = true
  swap
  · simp [tree_move, hvs] at h; exact h.2.symm
  by_cases hvt : is_path_valid target = true
  swap
  · simp [tree_move, hvt] at h; exact h.2.symm
  have hval := (tree_move_checks t source target).2 hvs hvt
  by_cases hs : source = ['/']
  · rw [hval.1 hs] at h; simp at h; exact h.2.symm
  by_cases hg : target = ['/']
  · rw [hval.2.1 hs hg] at h; simp at h; exact h.2.symm
  by_cases hp : path_names source <+: path_names target
  · rw [hval.2.2 hs hg hp] at h; simp at h; exact h.2.symm
  obtain ⟨ss, sn, rfl, hss⟩ := path_names_ne_nil_of_ne_root source hvs hs
  obtain ⟨ts, tn, rfl, hts⟩ := path_names_ne_nil_of_ne_root target hvt hg
  rw [path_names_snoc ss sn hss, path_names_snoc ts tn hts] at hp
  have hm := tree_move_eval t ss ts sn tn hss hts ht hp
  unfold move_outcome at hm
  split at hm
  · rw [hm] at h; simp at h; exact h.2.symm
  · split at hm
    · rw [hm] at h; simp at h; exact h.2.symm
    · unfold source_outcome at hm
      split at hm
      · rw [hm] at h; simp at h; exact h.2.symm
      · split at hm
        · rw [hm] at h; simp at h; exact h.2.symm
        · exact absurd (hm.1 r t1 h) hr

/-- A non-zero result of `tree_create` in a tree nobody is inside comes with
the tree as it was. -/
theorem tree_create_error (t : Tree) (p : Str) (ht : t.idle = true) (r : Int) (t1 : Tree)
    (h : tree_create t p = some (r, t1)) (hr : r ≠ 0) : t1 = t := by
  by_cases hv : is_path_valid p = true
  swap
  · simp [tree_create, hv] at h; exact h.2.symm
  rcases valid_cases p hv with rfl | ⟨cs, c, rfl, hcs⟩
  · rw [tree_create_root t] at h; simp at h; exact h.2.symm
  · rw [tree_create_eval t cs c hcs ht] at h
    split at h
    · simp at h; exact h.2.symm
    · split at h
      · simp at h; exact h.2.symm
      · simp at h; exact absurd h.1.symm hr

/-- A non-zero result of `tree_remove` in a tree nobody is inside comes with
the tree as it was. -/
theorem tree_remove_error (t : Tree) (p : Str) (ht : t.idle = true) (r : Int) (t1 : Tree)
    (h : tree_remove t p = some (r, t1)) (hr : r ≠ 0) : t1 = t := by
  by_cases hv : is_path_valid p = true
  swap
  · simp [tree_remove, hv] at h; exact h.2.symm
  rcases valid_cases p hv with rfl | ⟨cs, c, rfl, hcs⟩
  · rw [tree_remove_root t] at h; simp at h; exact h.2.symm
  · rw [tree_remove_eval t cs c hcs ht] at h
    split at h
    · simp at h; exact h.2.symm
    · split at h
      · simp at h; exact h.2.symm
      · split at h
        · simp at h; exact absurd h.1.symm hr
        · simp at h; exact h.2.symm

/-- C5: in a tree nobody is inside, whenever `tree_create`, `tree_remove` or
`tree_move` returns a non-zero code, the tree after the call is the tree before
it. -/
theorem errors_leave_tree (t : Tree) (ht : t.idle = true) :
    (∀ p r t1, tree_create t p = some (r, t1) → r ≠ 0 → t1 = t) ∧
    (∀ p r t1, tree_remove t p = some (r, t1) → r ≠ 0 → t1 = t) ∧
    (∀ source target r t1, tree_move t source target = some (r, t1) → r ≠ 0 → t1 = t) :=
  ⟨fun p r t1 h hr => tree_create_error t p ht r t1 h hr,
    fun p r t1 h hr => tree_remove_error t p ht r t1 h hr,
    fun source target r t1 h hr => tree_move_error t source target ht r t1 h hr⟩

/-- C5 at a concrete input: `/a/` is not empty, and `tree_remove` of it
returns ENOTEMPTY with the tree as it was. -/
theorem errors_leave_tree_witness :
    (tree_ab.idle = true ∧
      tree_remove tree_ab ['/', 'a', '/'] = some (ENOTEMPTY, tree_ab) ∧ ENOTEMPTY ≠ 0) ∧
    tree_ab = tree_ab :=
  ⟨⟨by decide, by decide, by decide⟩,
    (errors_leave_tree tree_ab (by decide)).2.1 ['/', 'a', '/'] ENOTEMPTY tree_ab (by decide)
      (by decide)⟩

/-! ## Well-formed trees -/

theorem HashMap.wf_lookup (m : HashMap) (k : Str) (v : Tree) (hm : m.wf = true)
    (h : hmap_get m k = some v) : v.named k = true ∧ v.wf = true := by
  induction m using HashMap.ind with
  | hnil => simp [hmap_get] at h
  | hcons k2 v2 r ih =>
    simp only [HashMap.wf, Bool.and_eq_true, decide_eq_true_eq] at hm
    by_cases hk : k = k2
    · simp only [hmap_get, hk, if_true, Option.some.injEq] at h
      subst h hk
      exact ⟨hm.1.1.1, hm.1.1.2⟩
    · simp only [hmap_get, hk, if_false] at h
      exact ih hm.2 h

theorem Tree.wf_get {t : Tree} (p : Loc) (n : Tree) (ht : t.wf = true)
    (h : t.get p = some n) : n.wf = true := by
  induction p generalizing t with
  | nil => simp at h; exact h ▸ ht
  | cons c cs ih =>
    cases hc : hmap_get t.children c with
    | none => simp [Tree.get_cons, hc] at h
    | some child =>
      have : child.get cs = some n := by simpa [Tree.get_cons, hc] using h
      exact ih (HashMap.wf_lookup _ c child (Tree.wf_children ht) hc).2 this

theorem Tree.named_iff (t : Tree) (k : Str) :
    t.named k = true ↔ ∃ b, t.name = some b ∧ b.str = k ∧ k.length + 1 ≤ b.size := by
  unfold Tree.named
  cases t.name with
  | none => simp
  | some b => simp

/-- A child found in a well-formed tree has the name it is stored under, and
the name lies inside its buffer. -/
theorem Tree.child_named {t : Tree} (p : Loc) (n child : Tree) (k : Str) (ht : t.wf = true)
    (h : t.get p = some n) (hc : hmap_get n.children k = some child) :
    ∃ b, child.name = some b ∧ b.str = k ∧ k.length + 1 ≤ b.size :=
  (Tree.named_iff child k).1
    (HashMap.wf_lookup _ k child (Tree.wf_children (Tree.wf_get p n ht h)) hc).1

/-- C7: for valid paths other than `/`, the byte comparison of `tree_move`
holds exactly when the names of the source begin the names of the target, and
in a tree nobody is inside `tree_move` returns EILLEGALMOVE exactly then. -/
theorem illegal_move_iff (t : Tree) (source target : Str) (ht : t.idle = true)
    (hvs : is_path_valid source = true) (hvt : is_path_valid target = true)
    (hs : source ≠ ['/']) (hg : target ≠ ['/']) :
    (strncmp_eq source target source.length = true ↔
      path_names source <+: path_names target) ∧
    ((∃ t1, tree_move t source target = some (EILLEGALMOVE, t1)) ↔
      path_names source <+: path_names target) := by
  obtain ⟨ss, sn, rfl, hss⟩ := path_names_ne_nil_of_ne_root source hvs hs
  obtain ⟨ts, tn, rfl, hts⟩ := path_names_ne_nil_of_ne_root target hvt hg
  rw [path_names_snoc ss sn hss, path_names_snoc ts tn hts]
  refine ⟨?_, ?_⟩
  · rw [strncmp_eq_iff]
    exact path_of_le_iff _ _ (good_names_no_slash hss) (good_names_no_slash hts)
  · constructor
    · rintro ⟨t1, h⟩
      by_contra hp
      have hm := tree_move_eval t ss ts sn tn hss hts ht hp
      have hE1 : EILLEGALMOVE ≠ ENOENT := by decide
      have hE2 : EILLEGALMOVE ≠ EEXIST := by decide
      have hE3 : EILLEGALMOVE ≠ 0 := by decide
      unfold move_outcome at hm
      split at hm
      · rw [hm] at h; simp at h; exact hE1 h.1.symm
      · split at hm
        · rw [hm] at h; simp at h; exact hE2 h.1.symm
        · unfold source_outcome at hm
          split at hm
          · rw [hm] at h; simp at h; exact hE1 h.1.symm
          · split at hm
            · rw [hm] at h; simp at h; exact hE1 h.1.symm
            · exact hE3 (hm.1 _ t1 h)
    · intro hp
      refine ⟨t, ((tree_move_checks t _ _).2 hvs hvt).2.2 hs hg ?_⟩
      rw [path_names_snoc ss sn hss, path_names_snoc ts tn hts]
      exact hp

/-- C7 at a concrete input: `/a/` does not begin `/ab/`, and the move is not
reported as illegal. -/
theorem illegal_move_iff_witness :
    (tree_a.idle = true ∧ is_path_valid ['/', 'a', '/'] = true ∧
      is_path_valid ['/', 'a', 'b', '/'] = true) ∧
    strncmp_eq ['/', 'a', '/'] ['/', 'a', 'b', '/'] 3 = false ∧
    ¬ ∃ t1, tree_move tree_a ['/', 'a', '/'] ['/', 'a', 'b', '/'] = some (EILLEGALMOVE, t1) := by
  have h := illegal_move_iff tree_a ['/', 'a', '/'] ['/', 'a', 'b', '/'] (by decide)
    (by decide) (by decide) (by decide) (by decide)
  have hn : ¬ path_names ['/', 'a', '/'] <+: path_names ['/', 'a', 'b', '/'] := by decide
  exact ⟨⟨by decide, by decide, by decide⟩, by decide, fun e => hn (h.2.1 e)⟩

/-- The contract of `tree_move` when both parent paths resolve: in a
well-formed tree nobody is inside, for valid paths other than `/` where the
names of the source do not begin the names of the target, `tree_move` returns
EEXIST when the parent of the target has a child of the target name; otherwise
ENOENT when the parent of the source has no child of the source name;
otherwise 0 when the target name fits into the buffer of the name of the
source node, and nothing when it does not.  The parents may be the same
node. -/
theorem tree_move_parents_resolve (t : Tree) (source target : Str) (ht : t.idle = true)
    (hw : t.wf = true) (hvs : is_path_valid source = true)
    (hvt : is_path_valid target = true) (hs : source ≠ ['/']) (hg : target ≠ ['/'])
    (hp : ¬ path_names source <+: path_names target) (dest parent : Tree)
    (hD : t.get (parent_names target) = some dest)
    (hS : t.get (parent_names source) = some parent) :
    ((hmap_get dest.children (last_name target)).isSome = true →
      tree_move t source target = some (EEXIST, t)) ∧
    (hmap_get dest.children (last_name target) = none →
      (hmap_get parent.children (last_name source) = none →
        tree_move t source target = some (ENOENT, t)) ∧
      ∀ child, hmap_get parent.children (last_name source) = some child →
        ∃ b, child.name = some b ∧
          ((last_name target).length + 1 ≤ b.size →
            ∃ t1, tree_move t source target = some (0, t1)) ∧
          (b.size < (last_name target).length + 1 → tree_move t source target = none)) := by
  obtain ⟨ss, sn, rfl, hss⟩ := path_names_ne_nil_of_ne_root source hvs hs
  obtain ⟨ts, tn, rfl, hts⟩ := path_names_ne_nil_of_ne_root target hvt hg
  rw [path_names_snoc ss sn hss, path_names_snoc ts tn hts] at hp
  rw [parent_names_snoc ts tn hts] at hD
  rw [parent_names_snoc ss sn hss] at hS
  rw [last_name_snoc ts tn hts, last_name_snoc ss sn hss]
  have hm := tree_move_eval t ss ts sn tn hss hts ht hp
  simp only [move_outcome, hD, hS, source_outcome] at hm
  refine ⟨fun hex => ?_, fun hfree => ⟨fun hno => ?_, fun child hc => ?_⟩⟩
  · simpa [hex] using hm
  · simpa [hfree, hno] using hm
  · simp only [hfree, Option.isSome_none, Bool.false_eq_true, if_false, hc] at hm
    obtain ⟨b, hb, hstr, _⟩ := Tree.child_named ss parent child sn hw hS hc
    exact ⟨b, hb, fun hfit => ⟨_, (hm.2 b hb hstr).1 hfit⟩, fun hover => (hm.2 b hb hstr).2 hover⟩

/-- The contract at a concrete input: `/a/` is renamed to `/b/` under the same
parent. -/
theorem tree_move_parents_resolve_witness :
    (tree_a.idle = true ∧ tree_a.wf = true ∧ is_path_valid ['/', 'a', '/'] = true ∧
      is_path_valid ['/', 'b', '/'] = true ∧
      ¬ path_names ['/', 'a', '/'] <+: path_names ['/', 'b', '/']) ∧
    ∃ t1, tree_move tree_a ['/', 'a', '/'] ['/', 'b', '/'] = some (0, t1) := by
  refine ⟨⟨by decide, by decide, by decide, by decide, by decide⟩, ?_⟩
  obtain ⟨b, hb, h1, _⟩ := ((tree_move_parents_resolve tree_a ['/', 'a', '/'] ['/', 'b', '/']
    (by decide) (by decide) (by decide) (by decide) (by decide) (by decide) (by decide)
    tree_a tree_a (by decide) (by decide)).2 (by decide)).2
    (.mk (some (strdup_exact ['a'])) synchro_init .nil) (by decide)
  have e : b = strdup_exact ['a'] := by
    simp only [Tree.name_mk, Option.some.injEq] at hb
    exact hb.symm
  exact h1 (by rw [e]; decide)

/-- C8 at the failing input: `tree_create` of `/a/` in the tree made by
`tree_new` puts the name `a` into a buffer of 2 bytes.  In the resulting tree
`tree_move` of `/a/` to `/bb/` finds both parents, the target free and the
source present and then copies the 3 bytes of `bb` into that buffer: the call
has no defined result.  With a buffer of 3 bytes the same call returns 0. -/
theorem tree_move_longer_name :
    tree_create tree_new ['/', 'a', '/'] = some (0, tree_a) ∧
    tree_a.idle = true ∧ tree_a.wf = true ∧
    is_path_valid ['/', 'a', '/'] = true ∧ is_path_valid ['/', 'b', 'b', '/'] = true ∧
    tree_a.get (parent_names ['/', 'b', 'b', '/']) = some tree_a ∧
    tree_a.get (parent_names ['/', 'a', '/']) = some tree_a ∧
    hmap_get tree_a.children (last_name ['/', 'b', 'b', '/']) = none ∧
    (hmap_get tree_a.children (last_name ['/', 'a', '/'])).map Tree.name =
      some (some { size := 2, str := ['a'] }) ∧
    strcpy { size := 2, str := ['a'] } ['b', 'b'] = none ∧
    tree_move tree_a ['/', 'a', '/'] ['/', 'b', 'b', '/'] = none ∧
    (tree_move (.mk none synchro_init
        (.cons ['a'] (.mk (some { size := 3, str := ['a'] }) synchro_init .nil) .nil))
      ['/', 'a', '/'] ['/', 'b', 'b', '/']).map Prod.fst = some 0 := by
  decide

/-! ## The tree after a move -/

theorem Tree.get_of_append (t : Tree) (a b : Loc) (x : Tree) (h : t.get (a ++ b) = some x) :
    (t.get a).isSome = true := by
  rw [Tree.get_append] at h
  cases ha : t.get a with
  | none => simp [ha] at h
  | some _ => rfl

theorem get_none_of_label {a b : Option Tree} (h : a.map Tree.label = b.map Tree.label)
    (hb : b = none) : a = none := by
  subst hb
  cases a with
  | none => rfl
  | some _ => simp at h

theorem get_some_of_label {a b : Option Tree} (h : a.map Tree.label = b.map Tree.label)
    (hb : b.isSome = true) : a.isSome = true := by
  cases a with
  | none =>
    cases b with
    | none => simp at hb
    | some _ => simp at h
  | some _ => rfl

theorem move_remove_label (sn : Str) (k : Tree) : (move_remove sn k).label = k.label := by
  cases k; rfl

theorem move_insert_label (tn : Str) (c k : Tree) : (move_insert tn c k).label = k.label := by
  cases k; rfl

/-- Below the removed entry nothing resolves. -/
theorem removal_gone (t : Tree) (ss : Loc) (sn : Str) (r : Loc) :
    (Tree.modify (move_remove sn) ss t).get (ss ++ sn :: r) = none := by
  rw [Tree.get_modify_append]
  cases t.get ss with
  | none => rfl
  | some n =>
    cases n with
    | mk nm s m => simp [move_remove, Tree.get_cons, hmap_get_remove_same]

/-- Away from the removed entry every pointer finds the node it found. -/
theorem removal_frame (t : Tree) (ss : Loc) (sn : Str) (q : Loc)
    (h : ¬ (ss ++ [sn]) <+: q) :
    ((Tree.modify (move_remove sn) ss t).get q).map Tree.label = (t.get q).map Tree.label := by
  by_cases hpre : ss <+: q
  · obtain ⟨r, rfl⟩ := hpre
    rw [Tree.get_modify_append, Tree.get_append]
    cases t.get ss with
    | none => rfl
    | some n =>
      cases r with
      | nil => simp [move_remove_label]
      | cons c r =>
        have hc : c ≠ sn := by
          rintro rfl
          exact h ⟨r, by simp⟩
        cases n with
        | mk nm s m => simp [move_remove, Tree.get_cons, hmap_get_remove_ne _ _ _ hc]
  · exact Tree.get_modify_label _ t ss q hpre

/-- Away from the inserted entry every pointer finds the node it found. -/
theorem insertion_frame (t : Tree) (ts : Loc) (tn : Str) (c : Tree) (q : Loc)
    (h : ¬ (ts ++ [tn]) <+: q) :
    ((Tree.modify (move_insert tn c) ts t).get q).map Tree.label =
      (t.get q).map Tree.label := by
  by_cases hpre : ts <+: q
  · obtain ⟨r, rfl⟩ := hpre
    rw [Tree.get_modify_append, Tree.get_append]
    cases t.get ts with
    | none => rfl
    | some n =>
      cases r with
      | nil => simp [move_insert_label]
      | cons d r =>
        have hd : d ≠ tn := by
          rintro rfl
          exact h ⟨r, by simp⟩
        cases n with
        | mk nm s m => simp [move_insert, Tree.get_cons, hmap_get_insert_ne _ _ _ _ hd]
  · exact Tree.get_modify_label _ t ts q hpre

/-- The inserted entry holds the renamed node. -/
theorem insertion_at (t : Tree) (ts : Loc) (tn : Str) (c n : Tree) (r : Loc)
    (hn : t.get ts = some n) (hfree : hmap_get n.children tn = none) :
    (Tree.modify (move_insert tn c) ts t).get (ts ++ tn :: r) = (c.rename tn).get r := by
  rw [Tree.get_modify_append, hn]
  cases n with
  | mk nm s m =>
    simp only [Tree.children_mk] at hfree
    simp [move_insert, Tree.get_cons, hmap_get_insert_same _ _ _ hfree]

theorem child_free_of_get (t : Tree) (p : Loc) (k : Str) (n : Tree) (hn : t.get p = some n)
    (h : t.get (p ++ [k]) = none) : hmap_get n.children k = none := by
  rw [Tree.get_append, hn] at h
  cases hk : hmap_get n.children k with
  | none => rfl
  | some v => simp [Tree.get_cons, hk] at h

theorem get_child_of_free (t : Tree) (p : Loc) (k : Str) (n : Tree) (hn : t.get p = some n)
    (h : hmap_get n.children k = none) : t.get (p ++ [k]) = none := by
  rw [Tree.get_append, hn]
  simp [Tree.get_cons, h]

theorem snoc_not_le_self (a : Loc) (x : Str) : ¬ (a ++ [x]) <+: a := by
  intro h
  have := h.length_le
  simp at this

theorem not_le_of_snoc (a b : Loc) (x y : Str) (h : ¬ (a ++ [x]) <+: (b ++ [y])) :
    ¬ (a ++ [x]) <+: b :=
  fun hp => h (hp.trans (List.prefix_append _ _))

/-- The facts about a move that went through, on names. -/
theorem moved_facts (t : Tree) (ss ts : Loc) (sn tn : Str) (dest parent child : Tree)
    (hp : ¬ (ss ++ [sn]) <+: (ts ++ [tn])) (hD : t.get ts = some dest)
    (hfree : hmap_get dest.children tn = none) (hS : t.get ss = some parent)
    (hc : hmap_get parent.children sn = some child) :
    ¬ (ts ++ [tn]) <+: (ss ++ [sn]) ∧
    ∃ n, (Tree.modify (move_remove sn) ss t).get ts = some n ∧
      hmap_get n.children tn = none := by
  have hsrc : t.get (ss ++ [sn]) = some child := by
    rw [Tree.get_append, hS]; simp [Tree.get_cons, hc]
  have htgt : t.get (ts ++ [tn]) = none := get_child_of_free t ts tn dest hD hfree
  have h1 : ¬ (ts ++ [tn]) <+: (ss ++ [sn]) := by
    rintro ⟨r, hr⟩
    have := Tree.get_of_append t (ts ++ [tn]) r child (by rw [hr]; exact hsrc)
    rw [htgt] at this
    simp at this
  refine ⟨h1, ?_⟩
  have h2 := removal_frame t ss sn ts (not_le_of_snoc ss ts sn tn hp)
  have h3 := get_some_of_label h2 (by rw [hD]; rfl)
  obtain ⟨n, hn⟩ := Option.isSome_iff_exists.1 h3
  refine ⟨n, hn, child_free_of_get _ ts tn n hn ?_⟩
  exact get_none_of_label (removal_frame t ss sn (ts ++ [tn]) hp) htgt

theorem Tree.size_mk (n : Option Buf) (s : Synchro) (c : HashMap) :
    (Tree.mk n s c).size = c.size + 1 := by
  simp [Tree.size]

theorem Tree.size_rename (k : Tree) (n : Str) : (k.rename n).size = k.size := by
  cases k with
  | mk kn ks km => cases kn <;> simp [Tree.rename, Tree.size_mk]

theorem HashMap.size_put (m : HashMap) (k : Str) (v w : Tree) (h : hmap_get m k = some v) :
    (hmap_put m k w).size + v.size = m.size + w.size := by
  induction m using HashMap.ind with
  | hnil => simp [hmap_get] at h
  | hcons k2 v2 r ih =>
    by_cases hk : k = k2
    · simp only [hmap_get, hk, if_true, Option.some.injEq] at h
      subst h
      simp only [hmap_put, hk, if_true, HashMap.size]
      omega
    · simp only [hmap_get, hk, if_false] at h
      have := ih h
      simp only [hmap_put, hk, if_false, HashMap.size]
      omega

theorem HashMap.size_insert (m : HashMap) (k : Str) (v : Tree) (h : hmap_get m k = none) :
    (hmap_insert m k v).size = m.size + v.size := by
  induction m using HashMap.ind with
  | hnil => simp [hmap_insert, HashMap.size]
  | hcons k2 v2 r ih =>
    by_cases hk : k = k2
    · simp [hmap_get, hk] at h
    · simp only [hmap_get, hk, if_false] at h
      simp only [hmap_insert, hk, if_false]
      split
      · simp only [HashMap.size]; omega
      · simp only [HashMap.size, ih h]; omega

theorem HashMap.size_remove (m : HashMap) (k : Str) (v : Tree) (hw : m.wf = true)
    (h : hmap_get m k = some v) : (hmap_remove m k).size + v.size = m.size := by
  induction m using HashMap.ind with
  | hnil => simp [hmap_get] at h
  | hcons k2 v2 r ih =>
    simp only [HashMap.wf, Bool.and_eq_true, decide_eq_true_eq] at hw
    by_cases hk : k = k2
    · simp only [hmap_get, hk, if_true, Option.some.injEq] at h
      subst h hk
      simp only [hmap_remove, if_true, HashMap.size,
        hmap_remove_absent r k (hmap_get_above r k hw.2 hw.1.2)]
      omega
    · simp only [hmap_get, hk, if_false] at h
      have := ih hw.2 h
      simp only [hmap_remove, hk, if_false, HashMap.size]
      omega

/-- The size of a tree after a store through a pointer. -/
theorem Tree.size_modify (f : Tree → Tree) (t : Tree) (p : Loc) (n : Tree)
    (h : t.get p = some n) : (Tree.modify f p t).size + n.size = t.size + (f n).size := by
  induction p generalizing t with
  | nil =>
    simp only [Tree.get_nil, Option.some.injEq] at h
    subst h
    simp only [Tree.modify_nil]
    omega
  | cons c cs ih =>
    cases hc : hmap_get t.children c with
    | none => simp [Tree.get_cons, hc] at h
    | some child =>
      have hch : child.get cs = some n := by simpa [Tree.get_cons, hc] using h
      have h1 := ih child hch
      rw [Tree.modify_cons f t c cs child hc]
      cases t with
      | mk nm s m =>
        simp only [Tree.children_mk] at hc
        have h2 := HashMap.size_put m c child (Tree.modify f cs child) hc
        simp only [Tree.children_mk, Tree.setChildren_mk, Tree.size_mk]
        omega

/-- C1 on names: the tree after a move that went through. -/
theorem moved_tree (t : Tree) (ss ts : Loc) (sn tn : Str) (dest parent child : Tree)
    (hw : t.wf = true) (hp : ¬ (ss ++ [sn]) <+: (ts ++ [tn])) (hD : t.get ts = some dest)
    (hfree : hmap_get dest.children tn = none) (hS : t.get ss = some parent)
    (hc : hmap_get parent.children sn = some child) (t1 : Tree)
    (ht1 : t1 = Tree.modify (move_insert tn child) ts (Tree.modify (move_remove sn) ss t)) :
    t1.get (ts ++ [tn]) = some (child.rename tn) ∧
    t1.get (ss ++ [sn]) = none ∧
    (∀ q, ¬ (ss ++ [sn]) <+: q → ¬ (ts ++ [tn]) <+: q →
      (t1.get q).map Tree.label = (t.get q).map Tree.label) ∧
    t1.size = t.size := by
  obtain ⟨h1, n, hn, hnfree⟩ := moved_facts t ss ts sn tn dest parent child hp hD hfree hS hc
  subst ht1
  refine ⟨?_, ?_, ?_, ?_⟩
  · have := insertion_at _ ts tn child n [] hn hnfree
    simpa using this
  · apply get_none_of_label (insertion_frame _ ts tn child (ss ++ [sn]) h1)
    have := removal_gone t ss sn []
    simpa using this
  · intro q hq1 hq2
    rw [insertion_frame _ ts tn child q hq2, removal_frame t ss sn q hq1]
  · have e1 := Tree.size_modify (move_insert tn child) _ ts n hn
    have e2 := Tree.size_modify (move_remove sn) t ss parent hS
    have e3 : (move_insert tn child n).size = n.size + child.size := by
      cases n with
      | mk nm s m =>
        simp only [Tree.children_mk] at hnfree
        simp [move_insert, Tree.size_mk, HashMap.size_insert _ _ _ hnfree, Tree.size_rename]
        omega
    have e4 : (move_remove sn parent).size + child.size = parent.size := by
      have hpw := Tree.wf_children (Tree.wf_get ss parent hw hS)
      cases parent with
      | mk nm s m =>
        simp only [Tree.children_mk] at hc hpw
        have := HashMap.size_remove m sn child hpw hc
        simp only [move_remove, Tree.children_mk, Tree.setChildren_mk, Tree.size_mk]
        omega
    omega

/-- A move that returned 0: its paths and the resulting tree. -/
theorem tree_move_success (t : Tree) (source target : Str) (t1 : Tree) (ht : t.idle = true)
    (hw : t.wf = true) (h : tree_move t source target = some (0, t1)) :
    ∃ ss sn ts tn dest parent child b,
      source = path_of (ss ++ [sn]) ∧ target = path_of (ts ++ [tn]) ∧
      (∀ c ∈ ss ++ [sn], good_name c) ∧ (∀ c ∈ ts ++ [tn], good_name c) ∧
      ¬ (ss ++ [sn]) <+: (ts ++ [tn]) ∧ t.get ts = some dest ∧
      hmap_get dest.children tn = none ∧ t.get ss = some parent ∧
      hmap_get parent.children sn = some child ∧ child.name = some b ∧ b.str = sn ∧
      sn.length + 1 ≤ b.size ∧ tn.length + 1 ≤ b.size ∧
      t1 = Tree.modify (move_insert tn child) ts (Tree.modify (move_remove sn) ss t) := by
  have hE1 : (0 : Int) ≠ ENOENT := by decide
  have hE2 : (0 : Int) ≠ EEXIST := by decide
  have hE3 : (0 : Int) ≠ EINVAL := by decide
  have hE4 : (0 : Int) ≠ EBUSY := by decide
  have hE5 : (0 : Int) ≠ EILLEGALMOVE := by decide
  have hval := tree_move_checks t source target
  by_cases hvs : is_path_valid source = true
  swap
  · rw [hval.1 (Or.inl (by simpa using hvs))] at h; simp at h; exact absurd h.1.symm hE3
  by_cases hvt : is_path_valid target = true
  swap
  · rw [hval.1 (Or.inr (by simpa using hvt))] at h; simp at h; exact absurd h.1.symm hE3
  have hval2 := hval.2 hvs hvt
  by_cases hs : source = ['/']
  · rw [hval2.1 hs] at h; simp at h; exact absurd h.1.symm hE4
  by_cases hg : target = ['/']
  · rw [hval2.2.1 hs hg] at h; simp at h; exact absurd h.1.symm hE2
  by_cases hp : path_names source <+: path_names target
  · rw [hval2.2.2 hs hg hp] at h; simp at h; exact absurd h.1.symm hE5
  obtain ⟨ss, sn, rfl, hss⟩ := path_names_ne_nil_of_ne_root source hvs hs
  obtain ⟨ts, tn, rfl, hts⟩ := path_names_ne_nil_of_ne_root target hvt hg
  rw [path_names_snoc ss sn hss, path_names_snoc ts tn hts] at hp
  have hm := tree_move_eval t ss ts sn tn hss hts ht hp
  unfold move_outcome at hm
  split at hm
  · rw [hm] at h; simp at h; exact absurd h.1.symm hE1
  · rename_i dest hD
    split at hm
    · rw [hm] at h; simp at h; exact absurd h.1.symm hE2
    · rename_i hfree
      unfold source_outcome at hm
      split at hm
      · rw [hm] at h; simp at h; exact absurd h.1.symm hE1
      · rename_i parent hS
        split at hm
        · rw [hm] at h; simp at h; exact absurd h.1.symm hE1
        · rename_i child hc
          obtain ⟨b, hb, hstr, hsz⟩ := Tree.child_named ss parent child sn hw hS hc
          have hfit : tn.length + 1 ≤ b.size := by
            by_contra hover
            rw [(hm.2 b hb hstr).2 (by omega)] at h
            simp at h
          rw [(hm.2 b hb hstr).1 hfit] at h
          simp only [Option.some.injEq, Prod.mk.injEq, true_and] at h
          refine ⟨ss, sn, ts, tn, dest, parent, child, b, rfl, rfl, hss, hts, hp, hD, ?_, hS,
            hc, hb, hstr, hsz, hfit, h.symm⟩
          cases hf : hmap_get dest.children tn with
          | none => rfl
          | some v => simp [hf] at hfree

/-- C1: after a `tree_move` that returned 0 in a well-formed tree nobody is
inside, the target path resolves to the node that was at the source path, with
its synchronizer and its whole children map and with the last name of the
target as its name; the source path no longer resolves; every pointer that
passes neither through the source nor through the target finds the node (name,
synchronizer) it found before; and the tree has as many nodes as before. -/
theorem tree_move_contract (t : Tree) (source target : Str) (t1 : Tree) (ht : t.idle = true)
    (hw : t.wf = true) (h : tree_move t source target = some (0, t1)) :
    ∃ child, t.get (path_names source) = some child ∧
      t1.get (path_names target) = some (child.rename (last_name target)) ∧
      t1.get (path_names source) = none ∧
      (∀ q, ¬ path_names source <+: q → ¬ path_names target <+: q →
        (t1.get q).map Tree.label = (t.get q).map Tree.label) ∧
      t1.size = t.size := by
  obtain ⟨ss, sn, ts, tn, dest, parent, child, _, rfl, rfl, hss, hts, hp, hD, hfree, hS, hc, _,
    _, _, _, ht1⟩ := tree_move_success t source target t1 ht hw h
  rw [path_names_snoc ss sn hss, path_names_snoc ts tn hts, last_name_snoc ts tn hts]
  refine ⟨child, ?_, moved_tree t ss ts sn tn dest parent child hw hp hD hfree hS hc t1 ht1⟩
  rw [Tree.get_append, hS]
  simp [Tree.get_cons, hc]

theorem Tree.idle_rename (k : Tree) (n : Str) (h : k.idle = true) :
    (k.rename n).idle = true := by
  cases k with
  | mk kn ks km =>
    rw [Tree.idle_mk] at h
    cases kn <;> simpa [Tree.rename, Tree.idle_mk] using h

theorem move_remove_idle (sn : Str) (k : Tree) (h : k.idle = true) :
    (move_remove sn k).idle = true := by
  cases k with
  | mk kn ks km =>
    rw [Tree.idle_mk] at h
    simp only [move_remove, Tree.children_mk, Tree.setChildren_mk, Tree.idle_mk]
    exact ⟨h.1, HashMap.idle_remove _ _ h.2⟩

theorem move_insert_idle (tn : Str) (c k : Tree) (hc : c.idle = true) (h : k.idle = true) :
    (move_insert tn c k).idle = true := by
  cases k with
  | mk kn ks km =>
    rw [Tree.idle_mk] at h
    simp only [move_insert, Tree.children_mk, Tree.setChildren_mk, Tree.idle_mk]
    exact ⟨h.1, HashMap.idle_insert _ _ _ h.2 (Tree.idle_rename c tn hc)⟩

/-- C9: when `tree_move(a, b)` returned 0 in a well-formed tree nobody is
inside, `tree_move(b, a)` right after it returns 0 and the tree is then the one
before the two calls. -/
theorem move_there_and_back (t : Tree) (a b : Str) (t1 : Tree) (ht : t.idle = true)
    (hw : t.wf = true) (h : tree_move t a b = some (0, t1)) :
    tree_move t1 b a = some (0, t) := by
  obtain ⟨ss, sn, ts, tn, dest, parent, child, buf, rfl, rfl, hss, hts, hp, hD, hfree, hS, hc,
    hname, hstr, hsz, _, ht1⟩ := tree_move_success t a b t1 ht hw h
  obtain ⟨hback, n, hn, hnfree⟩ :=
    moved_facts t ss ts sn tn dest parent child hp hD hfree hS hc
  obtain ⟨m1, m2, m3, _⟩ :=
    moved_tree t ss ts sn tn dest parent child hw hp hD hfree hS hc t1 ht1
  have hci : child.idle = true :=
    HashMap.idle_lookup _ sn child (Tree.idle_children (Tree.idle_get ss parent ht hS)) hc
  have ht1i : t1.idle = true := by
    rw [ht1]
    exact Tree.idle_modify _ _ ts (Tree.idle_modify _ t ss ht (move_remove_idle sn))
      (fun k hk => move_insert_idle tn child k hci hk)
  -- the parents as the second move finds them
  have hn1 : t1.get ts = some (move_insert tn child n) := by
    rw [ht1, Tree.get_modify, hn]; rfl
  have hc1 : hmap_get (move_insert tn child n).children tn = some (child.rename tn) := by
    cases n with
    | mk nm s m =>
      simp only [Tree.children_mk] at hnfree
      simp [move_insert, hmap_get_insert_same _ _ _ hnfree]
  have hS1 : (t1.get ss).isSome = true := by
    have := m3 ss (snoc_not_le_self ss sn) (not_le_of_snoc ts ss tn sn hback)
    exact get_some_of_label this (by rw [hS]; rfl)
  obtain ⟨p1, hp1⟩ := Option.isSome_iff_exists.1 hS1
  have hfree1 : hmap_get p1.children sn = none := child_free_of_get t1 ss sn p1 hp1 m2
  have hm := tree_move_eval t1 ts ss tn sn hts hss ht1i hback
  simp only [move_outcome, hp1, hfree1, Option.isSome_none, Bool.false_eq_true, if_false,
    source_outcome, hn1, hc1] at hm
  have hren : (child.rename tn).name = some { buf with str := tn } := by
    cases child with
    | mk cn cs cm =>
      simp only [Tree.name_mk] at hname
      subst hname
      rfl
  rw [(hm.2 _ hren rfl).1 hsz]
  congr 2
  -- the two stores of the second move undo the two stores of the first
  have e1 : Tree.modify (move_remove tn) ts t1 = Tree.modify (move_remove sn) ss t := by
    rw [ht1, Tree.modify_modify]
    apply Tree.modify_self _ _ ts n hn
    cases n with
    | mk nm s m =>
      simp only [Tree.children_mk] at hnfree
      simp [move_insert, move_remove, hmap_remove_insert _ _ _ hnfree]
  rw [e1, Tree.modify_modify]
  apply Tree.modify_self _ t ss parent hS
  have hpw := Tree.wf_children (Tree.wf_get ss parent hw hS)
  cases parent with
  | mk nm s m =>
    simp only [Tree.children_mk] at hc hpw
    cases child with
    | mk cn cs cm =>
      simp only [Tree.name_mk] at hname
      subst hname hstr
      simp [move_insert, move_remove, Tree.rename, hmap_insert_remove _ _ _ hpw hc]

/-- C1 at a concrete input: `/a/x/` is moved to `/b/y/`. -/
theorem tree_move_contract_witness :
    (tree_axb.idle = true ∧ tree_axb.wf = true ∧
      tree_move tree_axb ['/', 'a', '/', 'x', '/'] ['/', 'b', '/', 'y', '/'] =
        some (0, tree_aby)) ∧
    ∃ child, tree_axb.get (path_names ['/', 'a', '/', 'x', '/']) = some child ∧
      tree_aby.get (path_names ['/', 'b', '/', 'y', '/']) =
        some (child.rename (last_name ['/', 'b', '/', 'y', '/'])) ∧
      tree_aby.get (path_names ['/', 'a', '/', 'x', '/']) = none ∧
      (∀ q, ¬ path_names ['/', 'a', '/', 'x', '/'] <+: q →
        ¬ path_names ['/', 'b', '/', 'y', '/'] <+: q →
        (tree_aby.get q).map Tree.label = (tree_axb.get q).map Tree.label) ∧
      tree_aby.size = tree_axb.size :=
  ⟨⟨by decide, by decide, by decide⟩,
    tree_move_contract tree_axb ['/', 'a', '/', 'x', '/'] ['/', 'b', '/', 'y', '/'] tree_aby
      (by decide) (by decide) (by decide)⟩

/-- C9 at a concrete input: `/a/x/` is moved to `/b/y/` and back. -/
theorem move_there_and_back_witness :
    (tree_axb.idle = true ∧ tree_axb.wf = true ∧
      tree_move tree_axb ['/', 'a', '/', 'x', '/'] ['/', 'b', '/', 'y', '/'] =
        some (0, tree_aby)) ∧
    tree_move tree_aby ['/', 'b', '/', 'y', '/'] ['/', 'a', '/', 'x', '/'] =
      some (0, tree_axb) :=
  ⟨⟨by decide, by decide, by decide⟩,
    move_there_and_back tree_axb ['/', 'a', '/', 'x', '/'] ['/', 'b', '/', 'y', '/'] tree_aby
      (by decide) (by decide) (by decide)⟩

/-- C6 at concrete inputs: moves of `/` and a move of a missing `/a/` into
itself, in the empty tree. -/
theorem tree_move_validation_witness :
    tree_move tree_new ['/'] ['/'] = some (EBUSY, tree_new) ∧
    tree_move tree_new ['/'] ['/', 'a', '/'] = some (EBUSY, tree_new) ∧
    tree_move tree_new ['/', 'a', '/'] ['/'] = some (EEXIST, tree_new) ∧
    tree_move tree_new ['/', 'a', '/'] ['/', 'a', '/', 'b', '/'] =
      some (EILLEGALMOVE, tree_new) ∧
    tree_move tree_new ['/', 'a'] ['/'] = some (EINVAL, tree_new) :=
  ⟨((tree_move_validation tree_new ['/'] ['/']).2 (by decide) (by decide)).1 rfl,
    ((tree_move_validation tree_new ['/'] ['/', 'a', '/']).2 (by decide) (by decide)).1 rfl,
    ((tree_move_validation tree_new ['/', 'a', '/'] ['/']).2 (by decide) (by decide)).2.1
      (by decide) rfl,
    ((tree_move_validation tree_new ['/', 'a', '/'] ['/', 'a', '/', 'b', '/']).2 (by decide)
      (by decide)).2.2 (by decide) (by decide) (by decide),
    (tree_move_validation tree_new ['/', 'a'] ['/']).1 (Or.inl (by decide))⟩

/-! ## The invariants of the trees one thread can build -/

theorem HashMap.above_trans (m : HashMap) (k k1 : Str) (h : k < k1) (ha : m.above k1 = true) :
    m.above k = true := by
  cases m with
  | nil => rfl
  | cons k2 v2 r =>
    simp only [HashMap.above, decide_eq_true_eq] at ha ⊢
    exact lt_trans h ha

theorem HashMap.above_cons (k k1 : Str) (v : Tree) (r : HashMap) :
    (HashMap.cons k1 v r).above k = decide (k < k1) := rfl

theorem HashMap.above_insert (m : HashMap) (k k1 : Str) (v : Tree) (ha : m.above k = true)
    (h : k < k1) : (hmap_insert m k1 v).above k = true := by
  cases m with
  | nil => simpa [hmap_insert, HashMap.above] using h
  | cons k2 v2 r =>
    simp only [HashMap.above, decide_eq_true_eq] at ha
    simp only [hmap_insert]
    split
    · simpa [HashMap.above] using h
    · split <;> simpa [HashMap.above] using ha

theorem HashMap.wf_insert (m : HashMap) (k : Str) (v : Tree) (hm : m.wf = true)
    (hn : v.named k = true) (hv : v.wf = true) : (hmap_insert m k v).wf = true := by
  induction m using HashMap.ind with
  | hnil => simp [hmap_insert, HashMap.wf, HashMap.above, hn, hv]
  | hcons k2 v2 r ih =>
    have hm1 := hm
    simp only [HashMap.wf, Bool.and_eq_true] at hm
    simp only [hmap_insert]
    split
    · rename_i hlt
      simp [HashMap.wf, HashMap.above_cons, hn, hv, hlt, hm.1.1.1, hm.1.1.2, hm.1.2, hm.2]
    · rename_i hlt
      split
      · exact hm1
      · rename_i hne
        have hgt : k2 < k := lt_of_le_of_ne (not_lt.1 hlt) (fun e => hne e.symm)
        simp [HashMap.wf, hm.1.1.1, hm.1.1.2, ih hm.2,
          HashMap.above_insert r k2 k v hm.1.2 hgt]

theorem HashMap.above_remove (m : HashMap) (k k1 : Str) (hm : m.wf = true)
    (ha : m.above k = true) : (hmap_remove m k1).above k = true := by
  induction m using HashMap.ind generalizing k with
  | hnil => rfl
  | hcons k2 v2 r ih =>
    simp only [HashMap.wf, Bool.and_eq_true] at hm
    simp only [HashMap.above, decide_eq_true_eq] at ha
    simp only [hmap_remove]
    split
    · exact ih k hm.2 (HashMap.above_trans r k k2 ha hm.1.2)
    · simpa [HashMap.above] using ha

theorem HashMap.wf_remove (m : HashMap) (k : Str) (hm : m.wf = true) :
    (hmap_remove m k).wf = true := by
  induction m using HashMap.ind with
  | hnil => rfl
  | hcons k2 v2 r ih =>
    simp only [HashMap.wf, Bool.and_eq_true] at hm
    simp only [hmap_remove]
    split
    · exact ih hm.2
    · simp [HashMap.wf, hm.1.1.1, hm.1.1.2, ih hm.2, HashMap.above_remove r k2 k hm.2 hm.1.2]

theorem HashMap.above_put (m : HashMap) (k k1 : Str) (v : Tree) :
    (hmap_put m k1 v).above k = m.above k := by
  cases m with
  | nil => rfl
  | cons k2 v2 r =>
    simp only [hmap_put]
    split <;> simp [HashMap.above, *]

theorem HashMap.wf_put (m : HashMap) (k : Str) (v : Tree) (hm : m.wf = true)
    (hn : v.named k = true) (hv : v.wf = true) : (hmap_put m k v).wf = true := by
  induction m using HashMap.ind with
  | hnil => rfl
  | hcons k2 v2 r ih =>
    simp only [HashMap.wf, Bool.and_eq_true] at hm
    simp only [hmap_put]
    split
    · rename_i he
      subst he
      simp [HashMap.wf, hn, hv, hm.1.2, hm.2]
    · simp [HashMap.wf, hm.1.1.1, hm.1.1.2, ih hm.2, HashMap.above_put, hm.1.2]

theorem Tree.wf_mk (n : Option Buf) (s : Synchro) (c : HashMap) :
    (Tree.mk n s c).wf = c.wf := by
  simp [Tree.wf]

theorem Tree.named_mk (n : Option Buf) (s s1 : Synchro) (c c1 : HashMap) (k : Str) :
    (Tree.mk n s c).named k = (Tree.mk n s1 c1).named k := rfl

/-- A store that keeps the name of a node and its well-formedness keeps the
tree well-formed. -/
theorem Tree.wf_modify (f : Tree → Tree) (t : Tree) (p : Loc) (ht : t.wf = true)
    (hf : ∀ n, n.wf = true → (f n).wf = true ∧ (f n).name = n.name) :
    (Tree.modify f p t).wf = true ∧ (Tree.modify f p t).name = t.name := by
  induction p generalizing t with
  | nil => exact hf t ht
  | cons c cs ih =>
    cases hc : hmap_get t.children c with
    | none => simpa [Tree.modify, hc] using ht
    | some child =>
      rw [Tree.modify_cons f t c cs child hc]
      cases t with
      | mk n s m =>
        rw [Tree.wf_mk] at ht
        simp only [Tree.children_mk] at hc
        obtain ⟨h1, h2⟩ := HashMap.wf_lookup m c child ht hc
        obtain ⟨h3, h4⟩ := ih child h2
        simp only [Tree.children_mk, Tree.setChildren_mk, Tree.wf_mk, Tree.name_mk, and_true]
        refine HashMap.wf_put m c _ ht ?_ h3
        unfold Tree.named at h1 ⊢
        rw [h4]
        exact h1

/-- A `tree_create` that returned 0: its path and the resulting tree. -/
theorem tree_create_success (t : Tree) (p : Str) (t1 : Tree) (ht : t.idle = true)
    (h : tree_create t p = some (0, t1)) :
    ∃ cs c, p = path_of (cs ++ [c]) ∧
      t1 = Tree.modify
        (fun k => k.setChildren (hmap_insert k.children c (tree_new.setName (strdup_exact c))))
        cs t := by
  have hE1 : (0 : Int) ≠ ENOENT := by decide
  have hE2 : (0 : Int) ≠ EEXIST := by decide
  have hE3 : (0 : Int) ≠ EINVAL := by decide
  by_cases hv : is_path_valid p = true
  swap
  · simp [tree_create, hv] at h; exact absurd h.1.symm hE3
  rcases valid_cases p hv with rfl | ⟨cs, c, rfl, hcs⟩
  · rw [tree_create_root t] at h; simp at h; exact absurd h.1.symm hE2
  · refine ⟨cs, c, rfl, ?_⟩
    rw [tree_create_eval t cs c hcs ht] at h
    split at h
    · simp at h; exact absurd h.1.symm hE1
    · split at h
      · simp at h; exact absurd h.1.symm hE2
      · simp at h; exact h.symm

/-- A `tree_remove` that returned 0: its path and the resulting tree. -/
theorem tree_remove_success (t : Tree) (p : Str) (t1 : Tree) (ht : t.idle = true)
    (h : tree_remove t p = some (0, t1)) :
    ∃ cs c, p = path_of (cs ++ [c]) ∧
      t1 = Tree.modify (fun k => k.setChildren (hmap_remove k.children c)) cs t := by
  have hE1 : (0 : Int) ≠ ENOENT := by decide
  have hE2 : (0 : Int) ≠ EBUSY := by decide
  have hE3 : (0 : Int) ≠ EINVAL := by decide
  have hE4 : (0 : Int) ≠ ENOTEMPTY := by decide
  by_cases hv : is_path_valid p = true
  swap
  · simp [tree_remove, hv] at h; exact absurd h.1.symm hE3
  rcases valid_cases p hv with rfl | ⟨cs, c, rfl, hcs⟩
  · rw [tree_remove_root t] at h; simp at h; exact absurd h.1.symm hE2
  · refine ⟨cs, c, rfl, ?_⟩
    rw [tree_remove_eval t cs c hcs ht] at h
    split at h
    · simp at h; exact absurd h.1.symm hE1
    · split at h
      · simp at h; exact absurd h.1.symm hE1
      · split at h
        · simp at h; exact h.symm
        · simp at h; exact absurd h.1.symm hE4

theorem Tree.named_rename (child : Tree) (b : Buf) (k : Str) (hb : child.name = some b)
    (hfit : k.length + 1 ≤ b.size) : (child.rename k).named k = true := by
  cases child with
  | mk cn cs cm =>
    simp only [Tree.name_mk] at hb
    subst hb
    simp [Tree.rename, Tree.named, hfit]

theorem Tree.wf_rename (child : Tree) (k : Str) : (child.rename k).wf = child.wf := by
  cases child with
  | mk cn cs cm => cases cn <;> rfl

/-- Every tree one thread can build is well-formed and nobody is inside it. -/
theorem Built.idle_wf {t : Tree} (h : Built t) : t.idle = true ∧ t.wf = true := by
  induction h with
  | new => exact ⟨by decide, by decide⟩
  | create t p r t1 _ hc ih =>
    by_cases hr : r = 0
    · subst hr
      obtain ⟨cs, c, _, rfl⟩ := tree_create_success t p t1 ih.1 hc
      refine ⟨Tree.idle_modify _ t cs ih.1 ?_, (Tree.wf_modify _ t cs ih.2 ?_).1⟩
      · intro k hk
        cases k with
        | mk kn ks km =>
          rw [Tree.idle_mk] at hk
          simp only [Tree.children_mk, Tree.setChildren_mk, Tree.idle_mk]
          exact ⟨hk.1, HashMap.idle_insert _ _ _ hk.2
            (by simp [tree_new, hmap_new, Tree.idle, HashMap.idle])⟩
      · intro k hk
        cases k with
        | mk kn ks km =>
          rw [Tree.wf_mk] at hk
          simp only [Tree.children_mk, Tree.setChildren_mk, Tree.wf_mk, Tree.name_mk, and_true]
          exact HashMap.wf_insert _ _ _ hk
            (by simp [tree_new, hmap_new, Tree.named, strdup_exact])
            (by simp [tree_new, hmap_new, Tree.wf, HashMap.wf])
    · rw [tree_create_error t p ih.1 r t1 hc hr]; exact ih
  | remove t p r t1 _ hc ih =>
    by_cases hr : r = 0
    · subst hr
      obtain ⟨cs, c, _, rfl⟩ := tree_remove_success t p t1 ih.1 hc
      refine ⟨Tree.idle_modify _ t cs ih.1 ?_, (Tree.wf_modify _ t cs ih.2 ?_).1⟩
      · intro k hk
        cases k with
        | mk kn ks km =>
          rw [Tree.idle_mk] at hk
          simp only [Tree.children_mk, Tree.setChildren_mk, Tree.idle_mk]
          exact ⟨hk.1, HashMap.idle_remove _ _ hk.2⟩
      · intro k hk
        cases k with
        | mk kn ks km =>
          rw [Tree.wf_mk] at hk
          simp only [Tree.children_mk, Tree.setChildren_mk, Tree.wf_mk, Tree.name_mk, and_true]
          exact HashMap.wf_remove _ _ hk
    · rw [tree_remove_error t p ih.1 r t1 hc hr]; exact ih
  | move t source target r t1 _ hc ih =>
    by_cases hr : r = 0
    · subst hr
      obtain ⟨ss, sn, ts, tn, dest, parent, child, b, _, _, _, _, _, _, _, hS, hch, hb, _, _,
        hfit, rfl⟩ := tree_move_success t source target t1 ih.1 ih.2 hc
      have hci : child.idle = true := HashMap.idle_lookup _ sn child
        (Tree.idle_children (Tree.idle_get ss parent ih.1 hS)) hch
      have hcw : child.wf = true :=
        (HashMap.wf_lookup _ sn child (Tree.wf_children (Tree.wf_get ss parent ih.2 hS)) hch).2
      have hrem : (Tree.modify (move_remove sn) ss t).wf = true := by
        refine (Tree.wf_modify _ t ss ih.2 ?_).1
        intro k hk
        cases k with
        | mk kn ks km =>
          rw [Tree.wf_mk] at hk
          simp only [move_remove, Tree.children_mk, Tree.setChildren_mk, Tree.wf_mk,
            Tree.name_mk, and_true]
          exact HashMap.wf_remove _ _ hk
      refine ⟨Tree.idle_modify _ _ ts (Tree.idle_modify _ t ss ih.1 (move_remove_idle sn))
        (fun k hk => move_insert_idle tn child k hci hk), (Tree.wf_modify _ _ ts hrem ?_).1⟩
      intro k hk
      cases k with
      | mk kn ks km =>
        rw [Tree.wf_mk] at hk
        simp only [move_insert, Tree.children_mk, Tree.setChildren_mk, Tree.wf_mk,
          Tree.name_mk, and_true]
        exact HashMap.wf_insert _ _ _ hk (Tree.named_rename child b tn hb hfit)
          (by rw [Tree.wf_rename]; exact hcw)
    · rw [tree_move_error t source target ih.1 r t1 hc hr]; exact ih

/-! ## The calls of the synchronizer, section by section -/

/-- The lone-thread `synchro_visit` is the first section of the call: it
returns what the section returns, and has no result when the section ends in
a wait. -/
theorem synchro_visit_eq_arrive (s : Synchro) :
    synchro_visit s =
      if (synchro_visit_arrive s).2 = true then some (synchro_visit_arrive s).1 else none := by
  unfold synchro_visit synchro_visit_arrive
  split <;> simp

theorem synchro_modify_eq_arrive (s : Synchro) :
    synchro_modify s =
      if (synchro_modify_arrive s).2 = true then some (synchro_modify_arrive s).1 else none := by
  unfold synchro_modify synchro_modify_while_holding_mutex synchro_modify_arrive
  split <;> simp

theorem synchro_change_eq_arrive (s : Synchro) :
    synchro_change_from_visiting_to_mod s =
      if (synchro_change_arrive s).2 = true then some (synchro_change_arrive s).1 else none := by
  unfold synchro_change_from_visiting_to_mod synchro_modify_while_holding_mutex
    synchro_change_arrive synchro_modify_arrive
  split <;> simp

theorem synchro_prepare_eq_arrive (s : Synchro) :
    synchro_prepare_for_being_removed s =
      if (synchro_prepare_arrive s).2 = true then some (synchro_prepare_arrive s).1 else none := by
  unfold synchro_prepare_for_being_removed synchro_prepare_arrive
  dsimp only
  split <;> simp [*]

/-- The loop condition of `synchro_visit`, spelt out. -/
theorem visit_must_wait_iff (s : Synchro) :
    visit_must_wait s = false ↔
      s.is_modifying = false ∧ s.modify_now = false ∧ s.modifying_waiting = 0 := by
  simp [visit_must_wait, and_assoc]

/-- The loop condition of `synchro_prepare_for_being_removed`, spelt out. -/
theorem remove_must_wait_iff (s : Synchro) :
    remove_must_wait s = false ↔
      s.accessing_count = 0 ∧ s.accessing_waiting = 0 ∧ s.modifying_waiting = 0 ∧
        s.is_modifying = false := by
  simp only [remove_must_wait, Bool.or_eq_false_iff, bne_eq_false_iff_eq]
  tauto

/-- C12, a flagged node that admits: on the synchronizer that `synchro_init` and then
`synchro_prepare_for_being_removed` left flagged for removal, `synchro_visit`
returns at once with a read permit granted and `synchro_modify` returns at
once with the write permit granted; with one reader inside the flagged node
`synchro_change_from_visiting_to_mod` grants it the write permit. -/
theorem flagged_node_admits :
    synchro_prepare_for_being_removed synchro_init = some synchro_flagged ∧
    synchro_flagged.want_to_be_removed = true ∧
    synchro_visit synchro_flagged = some synchro_flagged_visited ∧
    synchro_flagged_visited.accessing_count = 1 ∧
    synchro_modify synchro_flagged = some { synchro_flagged with is_modifying := true } ∧
    synchro_change_from_visiting_to_mod synchro_flagged_visited =
      some { synchro_flagged with is_modifying := true } ∧
    (synchro_visit_arrive synchro_flagged).2 = true ∧
    (synchro_modify_arrive synchro_flagged).2 = true ∧
    (synchro_change_arrive synchro_flagged_visited).2 = true := by
  decide

/-- C13: `synchro_leave_after_modifying` clears `is_modifying` and leaves the
three counters and `want_to_be_removed` as they are.  With readers waiting it
sets `how_many_to_wake` to `accessing_waiting`, leaves `modify_now` alone and
broadcasts on `can_access` (whether or not writers wait); otherwise, with
writers waiting, it sets `modify_now`, leaves `how_many_to_wake` alone and
broadcasts on `can_modify`; otherwise it changes neither field and wakes no
reader and no writer.  Whenever a reader or a writer waits, exactly one of the
two broadcasts is made. -/
theorem leave_after_modifying_arms (s : Synchro) (hw : s.is_modifying = true) :
    (synchro_leave_after_modifying s).is_modifying = false ∧
    (synchro_leave_after_modifying s).accessing_count = s.accessing_count ∧
    (synchro_leave_after_modifying s).accessing_waiting = s.accessing_waiting ∧
    (synchro_leave_after_modifying s).modifying_waiting = s.modifying_waiting ∧
    (synchro_leave_after_modifying s).want_to_be_removed = s.want_to_be_removed ∧
    (s.accessing_waiting > 0 →
      (synchro_leave_after_modifying s).how_many_to_wake = s.accessing_waiting ∧
      (synchro_leave_after_modifying s).modify_now = s.modify_now ∧
      synchro_leave_after_modifying_broadcast s = some .can_access) ∧
    (¬ s.accessing_waiting > 0 → s.modifying_waiting > 0 →
      (synchro_leave_after_modifying s).modify_now = true ∧
      (synchro_leave_after_modifying s).how_many_to_wake = s.how_many_to_wake ∧
      synchro_leave_after_modifying_broadcast s = some .can_modify) ∧
    (¬ s.accessing_waiting > 0 → ¬ s.modifying_waiting > 0 →
      (synchro_leave_after_modifying s).modify_now = s.modify_now ∧
      (synchro_leave_after_modifying s).how_many_to_wake = s.how_many_to_wake ∧
      synchro_leave_after_modifying_broadcast s ≠ some .can_access ∧
      synchro_leave_after_modifying_broadcast s ≠ some .can_modify) ∧
    (s.accessing_waiting > 0 ∨ s.modifying_waiting > 0 →
      (synchro_leave_after_modifying_broadcast s = some .can_access ∧
        (synchro_leave_after_modifying s).modify_now = s.modify_now) ∨
      (synchro_leave_after_modifying_broadcast s = some .can_modify ∧
        (synchro_leave_after_modifying s).how_many_to_wake = s.how_many_to_wake)) := by
  obtain ⟨c, aw, mw, im, htw, mn, wr⟩ := s
  simp only at hw
  subst hw
  simp only [synchro_leave_after_modifying, synchro_leave_after_modifying_broadcast]
  by_cases h1 : aw > 0
  · simp [h1]
  · by_cases h2 : mw > 0
    · simp [h1, h2]
    · simp only [h1, h2, if_false, not_false_eq_true, true_implies, false_implies, or_self,
        and_true, true_and]
      split <;> simp

/-- C13 at a concrete state: a writer leaves with two readers and one writer
waiting; the readers are woken and no writer is. -/
theorem leave_after_modifying_arms_witness :
    synchro_writer_and_queue.is_modifying = true ∧
    (synchro_leave_after_modifying synchro_writer_and_queue).how_many_to_wake = 2 ∧
    (synchro_leave_after_modifying synchro_writer_and_queue).modify_now = false ∧
    synchro_leave_after_modifying_broadcast synchro_writer_and_queue = some .can_access := by
  have h := (leave_after_modifying_arms synchro_writer_and_queue rfl).2.2.2.2.2.1 (by decide)
  exact ⟨rfl, h.1, h.2.1, h.2.2⟩

/-- C14: an arriving `synchro_visit` is admitted without waiting exactly when
`is_modifying` and `modify_now` are false and `modifying_waiting` is 0, and
then only `accessing_count` changes, by plus one (the lone-thread
`synchro_visit` returns in exactly these states).  A waiting reader woken
with `how_many_to_wake > 0` is admitted, whatever `modifying_waiting` is, with
`how_many_to_wake` and `accessing_waiting` decreased by one and
`accessing_count` increased by one.  A reader woken with
`how_many_to_wake = 0` evaluates the condition again: it is admitted under the
same condition as an arriving reader, and otherwise waits again with the
fields as they were. -/
theorem visit_admission (s : Synchro) :
    ((synchro_visit_arrive s).2 = true ↔
      s.is_modifying = false ∧ s.modify_now = false ∧ s.modifying_waiting = 0) ∧
    ((synchro_visit_arrive s).2 = true →
      (synchro_visit_arrive s).1 = { s with accessing_count := s.accessing_count + 1 } ∧
      synchro_visit s = some { s with accessing_count := s.accessing_count + 1 }) ∧
    ((synchro_visit_arrive s).2 = false → synchro_visit s = none) ∧
    (s.how_many_to_wake > 0 →
      (synchro_visit_wake s).2 = true ∧
      (synchro_visit_wake s).1 =
        { s with how_many_to_wake := s.how_many_to_wake - 1,
                 accessing_waiting := s.accessing_waiting - 1,
                 accessing_count := s.accessing_count + 1 }) ∧
    (s.how_many_to_wake = 0 →
      ((synchro_visit_wake s).2 = true ↔
        s.is_modifying = false ∧ s.modify_now = false ∧ s.modifying_waiting = 0) ∧
      ((synchro_visit_wake s).2 = true →
        (synchro_visit_wake s).1 =
          { s with accessing_waiting := s.accessing_waiting - 1,
                   accessing_count := s.accessing_count + 1 }) ∧
      ((synchro_visit_wake s).2 = false → (synchro_visit_wake s).1 = s)) := by
  have hiff := visit_must_wait_iff s
  obtain ⟨c, aw, mw, im, htw, mn, wr⟩ := s
  have hsame : visit_must_wait ⟨c, aw - 1, mw, im, htw, mn, wr⟩ =
      visit_must_wait ⟨c, aw, mw, im, htw, mn, wr⟩ := rfl
  refine ⟨?_, ?_, ?_, ?_, ?_⟩
  · rw [← hiff]
    unfold synchro_visit_arrive
    split <;> simp [*]
  · intro h
    unfold synchro_visit_arrive at h
    split at h
    · simp at h
    · rename_i hw
      simp [synchro_visit_arrive, synchro_visit, hw]
  · intro h
    unfold synchro_visit_arrive at h
    split at h
    · rename_i hw
      simp [synchro_visit, hw]
    · simp at h
  · intro h
    simp only at h
    simp [synchro_visit_wake, h]
  · intro h
    simp only at h
    subst h
    simp only [synchro_visit_wake, synchro_visit_arrive, hsame, gt_iff_lt, lt_self_iff_false,
      if_false]
    rw [← hiff]
    cases hw : visit_must_wait ⟨c, aw, mw, im, 0, mn, wr⟩ <;> simp

/-- C14 at a concrete state: a reader woken with a batch of one to admit and a
writer waiting is admitted. -/
theorem visit_admission_witness :
    (0 : Int) < 1 ∧
    synchro_visit_wake { synchro_init with how_many_to_wake := 1, accessing_waiting := 1,
                                           modifying_waiting := 1 } =
      ({ synchro_init with accessing_count := 1, modifying_waiting := 1 }, true) := by
  have h := (visit_admission { synchro_init with how_many_to_wake := 1, accessing_waiting := 1,
                                                 modifying_waiting := 1 }).2.2.2.1 (by decide)
  exact ⟨by decide, Prod.ext h.2 h.1⟩

/-- C15: `synchro_leave_after_visiting` decreases `accessing_count` by one and
changes no field other than `modify_now`; it sets `modify_now` and broadcasts
on `can_modify` exactly when the new `accessing_count` is 0,
`how_many_to_wake` is 0 and `modifying_waiting > 0`, and leaves `modify_now`
as it is otherwise; it broadcasts on `can_be_removed` exactly when the new
`accessing_count`, `accessing_waiting` and `modifying_waiting` are 0 and
`want_to_be_removed` is set. -/
theorem leave_after_visiting_handoff (s : Synchro) (hc : s.accessing_count ≥ 1) :
    (synchro_leave_after_visiting s).accessing_count = s.accessing_count - 1 ∧
    (synchro_leave_after_visiting s).accessing_waiting = s.accessing_waiting ∧
    (synchro_leave_after_visiting s).modifying_waiting = s.modifying_waiting ∧
    (synchro_leave_after_visiting s).is_modifying = s.is_modifying ∧
    (synchro_leave_after_visiting s).how_many_to_wake = s.how_many_to_wake ∧
    (synchro_leave_after_visiting s).want_to_be_removed = s.want_to_be_removed ∧
    ((s.accessing_count - 1 = 0 ∧ s.how_many_to_wake = 0 ∧ s.modifying_waiting > 0) →
      (synchro_leave_after_visiting s).modify_now = true ∧
      synchro_leave_after_visiting_broadcast s = some .can_modify) ∧
    (¬ (s.accessing_count - 1 = 0 ∧ s.how_many_to_wake = 0 ∧ s.modifying_waiting > 0) →
      (synchro_leave_after_visiting s).modify_now = s.modify_now ∧
      synchro_leave_after_visiting_broadcast s ≠ some .can_modify) ∧
    (synchro_leave_after_visiting_broadcast s = some .can_be_removed ↔
      s.accessing_count - 1 = 0 ∧ s.accessing_waiting = 0 ∧ s.modifying_waiting = 0 ∧
        s.want_to_be_removed = true) := by
  obtain ⟨c, aw, mw, im, htw, mn, wr⟩ := s
  simp only [synchro_leave_after_visiting, synchro_leave_after_visiting_broadcast]
  by_cases h : c - 1 = 0 ∧ htw = 0 ∧ mw > 0
  · obtain ⟨h1, h2, h3⟩ := h
    have h4 : mw ≠ 0 := by omega
    simp [h1, h2, h3, h4]
  · have hb : ((c - 1 == 0) && (htw == 0) && decide (mw > 0)) = false := by
      rw [Bool.eq_false_iff]
      intro hb
      simp only [Bool.and_eq_true, beq_iff_eq, decide_eq_true_eq] at hb
      exact h ⟨hb.1.1, hb.1.2, hb.2⟩
    simp only [hb, Bool.false_eq_true, if_false, h, not_false_eq_true, true_implies,
      false_implies, true_and, and_true]
    split
    · rename_i h2
      simp only [Bool.and_eq_true, beq_iff_eq] at h2
      simp [h2.1.1.1, h2.1.1.2, h2.1.2, h2.2]
    · rename_i h2
      simp only [Bool.and_eq_true, beq_iff_eq] at h2
      simp only [ne_eq, not_false_eq_true, true_and, false_iff, reduceCtorEq]
      intro h3
      exact h2 ⟨⟨⟨h3.1, h3.2.1⟩, h3.2.2.1⟩, h3.2.2.2⟩

/-- C15 at a concrete state: the last reader leaves while a writer waits and
hands the node to the writers. -/
theorem leave_after_visiting_handoff_witness :
    synchro_last_reader.accessing_count ≥ 1 ∧
    (synchro_leave_after_visiting synchro_last_reader).accessing_count = 0 ∧
    (synchro_leave_after_visiting synchro_last_reader).modify_now = true ∧
    synchro_leave_after_visiting_broadcast synchro_last_reader = some .can_modify := by
  have h := leave_after_visiting_handoff synchro_last_reader (by decide)
  exact ⟨by decide, h.1, (h.2.2.2.2.2.2.1 (by decide)).1, (h.2.2.2.2.2.2.1 (by decide)).2⟩

/-- C16: `synchro_prepare_for_being_removed` sets `want_to_be_removed` and
changes no other field, in the section that starts the call and in every
section after a wake-up; a section ends the call exactly when
`accessing_count`, `accessing_waiting` and `modifying_waiting` are 0 and
`is_modifying` is false, so the call returns only in such a state.
`synchro_leave_after_bad_remove` changes `want_to_be_removed` to false and no
other field.  On the synchronizer `synchro_init` made, the first followed by
the second returns and gives back the state of `synchro_init`. -/
theorem prepare_then_cancel :
    (∀ s, (synchro_prepare_arrive s).1 = { s with want_to_be_removed := true } ∧
      ((synchro_prepare_arrive s).2 = true ↔
        s.accessing_count = 0 ∧ s.accessing_waiting = 0 ∧ s.modifying_waiting = 0 ∧
          s.is_modifying = false)) ∧
    (∀ s, (synchro_prepare_wake s).1 = s ∧
      ((synchro_prepare_wake s).2 = true ↔
        s.accessing_count = 0 ∧ s.accessing_waiting = 0 ∧ s.modifying_waiting = 0 ∧
          s.is_modifying = false)) ∧
    (∀ s s1, synchro_prepare_for_being_removed s = some s1 →
      s1.want_to_be_removed = true ∧
      s1.accessing_count = 0 ∧ s1.accessing_waiting = 0 ∧ s1.modifying_waiting = 0 ∧
      s1.is_modifying = false ∧
      s1.how_many_to_wake = s.how_many_to_wake ∧ s1.modify_now = s.modify_now ∧
      s.accessing_count = 0 ∧ s.accessing_waiting = 0 ∧ s.modifying_waiting = 0 ∧
      s.is_modifying = false) ∧
    (∀ s, (synchro_leave_after_bad_remove s).want_to_be_removed = false ∧
      (synchro_leave_after_bad_remove s).accessing_count = s.accessing_count ∧
      (synchro_leave_after_bad_remove s).accessing_waiting = s.accessing_waiting ∧
      (synchro_leave_after_bad_remove s).modifying_waiting = s.modifying_waiting ∧
      (synchro_leave_after_bad_remove s).is_modifying = s.is_modifying ∧
      (synchro_leave_after_bad_remove s).how_many_to_wake = s.how_many_to_wake ∧
      (synchro_leave_after_bad_remove s).modify_now = s.modify_now) ∧
    (synchro_prepare_for_being_removed synchro_init).map synchro_leave_after_bad_remove =
      some synchro_init := by
  refine ⟨fun s => ⟨rfl, ?_⟩, fun s => ⟨rfl, ?_⟩, ?_, fun s => ⟨rfl, rfl, rfl, rfl, rfl, rfl, rfl⟩,
    by decide⟩
  · rw [← remove_must_wait_iff s]
    simp only [synchro_prepare_arrive, Bool.not_eq_true']
    rfl
  · rw [← remove_must_wait_iff s]
    simp [synchro_prepare_wake]
  · intro s s1 h
    unfold synchro_prepare_for_being_removed at h
    dsimp only at h
    split at h
    · simp at h
    · rename_i hw
      simp only [Option.some.injEq] at h
      subst h
      have hq := (remove_must_wait_iff _).1 (by simpa using hw)
      exact ⟨rfl, hq.1, hq.2.1, hq.2.2.1, hq.2.2.2, rfl, rfl, hq.1, hq.2.1, hq.2.2.1, hq.2.2.2⟩

/-- C16 at a concrete state: the call on the synchronizer `synchro_init` made
returns with the flag set. -/
theorem prepare_then_cancel_witness :
    synchro_prepare_for_being_removed synchro_init = some synchro_flagged ∧
    synchro_flagged.want_to_be_removed = true ∧ synchro_flagged.accessing_count = 0 :=
  have h := prepare_then_cancel.2.2.1 synchro_init synchro_flagged (by decide)
  ⟨by decide, h.1, h.2.1⟩

/-- C19: with a reader inside and no writer, `synchro_change_from_visiting_to_mod`
does what `synchro_leave_after_visiting` followed by `synchro_modify` does: the
section that starts the wait is the same (the same fields, and a wait in the
one exactly when in the other), so the one has a result exactly when the other
has, and then both give the state with `accessing_count` decreased by one,
`is_modifying` true, `modify_now` false and the other fields unchanged. -/
theorem change_is_leave_then_modify (s : Synchro) (hc : s.accessing_count ≥ 1)
    (hm : s.is_modifying = false) :
    synchro_change_from_visiting_to_mod s = leave_then_modify s ∧
    (synchro_change_from_visiting_to_mod s = none ↔ leave_then_modify s = none) ∧
    ((synchro_change_arrive s).2 = (synchro_modify_arrive (synchro_leave_after_visiting s)).2) ∧
    (∀ s1, synchro_change_from_visiting_to_mod s = some s1 →
      leave_then_modify s = some s1 ∧
      s1.accessing_count = s.accessing_count - 1 ∧ s1.is_modifying = true ∧
      s1.modify_now = false ∧ s1.accessing_waiting = s.accessing_waiting ∧
      s1.modifying_waiting = s.modifying_waiting ∧
      s1.how_many_to_wake = s.how_many_to_wake ∧
      s1.want_to_be_removed = s.want_to_be_removed) := by
  obtain ⟨c, aw, mw, im, htw, mn, wr⟩ := s
  simp only at hm hc
  subst hm
  have key : synchro_change_arrive ⟨c, aw, mw, false, htw, mn, wr⟩ =
      synchro_modify_arrive (synchro_leave_after_visiting ⟨c, aw, mw, false, htw, mn, wr⟩) := by
    simp only [synchro_change_arrive, synchro_leave_after_visiting]
    split
    · rename_i h
      simp only [Bool.and_eq_true, beq_iff_eq, decide_eq_true_eq] at h
      obtain ⟨⟨h1, h2⟩, h3⟩ := h
      simp [synchro_modify_arrive, modify_must_wait, h1, h2]
    · rfl
  have heq : synchro_change_from_visiting_to_mod ⟨c, aw, mw, false, htw, mn, wr⟩ =
      leave_then_modify ⟨c, aw, mw, false, htw, mn, wr⟩ := by
    rw [synchro_change_eq_arrive, leave_then_modify, synchro_modify_eq_arrive, key]
  refine ⟨heq, by rw [heq], by rw [key], fun s1 h => ⟨by rw [← heq]; exact h, ?_⟩⟩
  unfold synchro_change_from_visiting_to_mod synchro_modify_while_holding_mutex at h
  split at h
  · simp at h
  · simp only [Option.some.injEq] at h
    subst h
    exact ⟨rfl, rfl, rfl, rfl, rfl, rfl, rfl⟩

/-- C19 at a concrete state: the last reader, with a writer waiting, becomes
the writer either way. -/
theorem change_is_leave_then_modify_witness :
    (synchro_last_reader.accessing_count ≥ 1 ∧ synchro_last_reader.is_modifying = false) ∧
    synchro_change_from_visiting_to_mod synchro_last_reader = leave_then_modify synchro_last_reader ∧
    leave_then_modify synchro_last_reader =
      some { synchro_init with is_modifying := true, modifying_waiting := 1 } :=
  ⟨⟨by decide, by decide⟩,
    (change_is_leave_then_modify synchro_last_reader (by decide) (by decide)).1, by decide⟩

/-! ## The flag of removal in `tree_remove` -/

/-- `tree_remove` is its two parts one after the other. -/
theorem tree_remove_in_two_eq (t : Tree) (p : Str) : tree_remove_in_two t p = tree_remove t p := by
  unfold tree_remove_in_two tree_remove_to_flag tree_remove
  by_cases hv : (!is_path_valid p) = true
  · simp only [hv, if_true]
  · simp only [hv, if_false]
    cases make_path_to_parent p with
    | none => rfl
    | some x =>
      obtain ⟨subpath, folder_name⟩ := x
      dsimp only
      cases sync_wait synchro_visit t [] with
      | none => rfl
      | some t1 =>
        dsimp only
        cases synchro_get_to_path t1 [] subpath with
        | none => rfl
        | some y =>
          obtain ⟨r, cur_folder, t2⟩ := y
          dsimp only
          by_cases hr : r = ENOENT
          · simp only [hr, if_true]
            cases sync_call synchro_leave_after_visiting t2 cur_folder <;> rfl
          · simp only [hr, if_false]
            cases sync_wait synchro_change_from_visiting_to_mod t2 cur_folder with
            | none => rfl
            | some t3 =>
              dsimp only
              cases t3.get cur_folder with
              | none => rfl
              | some node =>
                dsimp only
                cases hmap_get node.children folder_name with
                | none =>
                  dsimp only
                  cases sync_call synchro_leave_after_modifying t3 cur_folder <;> rfl
                | some v =>
                  dsimp only
                  cases sync_wait synchro_prepare_for_being_removed t3
                      (cur_folder ++ [folder_name]) with
                  | none => rfl
                  | some t4 => rfl

/-- The part of `tree_remove` up to the flag, in a tree nobody is inside. -/
theorem tree_remove_to_flag_eval (t : Tree) (cs : Loc) (c : Str)
    (hcs : ∀ d ∈ cs ++ [c], good_name d) (ht : t.idle = true) :
    tree_remove_to_flag t (path_of (cs ++ [c])) =
      match t.get cs with
      | none => some (.inl (ENOENT, t))
      | some n =>
        match hmap_get n.children c with
        | none => some (.inl (ENOENT, t))
        | some victim =>
          some (.inr (cs, c, t.set cs (Tree.mk n.name synchro_modified
            (hmap_put n.children c (Tree.mk victim.name synchro_flagged victim.children))))) := by
  have hv : is_path_valid (path_of (cs ++ [c])) = true := (is_path_valid_iff _).2 ⟨_, rfl, hcs⟩
  obtain ⟨hcs1, hc⟩ := good_snoc hcs
  obtain ⟨t1, h1, h2⟩ := walk_from_root t cs hcs1 ht
  simp only [tree_remove_to_flag, hv, Bool.not_true,
    make_path_to_parent_snoc cs c (good_name_no_slash hc), h1, h2]
  obtain ⟨m, hm⟩ := Option.isSome_iff_exists.1 (Tree.get_reach t cs)
  cases hn : t.get cs with
  | none => simp [reach_of_get_none t cs hn, leave_visited t _ m ht hm]
  | some n =>
    have hnidle := Tree.idle_get cs n ht hn
    have hni := Tree.idle_synchronizer hnidle
    simp only [reach_of_get_some t cs n hn, if_true, upgrade_visited t cs n hn, Tree.get_modify,
      hn, Option.map_some', Tree.children_setSynchronizer]
    have hE : (0 : Int) ≠ ENOENT := by decide
    simp only [hE, Bool.false_eq_true, if_false]
    cases hex : hmap_get n.children c with
    | none => simp [leave_modified_id t cs n hni hn]
    | some victim =>
      have hvi := Tree.idle_synchronizer
        (HashMap.idle_lookup _ c victim (Tree.idle_children hnidle) hex)
      rw [Tree.modify_eq_set _ t cs n hn]
      cases n with
      | mk nm s mp =>
        simp only [Tree.children_mk, Tree.synchronizer_mk] at hex hni
        subst hni
        cases victim with
        | mk vn vs vm =>
          simp only [Tree.synchronizer_mk] at hvi
          subst hvi
          rw [sync_wait_set synchro_prepare_for_being_removed t cs [c] _ _
            (Tree.mk vn synchro_init vm) synchro_flagged hn
            (by simp [Tree.get_cons, hex]) synchro_prepare_init]
          simp only [Tree.setSynchronizer_mk, Tree.modify,
            Tree.children_mk, hex, Tree.setChildren_mk, Tree.name_mk]

/-- When `tree_remove` has flagged its victim, the remover holds the write
permit of the parent and nobody is in the victim. -/
theorem tree_remove_flag_state (t : Tree) (p : Str) (cur_folder : Loc) (folder_name : Str)
    (t4 : Tree) (ht : t.idle = true)
    (h : tree_remove_to_flag t p = some (.inr (cur_folder, folder_name, t4))) :
    ∃ parent victim, t4.get cur_folder = some parent ∧
      parent.synchronizer = synchro_modified ∧
      hmap_get parent.children folder_name = some victim ∧
      victim.synchronizer = synchro_flagged ∧
      tree_remove t p = tree_remove_from_flag cur_folder folder_name t4 := by
  have htwo : tree_remove t p = tree_remove_from_flag cur_folder folder_name t4 := by
    rw [← tree_remove_in_two_eq]
    unfold tree_remove_in_two
    rw [h]
  by_cases hv : is_path_valid p = true
  swap
  · simp [tree_remove_to_flag, hv] at h
  rcases valid_cases p hv with rfl | ⟨cs, c, rfl, hcs⟩
  · have h2 : make_path_to_parent ['/'] = none := by decide
    simp [tree_remove_to_flag, hv, h2] at h
  · rw [tree_remove_to_flag_eval t cs c hcs ht] at h
    cases hn : t.get cs with
    | none => simp [hn] at h
    | some n =>
      simp only [hn] at h
      cases hex : hmap_get n.children c with
      | none => simp [hex] at h
      | some victim =>
        simp only [hex, Option.some.injEq, Sum.inr.injEq, Prod.mk.injEq] at h
        obtain ⟨rfl, rfl, rfl⟩ := h
        refine ⟨_, Tree.mk victim.name synchro_flagged victim.children,
          Tree.get_set_here t cs n _ hn, rfl, ?_, rfl, htwo⟩
        simp only [Tree.children_mk, hmap_get_put_same, hex, Option.map_some']

/-- C12 as amended: `synchro_visit`, `synchro_modify` and
`synchro_change_from_visiting_to_mod` do not read `want_to_be_removed`.  On
every state, with the flag set to either value, each of their sections ends in
a wait exactly when it does on the state as it is, and gives the same fields
with that flag; so a flagged node refuses a permit exactly where it would if it
were not flagged.  None of them changes the flag.  In a tree that calls of one
thread have made no node is flagged: `tree_remove` sets the flag and clears it,
or destroys the node, before it returns.  At the moment `tree_remove` has
flagged its victim, the remover holds the write permit of the parent and the
victim is in the state `synchro_prepare_for_being_removed` leaves, nobody
inside and nobody waiting; the rest of the call runs from that state. -/
theorem flag_not_consulted (s : Synchro) (b : Bool) :
    synchro_visit_arrive { s with want_to_be_removed := b } =
      ({ (synchro_visit_arrive s).1 with want_to_be_removed := b },
        (synchro_visit_arrive s).2) ∧
    synchro_visit_wake { s with want_to_be_removed := b } =
      ({ (synchro_visit_wake s).1 with want_to_be_removed := b },
        (synchro_visit_wake s).2) ∧
    synchro_modify_arrive { s with want_to_be_removed := b } =
      ({ (synchro_modify_arrive s).1 with want_to_be_removed := b },
        (synchro_modify_arrive s).2) ∧
    synchro_modify_wake { s with want_to_be_removed := b } =
      ({ (synchro_modify_wake s).1 with want_to_be_removed := b },
        (synchro_modify_wake s).2) ∧
    synchro_change_arrive { s with want_to_be_removed := b } =
      ({ (synchro_change_arrive s).1 with want_to_be_removed := b },
        (synchro_change_arrive s).2) ∧
    (synchro_visit_arrive s).1.want_to_be_removed = s.want_to_be_removed ∧
    (synchro_visit_wake s).1.want_to_be_removed = s.want_to_be_removed ∧
    (synchro_modify_arrive s).1.want_to_be_removed = s.want_to_be_removed ∧
    (synchro_modify_wake s).1.want_to_be_removed = s.want_to_be_removed ∧
    (synchro_change_arrive s).1.want_to_be_removed = s.want_to_be_removed ∧
    (synchro_visit { s with want_to_be_removed := b }).isSome = (synchro_visit s).isSome ∧
    (synchro_modify { s with want_to_be_removed := b }).isSome = (synchro_modify s).isSome ∧
    (synchro_change_from_visiting_to_mod { s with want_to_be_removed := b }).isSome =
      (synchro_change_from_visiting_to_mod s).isSome ∧
    (∀ t : Tree, Built t → ∀ (p : Loc) (n : Tree), t.get p = some n →
      n.synchronizer.want_to_be_removed = false) ∧
    ∀ (t : Tree) (p : Str) (cur_folder : Loc) (folder_name : Str) (t4 : Tree),
      t.idle = true →
      tree_remove_to_flag t p = some (.inr (cur_folder, folder_name, t4)) →
      ∃ parent victim, t4.get cur_folder = some parent ∧
        parent.synchronizer = synchro_modified ∧
        hmap_get parent.children folder_name = some victim ∧
        victim.synchronizer = synchro_flagged ∧
        tree_remove t p = tree_remove_from_flag cur_folder folder_name t4 := by
  have hv : ∀ x : Synchro, synchro_visit_arrive { x with want_to_be_removed := b } =
      ({ (synchro_visit_arrive x).1 with want_to_be_removed := b },
        (synchro_visit_arrive x).2) := by
    intro x
    have hw : visit_must_wait { x with want_to_be_removed := b } = visit_must_wait x := rfl
    simp only [synchro_visit_arrive, hw]
    split <;> rfl
  have hm : ∀ x : Synchro, synchro_modify_arrive { x with want_to_be_removed := b } =
      ({ (synchro_modify_arrive x).1 with want_to_be_removed := b },
        (synchro_modify_arrive x).2) := by
    intro x
    have hw : modify_must_wait { x with want_to_be_removed := b } = modify_must_wait x := rfl
    simp only [synchro_modify_arrive, hw]
    split <;> rfl
  have hva : ∀ x : Synchro,
      (synchro_visit_arrive x).1.want_to_be_removed = x.want_to_be_removed := by
    intro x
    unfold synchro_visit_arrive
    split <;> rfl
  have hma : ∀ x : Synchro,
      (synchro_modify_arrive x).1.want_to_be_removed = x.want_to_be_removed := by
    intro x
    unfold synchro_modify_arrive
    split <;> rfl
  refine ⟨hv s, ?_, hm s, ?_, ?_, hva s, ?_, hma s, ?_, ?_, ?_, ?_, ?_, ?_,
    fun t p cf fn t4 ht h => tree_remove_flag_state t p cf fn t4 ht h⟩
  · simp only [synchro_visit_wake]
    split
    · rfl
    · exact hv { s with accessing_waiting := s.accessing_waiting - 1 }
  · exact hm { s with modifying_waiting := s.modifying_waiting - 1 }
  · exact hm { s with accessing_count := s.accessing_count - 1 }
  · simp only [synchro_visit_wake]
    split
    · rfl
    · exact hva { s with accessing_waiting := s.accessing_waiting - 1 }
  · exact hma { s with modifying_waiting := s.modifying_waiting - 1 }
  · exact hma { s with accessing_count := s.accessing_count - 1 }
  · rw [synchro_visit_eq_arrive, synchro_visit_eq_arrive, hv s]
    cases (synchro_visit_arrive s).2 <;> rfl
  · rw [synchro_modify_eq_arrive, synchro_modify_eq_arrive, hm s]
    cases (synchro_modify_arrive s).2 <;> rfl
  · rw [synchro_change_eq_arrive, synchro_change_eq_arrive]
    have := hm { s with accessing_count := s.accessing_count - 1 }
    simp only [synchro_change_arrive] at this ⊢
    rw [this]
    cases (synchro_modify_arrive _).2 <;> rfl
  · intro t ht p n hn
    have := Tree.idle_synchronizer (Tree.idle_get p n ht.idle_wf.1 hn)
    rw [this]
    rfl

/-- C12 as amended, at a concrete input: in the tree that `tree_create` of `/a/`
makes, the node `/a/` is not flagged; when `tree_remove` of `/a/` has flagged
it, the root is held for writing. -/
theorem flag_not_consulted_witness :
    (Built tree_a ∧
      (Tree.mk (some (strdup_exact ['a'])) synchro_init .nil).synchronizer.want_to_be_removed =
        false) ∧
    (tree_a.idle = true ∧
      tree_remove_to_flag tree_a ['/', 'a', '/'] = some (.inr ([], ['a'], tree_a_flagged))) ∧
    ∃ parent victim, tree_a_flagged.get [] = some parent ∧
      parent.synchronizer = synchro_modified ∧
      hmap_get parent.children ['a'] = some victim ∧
      victim.synchronizer = synchro_flagged ∧
      tree_remove tree_a ['/', 'a', '/'] = tree_remove_from_flag [] ['a'] tree_a_flagged :=
  have hb : Built tree_a :=
    Built.create tree_new ['/', 'a', '/'] 0 tree_a Built.new (by decide)
  ⟨⟨hb, (flag_not_consulted synchro_init true).2.2.2.2.2.2.2.2.2.2.2.2.2.1 tree_a hb [['a']] _
    (by decide)⟩, ⟨by decide, by decide⟩,
    (flag_not_consulted synchro_init true).2.2.2.2.2.2.2.2.2.2.2.2.2.2 tree_a ['/', 'a', '/']
      [] ['a'] tree_a_flagged (by decide) (by decide)⟩

/-! ## Every call leaves the tree with nobody inside -/

/-- After `tree_move` in a well-formed tree nobody is inside, nobody is inside. -/
theorem tree_move_idle (t : Tree) (source target : Str) (r : Int) (t1 : Tree)
    (ht : t.idle = true) (hw : t.wf = true) (h : tree_move t source target = some (r, t1)) :
    t1.idle = true := by
  by_cases hr : r = 0
  · subst hr
    obtain ⟨ss, sn, ts, tn, dest, parent, child, b, _, _, _, _, _, _, _, hS, hch, _, _, _,
      _, rfl⟩ := tree_move_success t source target t1 ht hw h
    have hci : child.idle = true := HashMap.idle_lookup _ sn child
      (Tree.idle_children (Tree.idle_get ss parent ht hS)) hch
    exact Tree.idle_modify _ _ ts (Tree.idle_modify _ t ss ht (move_remove_idle sn))
      (fun k hk => move_insert_idle tn child k hci hk)
  · rw [tree_move_error t source target ht r t1 h hr]; exact ht

/-- The one way `tree_move` has no result in a well-formed tree nobody is
inside: both parents are found and locked, the target is free, the source is
there, and the target name does not fit into the buffer of the name of the
source (`strcpy`, line 380).  No wait of the synchronizer is the reason. -/
theorem tree_move_no_result (t : Tree) (source target : Str) (ht : t.idle = true)
    (hw : t.wf = true) (h : tree_move t source target = none) :
    ∃ ss sn ts tn dest parent child b,
      source = path_of (ss ++ [sn]) ∧ target = path_of (ts ++ [tn]) ∧
      t.get ts = some dest ∧ hmap_get dest.children tn = none ∧ t.get ss = some parent ∧
      hmap_get parent.children sn = some child ∧ child.name = some b ∧
      strcpy b tn = none := by
  have hval := tree_move_checks t source target
  by_cases hvs : is_path_valid source = true
  swap
  · rw [hval.1 (Or.inl (by simpa using hvs))] at h; simp at h
  by_cases hvt : is_path_valid target = true
  swap
  · rw [hval.1 (Or.inr (by simpa using hvt))] at h; simp at h
  have hval2 := hval.2 hvs hvt
  by_cases hs : source = ['/']
  · rw [hval2.1 hs] at h; simp at h
  by_cases hg : target = ['/']
  · rw [hval2.2.1 hs hg] at h; simp at h
  by_cases hp : path_names source <+: path_names target
  · rw [hval2.2.2 hs hg hp] at h; simp at h
  obtain ⟨ss, sn, rfl, hss⟩ := path_names_ne_nil_of_ne_root source hvs hs
  obtain ⟨ts, tn, rfl, hts⟩ := path_names_ne_nil_of_ne_root target hvt hg
  rw [path_names_snoc ss sn hss, path_names_snoc ts tn hts] at hp
  have hm := tree_move_eval t ss ts sn tn hss hts ht hp
  unfold move_outcome at hm
  split at hm
  · rw [hm] at h; simp at h
  · rename_i dest hD
    split at hm
    · rw [hm] at h; simp at h
    · rename_i hfree
      unfold source_outcome at hm
      split at hm
      · rw [hm] at h; simp at h
      · rename_i parent hS
        split at hm
        · rw [hm] at h; simp at h
        · rename_i child hc
          obtain ⟨b, hb, hstr, hsz⟩ := Tree.child_named ss parent child sn hw hS hc
          have hover : ¬ tn.length + 1 ≤ b.size := by
            intro hfit
            rw [(hm.2 b hb hstr).1 hfit] at h
            simp at h
          refine ⟨ss, sn, ts, tn, dest, parent, child, b, rfl, rfl, hD, ?_, hS, hc, hb, ?_⟩
          · cases hf : hmap_get dest.children tn with
            | none => rfl
            | some v => simp [hf] at hfree
          · simp [strcpy, hover]

/-! ## The descent is hand over hand -/

theorem Tree.reach_setSynchronizer (s : Synchro) (t : Tree) (cs : Loc) :
    (t.setSynchronizer s).reach cs = t.reach cs := by
  cases cs with
  | nil => rfl
  | cons c cs => simp [Tree.reach, Tree.children_setSynchronizer]

theorem Tree.reach_length_le (t : Tree) (cs : Loc) : (t.reach cs).length ≤ cs.length := by
  induction cs generalizing t with
  | nil => simp [Tree.reach]
  | cons c cs ih =>
    simp only [Tree.reach]
    cases hmap_get t.children c with
    | none => simp
    | some child => simpa using ih child

/-- The permits held along a hand-over-hand descent: one after every release,
two after every acquire, and the permit of the last node at the end. -/
theorem permits_held_hand_over_hand (cs : List Str) :
    ∀ (p : Loc) (j : Nat),
      (1 ≤ (permits_held [p] ((hand_over_hand p cs).take j)).length ∧
        (permits_held [p] ((hand_over_hand p cs).take j)).length ≤ 2) ∧
      permits_held [p] (hand_over_hand p cs) = [p ++ cs] := by
  induction cs with
  | nil => intro p j; simp [hand_over_hand, permits_held]
  | cons c cs ih =>
    intro p j
    have he : ([p] ++ [p ++ [c]]).erase p = [p ++ [c]] := by simp
    refine ⟨?_, ?_⟩
    · match j with
      | 0 => simp [permits_held]
      | 1 => simp [hand_over_hand, permits_held]
      | j + 2 =>
        simp only [hand_over_hand, List.take_succ_cons, permits_held, he]
        exact (ih (p ++ [c]) j).1
    · simp only [hand_over_hand, permits_held, he]
      rw [(ih (p ++ [c]) 0).2]
      simp

/-- The operations of the loop of `synchro_get_to_path` in any tree: a
hand-over-hand descent along names the tree has, and along all of them when
the loop returns; it returns 0 when the names were all there and ENOENT
otherwise, with `*cur_folder` the last node of the descent. -/
theorem synchro_get_to_path_ops_spec (cs : Loc) (hcs : ∀ c ∈ cs, ∀ y ∈ c, y ≠ '/') :
    ∀ (fuel : Nat) (t : Tree) (p : Loc) (n : Tree), (path_of cs).length ≤ fuel →
      t.get p = some n →
      ∃ k, k ≤ (n.reach cs).length ∧
        synchro_get_to_path_ops fuel t p (split_path (path_of cs)) =
          hand_over_hand p ((n.reach cs).take k) ∧
        ∀ r cur t1, synchro_get_to_path_loop fuel t p (split_path (path_of cs)) =
            some (r, cur, t1) →
          k = (n.reach cs).length ∧ cur = p ++ n.reach cs ∧
            r = if n.reach cs = cs then 0 else ENOENT := by
  induction cs with
  | nil =>
    intro fuel t p n _ _
    rw [split_path_root]
    refine ⟨0, by simp [Tree.reach], ?_, ?_⟩
    · cases fuel <;> simp [synchro_get_to_path_ops, hand_over_hand]
    · intro r cur t1 h
      cases fuel <;> simp [synchro_get_to_path_loop] at h <;>
        simp [Tree.reach, h.1, h.2.1]
  | cons c cs ih =>
    intro fuel t p n hfuel hx
    rw [split_path_cons c cs (hcs c (by simp))]
    cases fuel with
    | zero => simp [path_of] at hfuel
    | succ fuel =>
      have hlen := path_of_cons_length c cs
      simp only [synchro_get_to_path_loop, synchro_get_to_path_ops, hx]
      cases hc : hmap_get n.children c with
      | none =>
        refine ⟨0, by simp, by simp [Tree.reach, hc, hand_over_hand], ?_⟩
        intro r cur t1 h
        simp only [Option.some.injEq, Prod.mk.injEq] at h
        simp [Tree.reach, hc, ← h.1, ← h.2.1]
      | some child =>
        have hchild : t.get (p ++ [c]) = some child := by
          simp [Tree.get_append, hx, Tree.get_cons, hc]
        have hreach : n.reach (c :: cs) = c :: child.reach cs := by simp [Tree.reach, hc]
        simp only [sync_wait, hchild]
        cases hv : synchro_visit child.synchronizer with
        | none =>
          refine ⟨0, by simp, by simp [hand_over_hand], ?_⟩
          intro r cur t1 h
          simp at h
        | some s =>
          have h1 : (Tree.modify (Tree.setSynchronizer s) (p ++ [c]) t).get p =
              some (Tree.modify (Tree.setSynchronizer s) [c] n) := by
            rw [Tree.modify_append, Tree.get_modify, hx]; rfl
          simp only [sync_call, sync_wait, h1]
          have h2 : (Tree.modify (Tree.setSynchronizer (synchro_leave_after_visiting
                (Tree.modify (Tree.setSynchronizer s) [c] n).synchronizer)) p
              (Tree.modify (Tree.setSynchronizer s) (p ++ [c]) t)).get (p ++ [c]) =
              some (child.setSynchronizer s) := by
            rw [Tree.get_modify_append, h1]
            cases n with
            | mk nm ns m =>
              simp only [Tree.children_mk] at hc
              simp [Tree.modify, hc, Tree.get_cons, hmap_get_put_same]
          obtain ⟨k, hk, hops, hres⟩ := ih (fun d hd => hcs d (by simp [hd])) fuel _ (p ++ [c])
            (child.setSynchronizer s) (by omega) h2
          rw [Tree.reach_setSynchronizer] at hk hops hres
          refine ⟨k + 1, by rw [hreach]; simpa using hk, ?_, ?_⟩
          · rw [hreach, List.take_succ_cons, hand_over_hand, ← hops]
          · intro r cur t1 h
            obtain ⟨e1, e2, e3⟩ := hres r cur t1 h
            rw [hreach]
            refine ⟨by simp [e1], by simp [e2], ?_⟩
            rw [e3]
            simp

/-- C20: in any tree, from any start node and along any valid path, the permit
operations of `synchro_get_to_path` are a hand-over-hand descent along names
the tree has below the start node: the read permit of the child is acquired,
then the one of the parent is released.  After every operation the caller,
who held the permit of the start node, holds one or two read permits.  When
the function returns, the descent has gone along all the names the tree has,
the caller holds exactly the permit of the node `*cur_folder` points to, the
result is 0 when that is the node the path denotes and ENOENT when it is the
deepest node reached on the way.  With the caller the only thread inside, the
function does return, and the read permit is then on that node alone. -/
theorem descent_hand_over_hand (x : Tree) (p : Loc) (n : Tree) (cs : Loc)
    (hcs : ∀ c ∈ cs, good_name c) (hx : x.get p = some n) :
    (∃ k, synchro_get_to_path_ops (path_of cs).length x p (split_path (path_of cs)) =
      hand_over_hand p ((n.reach cs).take k)) ∧
    (∀ j,
      1 ≤ (permits_held [p] ((synchro_get_to_path_ops (path_of cs).length x p
        (split_path (path_of cs))).take j)).length ∧
      (permits_held [p] ((synchro_get_to_path_ops (path_of cs).length x p
        (split_path (path_of cs))).take j)).length ≤ 2) ∧
    (∀ r cur t1, synchro_get_to_path x p (path_of cs) = some (r, cur, t1) →
      synchro_get_to_path_ops (path_of cs).length x p (split_path (path_of cs)) =
        hand_over_hand p (n.reach cs) ∧
      permits_held [p] (synchro_get_to_path_ops (path_of cs).length x p
        (split_path (path_of cs))) = [cur] ∧
      cur = p ++ n.reach cs ∧
      (r = 0 → cur = p ++ cs) ∧ (r ≠ 0 → r = ENOENT ∧ n.reach cs ≠ cs)) ∧
    (n.idle = true →
      synchro_get_to_path (Tree.modify (Tree.setSynchronizer synchro_visited) p x) p
          (path_of cs) =
        some (if n.reach cs = cs then 0 else ENOENT, p ++ n.reach cs,
          Tree.modify (Tree.setSynchronizer synchro_visited) (p ++ n.reach cs) x)) := by
  have hns := good_names_no_slash hcs
  obtain ⟨k, hk, hops, hres⟩ :=
    synchro_get_to_path_ops_spec cs hns (path_of cs).length x p n (Nat.le_refl _) hx
  refine ⟨⟨k, hops⟩, fun j => ?_, fun r cur t1 h => ?_,
    fun hn => synchro_get_to_path_spec cs hns x p n hx hn⟩
  · rw [hops]
    exact (permits_held_hand_over_hand _ p j).1
  · obtain ⟨e1, e2, e3⟩ := hres r cur t1 h
    have hfull : synchro_get_to_path_ops (path_of cs).length x p (split_path (path_of cs)) =
        hand_over_hand p (n.reach cs) := by
      rw [hops, e1, List.take_length]
    have hE : ENOENT ≠ 0 := by decide
    refine ⟨hfull, ?_, e2, ?_, ?_⟩
    · rw [hfull, (permits_held_hand_over_hand _ p 0).2, e2]
    · intro hr
      by_cases hreach : n.reach cs = cs
      · rw [e2, hreach]
      · rw [e3, if_neg hreach] at hr
        exact absurd hr hE
    · intro hr
      by_cases hreach : n.reach cs = cs
      · rw [e3, if_pos hreach] at hr
        exact absurd rfl hr
      · exact ⟨by rw [e3, if_neg hreach], hreach⟩

/-- C20 at a concrete input: the descent from the root of the tree with `/a/`
and `/a/b/` along `/a/b/`, the caller being the only thread inside. -/
theorem descent_hand_over_hand_witness :
    ((∀ c ∈ [['a'], ['b']], good_name c) ∧ tree_ab.get [] = some tree_ab ∧
      tree_ab.idle = true) ∧
    synchro_get_to_path (Tree.modify (Tree.setSynchronizer synchro_visited) [] tree_ab) []
        (path_of [['a'], ['b']]) =
      some (if tree_ab.reach [['a'], ['b']] = [['a'], ['b']] then 0 else ENOENT,
        [] ++ tree_ab.reach [['a'], ['b']],
        Tree.modify (Tree.setSynchronizer synchro_visited) ([] ++ tree_ab.reach [['a'], ['b']])
          tree_ab) := by
  have hg : ∀ c ∈ [['a'], ['b']], good_name c := by
    intro c hc
    simp only [List.mem_cons, List.mem_singleton, List.not_mem_nil, or_false] at hc
    rcases hc with rfl | rfl <;>
      exact ⟨by decide, by decide, by decide⟩
  exact ⟨⟨hg, rfl, by decide⟩,
    (descent_hand_over_hand tree_ab [] tree_ab [['a'], ['b']] hg rfl).2.2.2 (by decide)⟩

/-! ## The invariant of one synchronizer and its threads -/

theorem Synchro.good_init : synchro_init.good 0 0 0 0 := by
  simp [Synchro.good, synchro_init]

theorem Synchro.good_visit_arrive (s : Synchro) (r w vw mw : Int) (h : s.good r w vw mw) :
    if (synchro_visit_arrive s).2 = true then (synchro_visit_arrive s).1.good (r + 1) w vw mw
    else (synchro_visit_arrive s).1.good r w (vw + 1) mw := by
  obtain ⟨c, aw, mw1, im, htw, mn, wr⟩ := s
  simp only [Synchro.good] at h
  obtain ⟨rfl, rfl, rfl, h1, h2, h4, h5, h6, h7, h8, h9⟩ := h
  unfold synchro_visit_arrive
  by_cases hw : visit_must_wait ⟨c, aw, mw1, im, htw, mn, wr⟩ = true
  · rw [if_pos hw]
    simp only [Bool.false_eq_true, if_false, Synchro.good]
    cases im <;> cases mn <;> simp_all <;> omega
  · rw [if_neg hw]
    simp only [if_true, Synchro.good]
    simp only [visit_must_wait, Bool.or_eq_true, bne_iff_ne, ne_eq, not_or, Bool.not_eq_true,
      not_not] at hw
    obtain ⟨⟨rfl, rfl⟩, rfl⟩ := hw
    simp_all
    omega

theorem Synchro.good_visit_wake (s : Synchro) (r w vw mw : Int) (h : s.good r w vw mw)
    (hvw : 1 ≤ vw) :
    if (synchro_visit_wake s).2 = true then (synchro_visit_wake s).1.good (r + 1) w (vw - 1) mw
    else (synchro_visit_wake s).1.good r w vw mw := by
  by_cases hh : s.how_many_to_wake > 0
  · obtain ⟨c, aw, mw1, im, htw, mn, wr⟩ := s
    simp only [Synchro.good] at h
    obtain ⟨rfl, rfl, rfl, h1, h2, h4, h5, h6, h7, h8, h9⟩ := h
    simp only at hh
    simp only [synchro_visit_wake, hh, if_true, Synchro.good]
    obtain ⟨rfl, rfl⟩ := h7 hh
    simp_all
    omega
  · have hg : Synchro.good { s with accessing_waiting := s.accessing_waiting - 1 } r w (vw - 1)
        mw := by
      obtain ⟨c, aw, mw1, im, htw, mn, wr⟩ := s
      simp only [Synchro.good] at h ⊢
      simp only at hh
      obtain ⟨rfl, rfl, rfl, h1, h2, h4, h5, h6, h7, h8, h9⟩ := h
      refine ⟨rfl, rfl, rfl, h1, h2, h4, h5, by omega, h7, h8, h9⟩
    have := Synchro.good_visit_arrive _ r w (vw - 1) mw hg
    simp only [synchro_visit_wake, hh, if_false]
    simpa using this

theorem Synchro.good_modify_arrive (s : Synchro) (r w vw mw : Int) (h : s.good r w vw mw) :
    if (synchro_modify_arrive s).2 = true then (synchro_modify_arrive s).1.good r (w + 1) vw mw
    else (synchro_modify_arrive s).1.good r w vw (mw + 1) := by
  obtain ⟨c, aw, mw1, im, htw, mn, wr⟩ := s
  simp only [Synchro.good] at h
  obtain ⟨rfl, rfl, rfl, h1, h2, h4, h5, h6, h7, h8, h9⟩ := h
  unfold synchro_modify_arrive
  by_cases hw : modify_must_wait ⟨c, aw, mw1, im, htw, mn, wr⟩ = true
  · rw [if_pos hw]
    simp only [Bool.false_eq_true, if_false]
    unfold Synchro.good
    exact ⟨rfl, rfl, rfl, h1, by omega, h4, h5, h6, h7, h8, h9⟩
  · rw [if_neg hw]
    simp only [if_true, Synchro.good]
    simp only [modify_must_wait, Bool.and_eq_true, Bool.not_eq_true', Bool.or_eq_true,
      decide_eq_true_eq, not_and, not_or, not_lt] at hw
    cases mn with
    | true =>
      obtain ⟨rfl, rfl⟩ := h8 rfl
      have : htw = 0 := by
        by_contra hne
        have := (h7 (by omega)).2
        simp at this
      subst this
      simp_all
    | false =>
      obtain ⟨⟨hc, him⟩, hh⟩ := hw rfl
      simp only [Bool.not_eq_true] at him
      subst him
      have : c = 0 := by omega
      subst this
      have : htw = 0 := by omega
      subst this
      simp_all

theorem Synchro.good_modify_wake (s : Synchro) (r w vw mw : Int) (h : s.good r w vw mw)
    (hmw : 1 ≤ mw) :
    if (synchro_modify_wake s).2 = true then
      (synchro_modify_wake s).1.good r (w + 1) vw (mw - 1)
    else (synchro_modify_wake s).1.good r w vw mw := by
  have hg : Synchro.good { s with modifying_waiting := s.modifying_waiting - 1 } r w vw
      (mw - 1) := by
    obtain ⟨c, aw, mw1, im, htw, mn, wr⟩ := s
    simp only [Synchro.good] at h
    obtain ⟨rfl, rfl, rfl, h1, h2, h4, h5, h6, h7, h8, h9⟩ := h
    unfold Synchro.good
    exact ⟨rfl, rfl, rfl, h1, by omega, h4, h5, h6, h7, h8, h9⟩
  have := Synchro.good_modify_arrive _ r w vw (mw - 1) hg
  simpa [synchro_modify_wake] using this

theorem Synchro.good_change_arrive (s : Synchro) (r w vw mw : Int) (h : s.good r w vw mw)
    (hr : 1 ≤ r) :
    if (synchro_change_arrive s).2 = true then
      (synchro_change_arrive s).1.good (r - 1) (w + 1) vw mw
    else (synchro_change_arrive s).1.good (r - 1) w vw (mw + 1) := by
  have hg : Synchro.good { s with accessing_count := s.accessing_count - 1 } (r - 1) w vw
      mw := by
    obtain ⟨c, aw, mw1, im, htw, mn, wr⟩ := s
    simp only [Synchro.good] at h
    obtain ⟨rfl, rfl, rfl, h1, h2, h4, h5, h6, h7, h8, h9⟩ := h
    unfold Synchro.good
    refine ⟨rfl, rfl, rfl, by omega, h2, h4, h5, h6, h7, ?_, ?_⟩
    · intro hmn
      have := (h8 hmn).2
      simp only at this
      omega
    · intro him
      have := h9 him
      simp only at this
      omega
  exact Synchro.good_modify_arrive _ (r - 1) w vw mw hg

theorem Synchro.good_leave_after_visiting (s : Synchro) (r w vw mw : Int)
    (h : s.good r w vw mw) (hr : 1 ≤ r) :
    (synchro_leave_after_visiting s).good (r - 1) w vw mw := by
  obtain ⟨c, aw, mw1, im, htw, mn, wr⟩ := s
  simp only [Synchro.good] at h
  obtain ⟨rfl, rfl, rfl, h1, h2, h4, h5, h6, h7, h8, h9⟩ := h
  have him : im = false := by
    cases im with
    | false => rfl
    | true => have := h9 rfl; simp only at this; omega
  have hmn : mn = false := by
    cases mn with
    | false => rfl
    | true => have := (h8 rfl).2; simp only at this; omega
  subst him hmn
  unfold synchro_leave_after_visiting
  dsimp only
  split
  · rename_i hcond
    simp only [Bool.and_eq_true, beq_iff_eq, decide_eq_true_eq] at hcond
    unfold Synchro.good
    refine ⟨rfl, rfl, rfl, by omega, h2, h4, h5, h6, ?_, ?_, ?_⟩
    · intro hh; simp only at hh; omega
    · intro _; exact ⟨rfl, hcond.1.1⟩
    · intro hh; simp at hh
  · unfold Synchro.good
    refine ⟨rfl, rfl, rfl, by omega, h2, h4, h5, h6, h7, ?_, ?_⟩
    · intro hh; simp at hh
    · intro hh; simp at hh

theorem Synchro.good_leave_after_modifying (s : Synchro) (r w vw mw : Int)
    (h : s.good r w vw mw) (hw : 1 ≤ w) :
    (synchro_leave_after_modifying s).good r (w - 1) vw mw := by
  obtain ⟨c, aw, mw1, im, htw, mn, wr⟩ := s
  simp only [Synchro.good] at h
  obtain ⟨rfl, rfl, rfl, h1, h2, h4, h5, h6, h7, h8, h9⟩ := h
  have him : im = true := by
    cases im with
    | true => rfl
    | false => simp at h4; omega
  subst him
  have hc : c = 0 := h9 rfl
  have hmn : mn = false := by
    cases mn with
    | false => rfl
    | true => have := (h8 rfl).1; simp at this
  have hh : htw = 0 := by
    by_contra hne
    have := (h7 (by omega)).1
    simp at this
  subst hc hmn hh
  simp only [if_true] at h4
  subst h4
  unfold synchro_leave_after_modifying
  dsimp only
  split
  · rename_i ha
    unfold Synchro.good
    refine ⟨rfl, rfl, rfl, h1, h2, by simp, ?_, by simp, ?_, ?_, ?_⟩
    · show (0 : Int) ≤ aw
      omega
    all_goals simp
  · split
    · unfold Synchro.good
      refine ⟨rfl, rfl, rfl, h1, h2, by simp, by simp, by simpa using h6, ?_, ?_, ?_⟩ <;> simp
    · unfold Synchro.good
      refine ⟨rfl, rfl, rfl, h1, h2, by simp, by simp, by simpa using h6, ?_, ?_, ?_⟩ <;> simp

theorem Synchro.good_want (s : Synchro) (b : Bool) (r w vw mw : Int) (h : s.good r w vw mw) :
    Synchro.good { s with want_to_be_removed := b } r w vw mw := h

/-! ### Counting threads -/

theorem countP_set_pc (k : Pc → Bool) (l : List Pc) (i : Nat) (a b : Pc)
    (h : l[i]? = some a) :
    ((l.set i b).countP k : Int) =
      (l.countP k : Int) - (if k a = true then 1 else 0) + (if k b = true then 1 else 0) := by
  induction l generalizing i with
  | nil => simp at h
  | cons x l ih =>
    cases i with
    | zero =>
      simp only [List.getElem?_cons_zero, Option.some.injEq] at h
      subst h
      simp only [List.set_cons_zero, List.countP_cons, Nat.cast_add]
      split <;> split <;> simp
    | succ i =>
      simp only [List.getElem?_cons_succ] at h
      simp only [List.set_cons_succ, List.countP_cons, Nat.cast_add, ih i h]
      omega

theorem countP_pos_of_get (k : Pc → Bool) (l : List Pc) (i : Nat) (a : Pc)
    (h : l[i]? = some a) (hk : k a = true) : 1 ≤ (l.countP k : Int) := by
  have hmem : a ∈ l := by
    obtain ⟨hi, rfl⟩ := List.getElem?_eq_some_iff.1 h
    exact List.getElem_mem _
  have : 0 < l.countP k := List.countP_pos_iff.2 ⟨a, hmem, hk⟩
  omega

theorem countP_map_signal (k : Pc → Bool) (c : Option Cond) (l : List Pc)
    (hk : ∀ pc, k (Pc.signal c pc) = k pc) :
    (l.map (Pc.signal c)).countP k = l.countP k := by
  induction l with
  | nil => rfl
  | cons x l ih => simp [List.countP_cons, ih, hk]

theorem Pc.is_reading_signal (c : Option Cond) (pc : Pc) :
    (Pc.signal c pc).is_reading = pc.is_reading := by cases pc <;> rfl

theorem Pc.is_writing_signal (c : Option Cond) (pc : Pc) :
    (Pc.signal c pc).is_writing = pc.is_writing := by cases pc <;> rfl

theorem Pc.is_visit_waiting_signal (c : Option Cond) (pc : Pc) :
    (Pc.signal c pc).is_visit_waiting = pc.is_visit_waiting := by cases pc <;> rfl

theorem Pc.is_modify_waiting_signal (c : Option Cond) (pc : Pc) :
    (Pc.signal c pc).is_modify_waiting = pc.is_modify_waiting := by cases pc <;> rfl

theorem Pc.signal_none (pc : Pc) : Pc.signal none pc = pc := by
  cases pc <;> simp [Pc.signal]

theorem map_signal_none (l : List Pc) : l.map (Pc.signal none) = l := by
  induction l with
  | nil => rfl
  | cons x l ih => simp [Pc.signal_none, ih]

/-- The invariant after thread `i` went from `a` to `b` and a broadcast on `c`
was made, the fields being good for the new numbers of threads. -/
theorem Sys.inv_update (s : Synchro) (l : List Pc) (i : Nat) (a b : Pc) (c : Option Cond)
    (hpc : l[i]? = some a)
    (hg : s.good
      ((l.countP Pc.is_reading : Int) - (if a.is_reading = true then 1 else 0) +
        (if b.is_reading = true then 1 else 0))
      ((l.countP Pc.is_writing : Int) - (if a.is_writing = true then 1 else 0) +
        (if b.is_writing = true then 1 else 0))
      ((l.countP Pc.is_visit_waiting : Int) - (if a.is_visit_waiting = true then 1 else 0) +
        (if b.is_visit_waiting = true then 1 else 0))
      ((l.countP Pc.is_modify_waiting : Int) - (if a.is_modify_waiting = true then 1 else 0) +
        (if b.is_modify_waiting = true then 1 else 0))) :
    Sys.inv { synchronizer := s, threads := (l.set i b).map (Pc.signal c) } := by
  unfold Sys.inv
  simp only
  rw [countP_map_signal _ c _ (Pc.is_reading_signal c),
    countP_map_signal _ c _ (Pc.is_writing_signal c),
    countP_map_signal _ c _ (Pc.is_visit_waiting_signal c),
    countP_map_signal _ c _ (Pc.is_modify_waiting_signal c),
    countP_set_pc _ l i a b hpc, countP_set_pc _ l i a b hpc, countP_set_pc _ l i a b hpc,
    countP_set_pc _ l i a b hpc]
  exact hg

/-- The invariant after a section of a call that can wait. -/
theorem Sys.inv_section_end (σ : Sys) (i : Nat) (a asleep awake : Pc) (r : Synchro × Bool)
    (hpc : σ.threads[i]? = some a)
    (hg : r.1.good
      ((σ.threads.countP Pc.is_reading : Int) - (if a.is_reading = true then 1 else 0) +
        (if (if r.2 = true then awake else asleep).is_reading = true then 1 else 0))
      ((σ.threads.countP Pc.is_writing : Int) - (if a.is_writing = true then 1 else 0) +
        (if (if r.2 = true then awake else asleep).is_writing = true then 1 else 0))
      ((σ.threads.countP Pc.is_visit_waiting : Int) -
        (if a.is_visit_waiting = true then 1 else 0) +
        (if (if r.2 = true then awake else asleep).is_visit_waiting = true then 1 else 0))
      ((σ.threads.countP Pc.is_modify_waiting : Int) -
        (if a.is_modify_waiting = true then 1 else 0) +
        (if (if r.2 = true then awake else asleep).is_modify_waiting = true then 1 else 0))) :
    (σ.section_end i r asleep awake).inv := by
  have := Sys.inv_update r.1 σ.threads i a (if r.2 = true then awake else asleep) none hpc hg
  rw [map_signal_none] at this
  exact this

/-- A wake-up keeps the invariant. -/
theorem Sys.inv_wake (σ : Sys) (i : Nat) (pc : Pc) (σ1 : Sys) (hinv : σ.inv)
    (hpc : σ.threads[i]? = some pc) (h : σ.wake i pc = some σ1) : σ1.inv := by
  cases pc with
  | visit_waiting b =>
    simp only [Sys.wake, Option.some.injEq] at h
    subst h
    have hs := Synchro.good_visit_wake _ _ _ _ _ hinv
      (countP_pos_of_get Pc.is_visit_waiting _ i _ hpc rfl)
    apply Sys.inv_section_end σ i _ _ _ _ hpc
    cases hr : (synchro_visit_wake σ.synchronizer).2 <;>
      simpa [hr, Pc.is_reading, Pc.is_writing, Pc.is_visit_waiting, Pc.is_modify_waiting]
        using hs
  | modify_waiting b =>
    simp only [Sys.wake, Option.some.injEq] at h
    subst h
    have hs := Synchro.good_modify_wake _ _ _ _ _ hinv
      (countP_pos_of_get Pc.is_modify_waiting _ i _ hpc rfl)
    apply Sys.inv_section_end σ i _ _ _ _ hpc
    cases hr : (synchro_modify_wake σ.synchronizer).2 <;>
      simpa [hr, Pc.is_reading, Pc.is_writing, Pc.is_visit_waiting, Pc.is_modify_waiting]
        using hs
  | remove_waiting b =>
    simp only [Sys.wake, Option.some.injEq] at h
    subst h
    apply Sys.inv_section_end σ i _ _ _ _ hpc
    cases hr : (synchro_prepare_wake σ.synchronizer).2 <;>
      simpa [hr, synchro_prepare_wake, Pc.is_reading, Pc.is_writing, Pc.is_visit_waiting,
        Pc.is_modify_waiting] using hinv
  | outside => simp [Sys.wake] at h
  | reading => simp [Sys.wake] at h
  | writing => simp [Sys.wake] at h
  | removing => simp [Sys.wake] at h

/-- Every step keeps the invariant. -/
theorem Sys.inv_step (σ : Sys) (a : Act) (σ1 : Sys) (hinv : σ.inv)
    (h : σ.step a = some σ1) : σ1.inv := by
  cases a with
  | visit i =>
    simp only [Sys.step] at h
    split at h
    · rename_i hpc
      simp only [Option.some.injEq] at h
      subst h
      have hs := Synchro.good_visit_arrive _ _ _ _ _ hinv
      apply Sys.inv_section_end σ i _ _ _ _ hpc
      cases hr : (synchro_visit_arrive σ.synchronizer).2 <;>
        simpa [hr, Pc.is_reading, Pc.is_writing, Pc.is_visit_waiting, Pc.is_modify_waiting]
          using hs
    · simp at h
  | leave_after_visiting i =>
    simp only [Sys.step] at h
    split at h
    · rename_i hpc
      simp only [Option.some.injEq] at h
      subst h
      have hs := Synchro.good_leave_after_visiting _ _ _ _ _ hinv
        (countP_pos_of_get Pc.is_reading _ i _ hpc rfl)
      apply Sys.inv_update _ σ.threads i _ _ _ hpc
      simpa [Pc.is_reading, Pc.is_writing, Pc.is_visit_waiting, Pc.is_modify_waiting] using hs
    · simp at h
  | change_from_visiting_to_mod i =>
    simp only [Sys.step] at h
    split at h
    · rename_i hpc
      simp only [Option.some.injEq] at h
      subst h
      have hs := Synchro.good_change_arrive _ _ _ _ _ hinv
        (countP_pos_of_get Pc.is_reading _ i _ hpc rfl)
      apply Sys.inv_section_end σ i _ _ _ _ hpc
      cases hr : (synchro_change_arrive σ.synchronizer).2 <;>
        simpa [hr, Pc.is_reading, Pc.is_writing, Pc.is_visit_waiting, Pc.is_modify_waiting]
          using hs
    · simp at h
  | modify i =>
    simp only [Sys.step] at h
    split at h
    · rename_i hpc
      simp only [Option.some.injEq] at h
      subst h
      have hs := Synchro.good_modify_arrive _ _ _ _ _ hinv
      apply Sys.inv_section_end σ i _ _ _ _ hpc
      cases hr : (synchro_modify_arrive σ.synchronizer).2 <;>
        simpa [hr, Pc.is_reading, Pc.is_writing, Pc.is_visit_waiting, Pc.is_modify_waiting]
          using hs
    · simp at h
  | leave_after_modifying i =>
    simp only [Sys.step] at h
    split at h
    · rename_i hpc
      simp only [Option.some.injEq] at h
      subst h
      have hs := Synchro.good_leave_after_modifying _ _ _ _ _ hinv
        (countP_pos_of_get Pc.is_writing _ i _ hpc rfl)
      apply Sys.inv_update _ σ.threads i _ _ _ hpc
      simpa [Pc.is_reading, Pc.is_writing, Pc.is_visit_waiting, Pc.is_modify_waiting] using hs
    · simp at h
  | prepare_for_being_removed i =>
    simp only [Sys.step] at h
    split at h
    · rename_i hpc
      simp only [Option.some.injEq] at h
      subst h
      apply Sys.inv_section_end σ i _ _ _ _ hpc
      cases hr : (synchro_prepare_arrive σ.synchronizer).2 <;>
        simpa [hr, synchro_prepare_arrive, Pc.is_reading, Pc.is_writing, Pc.is_visit_waiting,
          Pc.is_modify_waiting] using Synchro.good_want _ true _ _ _ _ hinv
    · simp at h
  | leave_after_bad_remove i =>
    simp only [Sys.step] at h
    split at h
    · rename_i hpc
      simp only [Option.some.injEq] at h
      subst h
      apply Sys.inv_update _ σ.threads i _ _ _ hpc
      simpa [synchro_leave_after_bad_remove, Pc.is_reading, Pc.is_writing, Pc.is_visit_waiting,
        Pc.is_modify_waiting] using Synchro.good_want _ false _ _ _ _ hinv
    · simp at h
  | wake i =>
    simp only [Sys.step] at h
    split at h
    · rename_i pc hpc
      split at h
      · exact Sys.inv_wake σ i pc σ1 hinv hpc h
      · simp at h
    · simp at h
  | spurious_wake i =>
    simp only [Sys.step] at h
    split at h
    · rename_i pc hpc
      exact Sys.inv_wake σ i pc σ1 hinv hpc h
    · simp at h

theorem Sys.inv_init (n : Nat) : (Sys.init n).inv := by
  have h : ∀ k : Pc → Bool, k .outside = false →
      (List.replicate n Pc.outside).countP k = 0 := by
    intro k hk
    rw [List.countP_eq_zero]
    intro a ha
    rw [List.eq_of_mem_replicate ha, hk]
    simp
  unfold Sys.inv Sys.init
  simp only [h Pc.is_reading rfl, h Pc.is_writing rfl, h Pc.is_visit_waiting rfl,
    h Pc.is_modify_waiting rfl]
  exact Synchro.good_init

/-- Every reachable state satisfies the invariant, with or without spurious
wake-ups. -/
theorem Reach.inv {sp : Bool} {σ : Sys} (h : Reach sp σ) : σ.inv := by
  induction h with
  | init n => exact Sys.inv_init n
  | step σ a σ1 _ _ hstep ih => exact Sys.inv_step σ a σ1 ih hstep

theorem countP_le_one_unique (k : Pc → Bool) (l : List Pc) (hl : l.countP k ≤ 1) :
    ∀ (i j : Nat) (a b : Pc), l[i]? = some a → k a = true → l[j]? = some b → k b = true →
      i = j := by
  induction l with
  | nil => intro i j a b h; simp at h
  | cons x l ih =>
    intro i j a b hi ha hj hb
    rw [List.countP_cons] at hl
    cases i with
    | zero =>
      cases j with
      | zero => rfl
      | succ j =>
        simp only [List.getElem?_cons_zero, Option.some.injEq] at hi
        simp only [List.getElem?_cons_succ] at hj
        subst hi
        have := countP_pos_of_get k l j b hj hb
        simp only [ha, if_true] at hl
        omega
    | succ i =>
      simp only [List.getElem?_cons_succ] at hi
      cases j with
      | zero =>
        simp only [List.getElem?_cons_zero, Option.some.injEq] at hj
        subst hj
        have := countP_pos_of_get k l i a hi ha
        simp only [hb, if_true] at hl
        omega
      | succ j =>
        simp only [List.getElem?_cons_succ] at hj
        rw [ih (by omega) i j a b hi ha hj hb]

/-- The states a run from the state of `synchro_init` goes through are
reachable. -/
theorem Reach.of_run (sp : Bool) (as : List Act) :
    ∀ (σ σ1 : Sys), Reach sp σ → (∀ a ∈ as, a.is_spurious = true → sp = true) →
      σ.run as = some σ1 → Reach sp σ1 := by
  induction as with
  | nil =>
    intro σ σ1 h _ hr
    simp only [Sys.run, Option.some.injEq] at hr
    exact hr ▸ h
  | cons a as ih =>
    intro σ σ1 h hsp hr
    simp only [Sys.run] at hr
    split at hr
    · simp at hr
    · rename_i σ2 hstep
      exact ih σ2 σ1 (Reach.step σ a σ2 h (hsp a (by simp)) hstep)
        (fun b hb => hsp b (by simp [hb])) hr

/-- C11: in every state reachable from the state of `synchro_init` by
mutex-protected sections of any number of threads that pair their calls (with
or without spurious wake-ups), at most one thread holds the write permit, no
thread holds a read permit while a thread holds the write permit, and
`is_modifying` implies `accessing_count = 0`; `is_modifying` is true exactly
when a thread holds the write permit and `accessing_count` is the number of
threads that hold a read permit. -/
theorem permits_exclusive (sp : Bool) (σ : Sys) (h : Reach sp σ) :
    (∀ i j : Nat, σ.threads[i]? = some Pc.writing → σ.threads[j]? = some Pc.writing → i = j) ∧
    (∀ i j : Nat, σ.threads[i]? = some Pc.writing → σ.threads[j]? ≠ some Pc.reading) ∧
    (σ.synchronizer.is_modifying = true → σ.synchronizer.accessing_count = 0) ∧
    (σ.synchronizer.is_modifying = true ↔ ∃ i : Nat, σ.threads[i]? = some Pc.writing) ∧
    σ.synchronizer.accessing_count = σ.threads.countP Pc.is_reading := by
  have hinv := h.inv
  unfold Sys.inv Synchro.good at hinv
  obtain ⟨h1, h2, h3, h4, h5, h6, h7, h8, h9, h10, h11⟩ := hinv
  have hw1 : σ.threads.countP Pc.is_writing ≤ 1 := by
    split at h6 <;> omega
  have hmod : ∀ i : Nat, σ.threads[i]? = some Pc.writing → σ.synchronizer.is_modifying = true := by
    intro i hi
    have := countP_pos_of_get Pc.is_writing _ i _ hi rfl
    by_contra hne
    rw [if_neg hne] at h6
    omega
  refine ⟨fun i j hi hj => countP_le_one_unique _ _ hw1 i j _ _ hi rfl hj rfl,
    fun i j hi hj => ?_, h11, ⟨fun him => ?_, fun ⟨i, hi⟩ => hmod i hi⟩, h1⟩
  · have hc := h11 (hmod i hi)
    have := countP_pos_of_get Pc.is_reading _ j _ hj rfl
    omega
  · rw [if_pos him] at h6
    have hpos : 0 < σ.threads.countP Pc.is_writing := by omega
    obtain ⟨a, ha, hk⟩ := List.countP_pos_iff.1 hpos
    obtain ⟨i, hi, rfl⟩ := List.getElem_of_mem ha
    refine ⟨i, ?_⟩
    rw [List.getElem?_eq_getElem hi]
    cases hq : σ.threads[i] <;> simp [hq, Pc.is_writing] at hk ⊢

/-- C11 at a concrete state: one thread writes, another that called
`synchro_modify` sleeps; the state is reachable and has its one writer. -/
theorem permits_exclusive_witness :
    Reach false sys_writer_and_waiter ∧
    (sys_writer_and_waiter.synchronizer.is_modifying = true →
      sys_writer_and_waiter.synchronizer.accessing_count = 0) ∧
    ∀ i j : Nat, sys_writer_and_waiter.threads[i]? = some Pc.writing →
      sys_writer_and_waiter.threads[j]? = some Pc.writing → i = j :=
  have hr : Reach false sys_writer_and_waiter :=
    Reach.of_run false [.modify 0, .modify 1] (Sys.init 2) _ (Reach.init 2) (by decide)
      (by decide)
  ⟨hr, (permits_exclusive false _ hr).2.2.1, (permits_exclusive false _ hr).1⟩

/-! ## Starvation -/

theorem Sys.run_append (as bs : List Act) :
    ∀ σ : Sys, σ.run (as ++ bs) = (σ.run as).bind (fun σ1 => σ1.run bs) := by
  induction as with
  | nil => intro σ; rfl
  | cons a as ih =>
    intro σ
    simp only [List.cons_append, Sys.run]
    cases σ.step a with
    | none => rfl
    | some σ1 => exact ih σ1

theorem Sys.run_repeat (σ : Sys) (as : List Act) (h : σ.run as = some σ) :
    ∀ k, σ.run (repeat_acts k as) = some σ := by
  intro k
  induction k with
  | zero => rfl
  | succ k ih => rw [repeat_acts, Sys.run_append, h]; exact ih

/-- C17, two runs of threads that pair their calls.  The waiting writer that
is never admitted: thread 0 holds the write permit and thread 1 sleeps in
`synchro_modify`.  Thread 0 leaves (which hands the node over and signals
thread 1), calls `synchro_modify` again and is admitted at once because
`modify_now` is set; thread 1 then wakes, finds `is_modifying` set and sleeps
again.  The state is the one the round started in, so the round can be run any
number of times, thread 1 being woken by a broadcast in every round and in
`synchro_modify` for ever.  The waiting reader that sees a second writer turn:
reader 1 sleeps while writer 0 holds the node; writer 0 leaves, which makes
reader 1 the batch, and calls `synchro_modify` again; reader 2 arrives, sleeps
behind the waiting writer, returns from `pthread_cond_wait` without a broadcast
and takes the place of the batch; reader 1 wakes, finds no batch and sleeps
again; reader 2 leaves and writer 0 has its second turn. -/
theorem writer_overtaken :
    ((Sys.init 2).run [.modify 0, .modify 1] = some sys_writer_and_waiter ∧
      sys_writer_and_waiter.threads[1]? = some (Pc.modify_waiting false) ∧
      sys_writer_and_waiter.step (.leave_after_modifying 0) = some sys_handed_over ∧
      sys_handed_over.threads[1]? = some (Pc.modify_waiting true) ∧
      sys_handed_over.step (.modify 0) = some sys_overtaken ∧
      sys_overtaken.threads[1]? = some (Pc.modify_waiting true) ∧
      sys_overtaken.step (.wake 1) = some sys_writer_and_waiter ∧
      ∀ k, sys_writer_and_waiter.run
          (repeat_acts k [.leave_after_modifying 0, .modify 0, .wake 1]) =
        some sys_writer_and_waiter) ∧
    ((Sys.init 3).run [.modify 0, .visit 1] =
        some { synchronizer := { synchro_init with is_modifying := true,
                                                   accessing_waiting := 1 },
               threads := [.writing, .visit_waiting false, .outside] } ∧
      (Sys.init 3).run
          [.modify 0, .visit 1, .leave_after_modifying 0, .modify 0, .visit 2] =
        some sys_late_reader ∧
      sys_late_reader.threads[1]? = some (Pc.visit_waiting true) ∧
      sys_late_reader.step (.spurious_wake 2) = some sys_place_taken ∧
      sys_place_taken.threads[2]? = some Pc.reading ∧
      sys_place_taken.step (.wake 1) = some sys_reader_asleep_again ∧
      sys_reader_asleep_again.threads[1]? = some (Pc.visit_waiting false) ∧
      sys_reader_asleep_again.run [.leave_after_visiting 2, .wake 0] = some sys_second_turn ∧
      sys_second_turn.threads[0]? = some Pc.writing ∧
      sys_second_turn.threads[1]? = some (Pc.visit_waiting false)) :=
  ⟨⟨by decide, by decide, by decide, by decide, by decide, by decide, by decide,
      Sys.run_repeat _ _ (by decide)⟩,
    by decide, by decide, by decide, by decide, by decide, by decide, by decide, by decide,
    by decide, by decide⟩

/-! ### The batch of signalled readers -/

theorem countP_batch_map_signal (c : Option Cond) (l : List Pc) :
    (l.map (Pc.signal c)).countP Pc.is_batch =
      if c = some .can_access then l.countP Pc.is_visit_waiting else l.countP Pc.is_batch := by
  induction l with
  | nil => simp
  | cons x l ih =>
    simp only [List.map_cons, List.countP_cons, ih]
    by_cases hc : c = some .can_access
    · subst hc
      cases x <;> simp [Pc.signal, Pc.is_batch, Pc.is_visit_waiting]
    · simp only [hc, if_false]
      cases x with
      | visit_waiting b => cases b <;> simp [Pc.signal, Pc.is_batch, hc]
      | _ => simp [Pc.signal, Pc.is_batch]

theorem synchro_visit_arrive_wake (s : Synchro) :
    (synchro_visit_arrive s).1.how_many_to_wake = s.how_many_to_wake := by
  unfold synchro_visit_arrive; split <;> rfl

theorem synchro_modify_arrive_wake (s : Synchro) :
    (synchro_modify_arrive s).1.how_many_to_wake = s.how_many_to_wake := by
  unfold synchro_modify_arrive; split <;> rfl

theorem synchro_leave_after_visiting_wake (s : Synchro) :
    (synchro_leave_after_visiting s).how_many_to_wake = s.how_many_to_wake := by
  unfold synchro_leave_after_visiting; dsimp only; split <;> rfl

theorem synchro_leave_after_visiting_no_access (s : Synchro) :
    synchro_leave_after_visiting_broadcast s ≠ some .can_access := by
  unfold synchro_leave_after_visiting_broadcast
  dsimp only
  split
  · simp
  · split <;> simp

/-- A reader woken with a batch to admit is admitted and takes one of it. -/
theorem synchro_visit_wake_batch (s : Synchro) (h : s.how_many_to_wake > 0) :
    (synchro_visit_wake s).2 = true ∧
      (synchro_visit_wake s).1.how_many_to_wake = s.how_many_to_wake - 1 := by
  simp [synchro_visit_wake, h]

/-- A writer that leaves while readers wait makes all of them the batch. -/
theorem synchro_leave_after_modifying_batch (s : Synchro) :
    (s.accessing_waiting > 0 →
      synchro_leave_after_modifying_broadcast s = some .can_access ∧
      (synchro_leave_after_modifying s).how_many_to_wake = s.accessing_waiting) ∧
    (¬ s.accessing_waiting > 0 →
      synchro_leave_after_modifying_broadcast s ≠ some .can_access ∧
      (synchro_leave_after_modifying s).how_many_to_wake = s.how_many_to_wake) := by
  unfold synchro_leave_after_modifying_broadcast synchro_leave_after_modifying
  dsimp only
  refine ⟨fun h => by simp [h], fun h => ?_⟩
  simp only [h, if_false]
  split
  · simp
  · refine ⟨?_, rfl⟩
    split <;> simp

theorem Pc.is_batch_ite (c : Prop) [Decidable c] (x y : Pc) (hx : x.is_batch = false)
    (hy : y.is_batch = false) : (if c then x else y).is_batch = false := by
  split <;> assumption

theorem Sys.batch_init (n : Nat) : (Sys.init n).batch_inv := by
  unfold Sys.batch_inv Sys.init
  have : (List.replicate n Pc.outside).countP Pc.is_batch = 0 := by
    rw [List.countP_eq_zero]
    intro a ha
    rw [List.eq_of_mem_replicate ha]
    simp [Pc.is_batch]
  simp [this, synchro_init]

/-- A wake-up after a broadcast keeps the batch and `how_many_to_wake` equal. -/
theorem Sys.batch_wake (σ : Sys) (i : Nat) (pc : Pc) (σ1 : Sys) (hb : σ.batch_inv)
    (hpc : σ.threads[i]? = some pc) (hs : pc.signalled = true) (h : σ.wake i pc = some σ1) :
    σ1.batch_inv := by
  unfold Sys.batch_inv at hb ⊢
  cases pc with
  | visit_waiting b =>
    simp only [Pc.signalled] at hs
    subst hs
    simp only [Sys.wake, Option.some.injEq] at h
    subst h
    have hpos := countP_pos_of_get Pc.is_batch _ i _ hpc rfl
    obtain ⟨h1, h2⟩ := synchro_visit_wake_batch σ.synchronizer (by omega)
    simp only [Sys.section_end, h1, if_true, h2, countP_set_pc _ _ i _ _ hpc]
    simp [Pc.is_batch, hb]
  | modify_waiting b =>
    simp only [Sys.wake, Option.some.injEq] at h
    subst h
    simp only [Sys.section_end, countP_set_pc _ _ i _ _ hpc, synchro_modify_wake,
      synchro_modify_arrive_wake]
    rw [Pc.is_batch_ite _ _ _ (by rfl) (by rfl)]
    simp [Pc.is_batch, hb]
  | remove_waiting b =>
    simp only [Sys.wake, Option.some.injEq] at h
    subst h
    simp only [Sys.section_end, countP_set_pc _ _ i _ _ hpc, synchro_prepare_wake]
    rw [Pc.is_batch_ite _ _ _ (by rfl) (by rfl)]
    simp [Pc.is_batch, hb]
  | outside => simp [Sys.wake] at h
  | reading => simp [Sys.wake] at h
  | writing => simp [Sys.wake] at h
  | removing => simp [Sys.wake] at h

/-- Every step other than a spurious wake-up keeps the batch and
`how_many_to_wake` equal. -/
theorem Sys.batch_step (σ : Sys) (a : Act) (σ1 : Sys) (hinv : σ.inv) (hb : σ.batch_inv)
    (hns : a.is_spurious = false) (h : σ.step a = some σ1) : σ1.batch_inv := by
  have hb0 := hb
  unfold Sys.batch_inv at hb ⊢
  cases a with
  | visit i =>
    simp only [Sys.step] at h
    split at h
    · rename_i hpc
      simp only [Option.some.injEq] at h
      subst h
      simp only [Sys.section_end, countP_set_pc _ _ i _ _ hpc, synchro_visit_arrive_wake]
      cases (synchro_visit_arrive _).2 <;> simp [Pc.is_batch, hb]
    · simp at h
  | leave_after_visiting i =>
    simp only [Sys.step] at h
    split at h
    · rename_i hpc
      simp only [Option.some.injEq] at h
      subst h
      simp only [Sys.release, countP_batch_map_signal,
        synchro_leave_after_visiting_no_access, if_false, countP_set_pc _ _ i _ _ hpc,
        synchro_leave_after_visiting_wake]
      simp [Pc.is_batch, hb]
    · simp at h
  | change_from_visiting_to_mod i =>
    simp only [Sys.step] at h
    split at h
    · rename_i hpc
      simp only [Option.some.injEq] at h
      subst h
      simp only [Sys.section_end, countP_set_pc _ _ i _ _ hpc, synchro_change_arrive,
        synchro_modify_arrive_wake]
      rw [Pc.is_batch_ite _ _ _ (by rfl) (by rfl)]
      simp [Pc.is_batch, hb]
    · simp at h
  | modify i =>
    simp only [Sys.step] at h
    split at h
    · rename_i hpc
      simp only [Option.some.injEq] at h
      subst h
      simp only [Sys.section_end, countP_set_pc _ _ i _ _ hpc, synchro_modify_arrive_wake]
      rw [Pc.is_batch_ite _ _ _ (by rfl) (by rfl)]
      simp [Pc.is_batch, hb]
    · simp at h
  | leave_after_modifying i =>
    simp only [Sys.step] at h
    split at h
    · rename_i hpc
      simp only [Option.some.injEq] at h
      subst h
      have haw : σ.synchronizer.accessing_waiting = σ.threads.countP Pc.is_visit_waiting :=
        hinv.2.1
      obtain ⟨hyes, hno⟩ := synchro_leave_after_modifying_batch σ.synchronizer
      simp only [Sys.release, countP_batch_map_signal]
      by_cases hw : σ.synchronizer.accessing_waiting > 0
      · rw [if_pos (hyes hw).1, (hyes hw).2, countP_set_pc _ _ i _ _ hpc, haw]
        simp [Pc.is_visit_waiting]
      · rw [if_neg (hno hw).1, (hno hw).2, countP_set_pc _ _ i _ _ hpc]
        simp [Pc.is_batch, hb]
    · simp at h
  | prepare_for_being_removed i =>
    simp only [Sys.step] at h
    split at h
    · rename_i hpc
      simp only [Option.some.injEq] at h
      subst h
      simp only [Sys.section_end, countP_set_pc _ _ i _ _ hpc, synchro_prepare_arrive]
      rw [Pc.is_batch_ite _ _ _ (by rfl) (by rfl)]
      simp [Pc.is_batch, hb]
    · simp at h
  | leave_after_bad_remove i =>
    simp only [Sys.step] at h
    split at h
    · rename_i hpc
      simp only [Option.some.injEq] at h
      subst h
      simp only [Sys.release, map_signal_none, countP_set_pc _ _ i _ _ hpc,
        synchro_leave_after_bad_remove]
      simp [Pc.is_batch, hb]
    · simp at h
  | wake i =>
    simp only [Sys.step] at h
    split at h
    · rename_i pc hpc
      split at h
      · rename_i hs
        exact Sys.batch_wake σ i pc σ1 hb0 hpc hs h
      · simp at h
    · simp at h
  | spurious_wake i => simp [Act.is_spurious] at hns

/-- Without spurious wake-ups every reachable state has as many signalled
readers asleep as `how_many_to_wake` says. -/
theorem Reach.batch {σ : Sys} (h : Reach false σ) : σ.batch_inv := by
  induction h with
  | init n => exact Sys.batch_init n
  | step σ a σ1 hr hsp hstep ih =>
    refine Sys.batch_step σ a σ1 hr.inv ih ?_ hstep
    cases hs : a.is_spurious with
    | false => rfl
    | true => exact absurd (hsp hs) (by decide)

theorem synchro_visit_wake_le (s : Synchro) :
    (synchro_visit_wake s).1.how_many_to_wake ≤ s.how_many_to_wake := by
  unfold synchro_visit_wake
  dsimp only
  split
  · show s.how_many_to_wake - 1 ≤ s.how_many_to_wake
    omega
  · rw [synchro_visit_arrive_wake]

/-- Only `synchro_leave_after_modifying` raises `how_many_to_wake`. -/
theorem Sys.step_wake_le (σ : Sys) (a : Act) (σ1 : Sys) (h : σ.step a = some σ1) :
    (∃ j, a = .leave_after_modifying j) ∨
      σ1.synchronizer.how_many_to_wake ≤ σ.synchronizer.how_many_to_wake := by
  have hwake : ∀ i pc, σ.wake i pc = some σ1 →
      σ1.synchronizer.how_many_to_wake ≤ σ.synchronizer.how_many_to_wake := by
    intro i pc hw
    cases pc with
    | visit_waiting b =>
      simp only [Sys.wake, Option.some.injEq] at hw
      subst hw
      exact synchro_visit_wake_le _
    | modify_waiting b =>
      simp only [Sys.wake, Option.some.injEq] at hw
      subst hw
      simp [Sys.section_end, synchro_modify_wake, synchro_modify_arrive_wake]
    | remove_waiting b =>
      simp only [Sys.wake, Option.some.injEq] at hw
      subst hw
      simp [Sys.section_end, synchro_prepare_wake]
    | outside => simp [Sys.wake] at hw
    | reading => simp [Sys.wake] at hw
    | writing => simp [Sys.wake] at hw
    | removing => simp [Sys.wake] at hw
  cases a with
  | leave_after_modifying j => exact Or.inl ⟨j, rfl⟩
  | visit i =>
    right
    simp only [Sys.step] at h
    split at h
    · simp only [Option.some.injEq] at h
      subst h
      simp [Sys.section_end, synchro_visit_arrive_wake]
    · simp at h
  | leave_after_visiting i =>
    right
    simp only [Sys.step] at h
    split at h
    · simp only [Option.some.injEq] at h
      subst h
      simp [Sys.release, synchro_leave_after_visiting_wake]
    · simp at h
  | change_from_visiting_to_mod i =>
    right
    simp only [Sys.step] at h
    split at h
    · simp only [Option.some.injEq] at h
      subst h
      simp [Sys.section_end, synchro_change_arrive, synchro_modify_arrive_wake]
    · simp at h
  | modify i =>
    right
    simp only [Sys.step] at h
    split at h
    · simp only [Option.some.injEq] at h
      subst h
      simp [Sys.section_end, synchro_modify_arrive_wake]
    · simp at h
  | prepare_for_being_removed i =>
    right
    simp only [Sys.step] at h
    split at h
    · simp only [Option.some.injEq] at h
      subst h
      simp [Sys.section_end, synchro_prepare_arrive]
    · simp at h
  | leave_after_bad_remove i =>
    right
    simp only [Sys.step] at h
    split at h
    · simp only [Option.some.injEq] at h
      subst h
      simp [Sys.release, synchro_leave_after_bad_remove]
    · simp at h
  | wake i =>
    right
    simp only [Sys.step] at h
    split at h
    · rename_i pc hpc
      split at h
      · exact hwake i pc h
      · simp at h
    · simp at h
  | spurious_wake i =>
    right
    simp only [Sys.step] at h
    split at h
    · rename_i pc hpc
      exact hwake i pc h
    · simp at h

theorem getElem?_set_same (l : List Pc) (i : Nat) (a b : Pc) (h : l[i]? = some a) :
    (l.set i b)[i]? = some b := by
  obtain ⟨hi, _⟩ := List.getElem?_eq_some_iff.1 h
  simp [List.getElem?_set, hi]

theorem getElem?_set_other (l : List Pc) (i j : Nat) (b : Pc) (h : i ≠ j) :
    (l.set i b)[j]? = l[j]? := by
  simp [List.getElem?_set, h]

/-! ## The batch of readers -/

/-- With a batch to admit and no hand-over pending, every section of
`synchro_modify` and of `synchro_change_from_visiting_to_mod` ends in a wait. -/
theorem modify_blocked_by_batch (s : Synchro) (hh : s.how_many_to_wake > 0)
    (hmn : s.modify_now = false) :
    (synchro_modify_arrive s).2 = false ∧ (synchro_modify_wake s).2 = false ∧
      (synchro_change_arrive s).2 = false := by
  have hmust : ∀ c mw : Int, modify_must_wait
      { s with accessing_count := c, modifying_waiting := mw } = true := by
    intro c mw
    simp [modify_must_wait, hmn, hh]
  refine ⟨?_, ?_, ?_⟩
  · have := hmust s.accessing_count s.modifying_waiting
    simp only [synchro_modify_arrive]
    rw [if_pos this]
  · have := hmust s.accessing_count (s.modifying_waiting - 1)
    simp only [synchro_modify_wake, synchro_modify_arrive]
    rw [if_pos this]
  · have := hmust (s.accessing_count - 1) s.modifying_waiting
    simp only [synchro_change_arrive, synchro_modify_arrive]
    rw [if_pos this]

/-- C21: in every state reachable from the state of `synchro_init` by
mutex-protected sections of threads that pair their calls (with or without
spurious wake-ups), `0 <= how_many_to_wake <= accessing_waiting`, the latter
being the number of readers asleep in `synchro_visit`.  While
`how_many_to_wake > 0`, `is_modifying` and `modify_now` are false, no thread
holds the write permit and every section of `synchro_modify` or
`synchro_change_from_visiting_to_mod` ends in a wait.  A
`synchro_leave_after_modifying` leaves `how_many_to_wake` equal to the number
of readers asleep at that release. -/
theorem batch_bounded (sp : Bool) (σ : Sys) (h : Reach sp σ) :
    0 ≤ σ.synchronizer.how_many_to_wake ∧
    σ.synchronizer.how_many_to_wake ≤ σ.synchronizer.accessing_waiting ∧
    σ.synchronizer.accessing_waiting = σ.threads.countP Pc.is_visit_waiting ∧
    (σ.synchronizer.how_many_to_wake > 0 →
      σ.synchronizer.is_modifying = false ∧ σ.synchronizer.modify_now = false ∧
      (∀ j : Nat, σ.threads[j]? ≠ some Pc.writing) ∧
      (synchro_modify_arrive σ.synchronizer).2 = false ∧
      (synchro_modify_wake σ.synchronizer).2 = false ∧
      (synchro_change_arrive σ.synchronizer).2 = false) ∧
    (∀ (j : Nat) (σ1 : Sys), σ.step (.leave_after_modifying j) = some σ1 →
      σ1.synchronizer.how_many_to_wake = σ.threads.countP Pc.is_visit_waiting) := by
  have hinv := h.inv
  unfold Sys.inv Synchro.good at hinv
  obtain ⟨h1, h2, h3, h4, h5, h6, h7, h8, h9, h10, h11⟩ := hinv
  refine ⟨h7, h8, h2, fun hh => ?_, fun j σ1 hstep => ?_⟩
  · obtain ⟨him, hmn⟩ := h9 hh
    obtain ⟨b1, b2, b3⟩ := modify_blocked_by_batch _ hh hmn
    refine ⟨him, hmn, fun j hj => ?_, b1, b2, b3⟩
    have := countP_pos_of_get Pc.is_writing _ j _ hj rfl
    rw [him] at h6
    simp only [Bool.false_eq_true, if_false] at h6
    omega
  · simp only [Sys.step] at hstep
    split at hstep
    · rename_i hj
      simp only [Option.some.injEq] at hstep
      subst hstep
      have hw := countP_pos_of_get Pc.is_writing _ j _ hj rfl
      have him : σ.synchronizer.is_modifying = true := by
        by_contra hne
        rw [if_neg hne] at h6
        omega
      have hz : σ.synchronizer.how_many_to_wake = 0 := by
        by_contra hne
        have := (h9 (by omega)).1
        rw [him] at this
        simp at this
      obtain ⟨hyes, hno⟩ := synchro_leave_after_modifying_batch σ.synchronizer
      by_cases haw : σ.synchronizer.accessing_waiting > 0
      · simp only [Sys.release, (hyes haw).2, h2]
      · simp only [Sys.release, (hno haw).2]
        omega
    · simp at hstep

/-- C21 at a concrete state: a batch of one reader is pending with a writer
asleep; the state is reachable and no writer is admitted in it. -/
theorem batch_bounded_witness :
    Reach false sys_batch_pending ∧
    sys_batch_pending.synchronizer.how_many_to_wake ≤
      sys_batch_pending.synchronizer.accessing_waiting ∧
    (synchro_modify_wake sys_batch_pending.synchronizer).2 = false :=
  have hr : Reach false sys_batch_pending :=
    Reach.of_run false [.modify 0, .visit 1, .modify 2, .leave_after_modifying 0]
      (Sys.init 3) _ (Reach.init 3) (by decide) (by decide)
  ⟨hr, (batch_bounded false _ hr).2.1,
    ((batch_bounded false _ hr).2.2.2.1 (by decide)).2.2.2.2.1⟩

/-! ## The order of the checks of `tree_move` -/

/-- C22: in a tree nobody is inside, for valid paths other than `/` where the
names of the source do not begin the names of the target: `tree_move` returns
ENOENT when the parent path of the target does not resolve; otherwise it
returns EEXIST when the target is in the tree, whether or not the source or
its parent is; and when it returns ENOENT although the parent of the target
is there, the target is not in the tree and the source is not either. -/
theorem target_checked_first (t : Tree) (source target : Str) (ht : t.idle = true)
    (hvs : is_path_valid source = true) (hvt : is_path_valid target = true)
    (hs : source ≠ ['/']) (hg : target ≠ ['/'])
    (hp : ¬ path_names source <+: path_names target) :
    (t.get (parent_names target) = none → tree_move t source target = some (ENOENT, t)) ∧
    ((t.get (parent_names target)).isSome = true →
      (t.get (path_names target)).isSome = true →
      tree_move t source target = some (EEXIST, t)) ∧
    (∀ t1, tree_move t source target = some (ENOENT, t1) →
      (t.get (parent_names target)).isSome = true →
      t.get (path_names target) = none ∧ t.get (path_names source) = none) := by
  obtain ⟨ss, sn, rfl, hss⟩ := path_names_ne_nil_of_ne_root source hvs hs
  obtain ⟨ts, tn, rfl, hts⟩ := path_names_ne_nil_of_ne_root target hvt hg
  rw [path_names_snoc ss sn hss, path_names_snoc ts tn hts] at hp
  rw [parent_names_snoc ts tn hts, path_names_snoc ts tn hts, path_names_snoc ss sn hss]
  have hm := tree_move_eval t ss ts sn tn hss hts ht hp
  have hlast : ∀ (p : Loc) (k : Str), t.get (p ++ [k]) =
      (t.get p).bind (fun n => hmap_get n.children k) := by
    intro p k
    rw [Tree.get_append]
    cases t.get p with
    | none => rfl
    | some n =>
      simp only [Option.some_bind, Tree.get_cons]
      cases hmap_get n.children k <;> simp
  have hE : ENOENT ≠ (0 : Int) := by decide
  have hE2 : ENOENT ≠ EEXIST := by decide
  unfold move_outcome at hm
  refine ⟨fun hD => ?_, fun hD hT => ?_, fun t1 hr hD => ?_⟩
  · rw [hD] at hm
    exact hm
  · obtain ⟨dest, hdest⟩ := Option.isSome_iff_exists.1 hD
    rw [hlast, hdest] at hT
    rw [hdest] at hm
    simp only [Option.some_bind] at hT
    simpa [hT] using hm
  · obtain ⟨dest, hdest⟩ := Option.isSome_iff_exists.1 hD
    rw [hdest] at hm
    simp only at hm
    split at hm
    · rw [hm] at hr
      simp only [Option.some.injEq, Prod.mk.injEq] at hr
      exact absurd hr.1.symm hE2
    · rename_i hfree
      have hfree1 : hmap_get dest.children tn = none := by
        cases hf : hmap_get dest.children tn with
        | none => rfl
        | some v => simp [hf] at hfree
      refine ⟨by rw [hlast, hdest]; exact hfree1, ?_⟩
      rw [hlast]
      unfold source_outcome at hm
      split at hm
      · rename_i hS
        rw [hS]; rfl
      · rename_i parent hS
        rw [hS]
        split at hm
        · rename_i hc
          exact hc
        · exact absurd (hm.1 ENOENT t1 hr) hE

/-- C22 at a concrete input: in the tree with `/a/` alone, moving the missing
`/x/y/` to the existing `/a/` returns EEXIST. -/
theorem target_checked_first_witness :
    (tree_a.idle = true ∧ is_path_valid ['/', 'x', '/', 'y', '/'] = true ∧
      is_path_valid ['/', 'a', '/'] = true ∧
      ¬ path_names ['/', 'x', '/', 'y', '/'] <+: path_names ['/', 'a', '/'] ∧
      tree_a.get (parent_names ['/', 'x', '/', 'y', '/']) = none) ∧
    tree_move tree_a ['/', 'x', '/', 'y', '/'] ['/', 'a', '/'] = some (EEXIST, tree_a) :=
  ⟨⟨by decide, by decide, by decide, by decide, by decide⟩,
    (target_checked_first tree_a ['/', 'x', '/', 'y', '/'] ['/', 'a', '/'] (by decide)
      (by decide) (by decide) (by decide) (by decide) (by decide)).2.1 (by decide)
      (by decide)⟩

/-! ## Names and keys -/

theorem hmap_size_remove (m : HashMap) (k : Str) (v : Tree) (hw : m.wf = true)
    (h : hmap_get m k = some v) : hmap_size (hmap_remove m k) + 1 = hmap_size m := by
  induction m using HashMap.ind with
  | hnil => simp [hmap_get] at h
  | hcons k2 v2 r ih =>
    simp only [HashMap.wf, Bool.and_eq_true, decide_eq_true_eq] at hw
    by_cases hk : k = k2
    · subst hk
      simp only [hmap_remove, if_true, hmap_size,
        hmap_remove_absent r k (hmap_get_above r k hw.2 hw.1.2)]
    · simp only [hmap_get, hk, if_false] at h
      have := ih hw.2 h
      simp only [hmap_remove, hk, if_false, hmap_size]
      omega

/-- C23: in every tree that calls of `tree_create`, `tree_remove` and
`tree_move` make from the tree of `tree_new`, every node that a children map
stores has the key it is stored under as its name (inside the buffer of the
name), and every children map has each key once.  So the `hmap_remove` by
`child->name` in `tree_move` is the `hmap_remove` by the name the child was
looked up under: afterwards that name has no entry, every other key has the
entry it had, and the map has one entry less; and a `tree_move` that returns 0
has taken from the parent of the source the entry of the source name and no
other. -/
theorem names_are_keys (t : Tree) (h : Built t) :
    (∀ (p : Loc) (n : Tree) (k : Str) (child : Tree), t.get p = some n →
      hmap_get n.children k = some child →
      ∃ b, child.name = some b ∧ b.str = k ∧ k.length + 1 ≤ b.size) ∧
    (∀ (p : Loc) (n : Tree), t.get p = some n → (hmap_keys n.children).Nodup) ∧
    (∀ (p : Loc) (n : Tree) (k : Str) (child : Tree) (b : Buf), t.get p = some n →
      hmap_get n.children k = some child → child.name = some b →
      hmap_remove n.children b.str = hmap_remove n.children k ∧
      hmap_get (hmap_remove n.children b.str) k = none ∧
      (∀ k1, k1 ≠ k →
        hmap_get (hmap_remove n.children b.str) k1 = hmap_get n.children k1) ∧
      hmap_size (hmap_remove n.children b.str) + 1 = hmap_size n.children) ∧
    (∀ (source target : Str) (t1 : Tree), tree_move t source target = some (0, t1) →
      ∃ ss sn ts tn parent child,
        source = path_of (ss ++ [sn]) ∧ target = path_of (ts ++ [tn]) ∧
        t.get ss = some parent ∧ hmap_get parent.children sn = some child ∧
        t1 = Tree.modify (move_insert tn child) ts (Tree.modify (move_remove sn) ss t)) := by
  have hw := h.idle_wf.2
  refine ⟨fun p n k child hn hc => Tree.child_named p n child k hw hn hc,
    fun p n hn => hmap_keys_nodup _ (Tree.wf_children (Tree.wf_get p n hw hn)),
    fun p n k child b hn hc hb => ?_, fun source target t1 hm => ?_⟩
  swap
  · obtain ⟨ss, sn, ts, tn, _, parent, child, _, e1, e2, _, _, _, _, _, hS, hc, _, _, _, _,
      e3⟩ := tree_move_success t source target t1 h.idle_wf.1 hw hm
    exact ⟨ss, sn, ts, tn, parent, child, e1, e2, hS, hc, e3⟩
  obtain ⟨b1, hb1, hstr, _⟩ := Tree.child_named p n child k hw hn hc
  rw [hb] at hb1
  simp only [Option.some.injEq] at hb1
  subst hb1
  rw [hstr]
  exact ⟨rfl, hmap_get_remove_same _ k, fun k1 hk1 => hmap_get_remove_ne _ k k1 hk1,
    hmap_size_remove _ k child (Tree.wf_children (Tree.wf_get p n hw hn)) hc⟩

/-- C23 at a concrete input: the tree that `tree_create` of `/a/` makes from
the tree of `tree_new`; the node stored under `a` has the name `a`. -/
theorem names_are_keys_witness :
    Built tree_a ∧
    ∃ b, (Tree.mk (some (strdup_exact ['a'])) synchro_init .nil).name = some b ∧
      b.str = ['a'] ∧ ['a'].length + 1 ≤ b.size :=
  have hb : Built tree_a :=
    Built.create tree_new ['/', 'a', '/'] 0 tree_a Built.new (by decide)
  ⟨hb, (names_are_keys tree_a hb).1 [] tree_a ['a'] _ rfl (by decide)⟩

/-! ## What the batch guarantees -/

/-- A thread that holds a read permit right after its wake-up was asleep in
`synchro_visit` and has been admitted by that section. -/
theorem Sys.wake_reads (σ : Sys) (i : Nat) (pc : Pc) (σ1 : Sys)
    (hpc : σ.threads[i]? = some pc) (hw : σ.wake i pc = some σ1)
    (hread : σ1.threads[i]? = some Pc.reading) :
    (synchro_visit_wake σ.synchronizer).2 = true ∧
      σ1.synchronizer = (synchro_visit_wake σ.synchronizer).1 := by
  cases pc with
  | visit_waiting b =>
    simp only [Sys.wake, Option.some.injEq] at hw
    subst hw
    simp only [Sys.section_end, getElem?_set_same _ i _ _ hpc] at hread
    refine ⟨?_, rfl⟩
    cases hr : (synchro_visit_wake σ.synchronizer).2 with
    | true => rfl
    | false => simp [hr] at hread
  | modify_waiting b =>
    simp only [Sys.wake, Option.some.injEq] at hw
    subst hw
    simp only [Sys.section_end, getElem?_set_same _ i _ _ hpc] at hread
    split at hread <;> simp at hread
  | remove_waiting b =>
    simp only [Sys.wake, Option.some.injEq] at hw
    subst hw
    simp only [Sys.section_end, getElem?_set_same _ i _ _ hpc] at hread
    split at hread <;> simp at hread
  | outside => simp [Sys.wake] at hw
  | reading => simp [Sys.wake] at hw
  | writing => simp [Sys.wake] at hw
  | removing => simp [Sys.wake] at hw

/-- With writers asleep a woken reader is admitted only with a batch to admit. -/
theorem synchro_visit_wake_behind_writer (s : Synchro) (hmw : s.modifying_waiting ≠ 0)
    (h : (synchro_visit_wake s).2 = true) : s.how_many_to_wake > 0 := by
  by_contra hh
  have hmust : visit_must_wait { s with accessing_waiting := s.accessing_waiting - 1 } =
      true := by
    simp [visit_must_wait, hmw]
  simp only [synchro_visit_wake, hh, if_false, synchro_visit_arrive] at h
  rw [if_pos hmust] at h
  simp at h

/-- C17 as amended, for threads that pair their calls, in every reachable state
of runs with or without spurious wake-ups unless said otherwise.  Readers: a
`synchro_leave_after_modifying` signals every reader asleep in `synchro_visit`
and leaves `how_many_to_wake` equal to their number; while
`how_many_to_wake > 0` no thread holds the write permit, no section of
`synchro_modify` or `synchro_change_from_visiting_to_mod` admits a writer, and
any reader that wakes is admitted and takes one from `how_many_to_wake`; in
runs without spurious wake-ups the signalled readers asleep are as many as
`how_many_to_wake`, so the next section of each of them admits it, and every
reader admitted at a wake-up has taken one from `how_many_to_wake`.  Writers:
while a writer sleeps in `synchro_modify` an arriving reader is not admitted,
and a woken reader is admitted only by taking one from `how_many_to_wake`,
which is at most the number of readers asleep and is raised only by
`synchro_leave_after_modifying`, to that number. -/
theorem batch_fairness (sp : Bool) (σ : Sys) (h : Reach sp σ) :
    (∀ (j : Nat) (σ1 : Sys), σ.step (.leave_after_modifying j) = some σ1 →
      σ1.synchronizer.how_many_to_wake = σ.threads.countP Pc.is_visit_waiting ∧
      ∀ (i : Nat) (b : Bool), σ.threads[i]? = some (Pc.visit_waiting b) →
        σ1.threads[i]? = some (Pc.visit_waiting true)) ∧
    (σ.synchronizer.how_many_to_wake > 0 →
      (∀ j : Nat, σ.threads[j]? ≠ some Pc.writing) ∧
      (synchro_modify_arrive σ.synchronizer).2 = false ∧
      (synchro_modify_wake σ.synchronizer).2 = false ∧
      (synchro_change_arrive σ.synchronizer).2 = false ∧
      ∀ (i : Nat) (b : Bool), σ.threads[i]? = some (Pc.visit_waiting b) →
        ∃ σ1, σ.step (.spurious_wake i) = some σ1 ∧ σ1.threads[i]? = some Pc.reading ∧
          σ1.synchronizer.how_many_to_wake = σ.synchronizer.how_many_to_wake - 1) ∧
    (sp = false →
      (σ.threads.countP Pc.is_batch : Int) = σ.synchronizer.how_many_to_wake ∧
      (∀ i : Nat, σ.threads[i]? = some (Pc.visit_waiting true) →
        σ.synchronizer.how_many_to_wake > 0 ∧
        ∃ σ1, σ.step (.wake i) = some σ1 ∧ σ1.threads[i]? = some Pc.reading) ∧
      (∀ (i : Nat) (σ1 : Sys), σ.step (.wake i) = some σ1 →
        σ1.threads[i]? = some Pc.reading →
        0 < σ.synchronizer.how_many_to_wake ∧
        σ1.synchronizer.how_many_to_wake = σ.synchronizer.how_many_to_wake - 1)) ∧
    (∀ (j : Nat) (b : Bool), σ.threads[j]? = some (Pc.modify_waiting b) →
      (∀ (i : Nat) (σ1 : Sys), σ.step (.visit i) = some σ1 →
        σ1.threads[i]? = some (Pc.visit_waiting false)) ∧
      (∀ (i : Nat) (σ1 : Sys),
        σ.step (.wake i) = some σ1 ∨ σ.step (.spurious_wake i) = some σ1 →
        σ1.threads[i]? = some Pc.reading →
        0 < σ.synchronizer.how_many_to_wake ∧
        σ1.synchronizer.how_many_to_wake = σ.synchronizer.how_many_to_wake - 1)) ∧
    σ.synchronizer.how_many_to_wake ≤ σ.threads.countP Pc.is_visit_waiting ∧
    (∀ (a : Act) (σ1 : Sys), σ.step a = some σ1 →
      σ.synchronizer.how_many_to_wake < σ1.synchronizer.how_many_to_wake →
      (∃ j, a = .leave_after_modifying j) ∧
      σ1.synchronizer.how_many_to_wake = σ.threads.countP Pc.is_visit_waiting) := by
  have hinv := h.inv
  unfold Sys.inv Synchro.good at hinv
  obtain ⟨h1, h2, h3, h4, h5, h6, h7, h8, h9, h10, h11⟩ := hinv
  have hrel : ∀ (j : Nat) (σ1 : Sys), σ.step (.leave_after_modifying j) = some σ1 →
      σ1.synchronizer.how_many_to_wake = σ.threads.countP Pc.is_visit_waiting := by
    intro j σ1 hstep
    simp only [Sys.step] at hstep
    split at hstep
    · rename_i hj
      simp only [Option.some.injEq] at hstep
      subst hstep
      have hw := countP_pos_of_get Pc.is_writing _ j _ hj rfl
      have him : σ.synchronizer.is_modifying = true := by
        by_contra hne
        rw [if_neg hne] at h6
        omega
      have hz : σ.synchronizer.how_many_to_wake = 0 := by
        by_contra hne
        have := (h9 (by omega)).1
        rw [him] at this
        simp at this
      obtain ⟨hyes, hno⟩ := synchro_leave_after_modifying_batch σ.synchronizer
      by_cases haw : σ.synchronizer.accessing_waiting > 0
      · simp only [Sys.release, (hyes haw).2, h2]
      · simp only [Sys.release, (hno haw).2]
        omega
    · simp at hstep
  have hwoken : ∀ (i : Nat) (σ1 : Sys),
      σ.step (.wake i) = some σ1 ∨ σ.step (.spurious_wake i) = some σ1 →
      σ1.threads[i]? = some Pc.reading →
      (synchro_visit_wake σ.synchronizer).2 = true ∧
        σ1.synchronizer = (synchro_visit_wake σ.synchronizer).1 := by
    intro i σ1 hstep hread
    rcases hstep with hstep | hstep
    · simp only [Sys.step] at hstep
      split at hstep
      · rename_i pc hpc
        split at hstep
        · exact Sys.wake_reads σ i pc σ1 hpc hstep hread
        · simp at hstep
      · simp at hstep
    · simp only [Sys.step] at hstep
      split at hstep
      · rename_i pc hpc
        exact Sys.wake_reads σ i pc σ1 hpc hstep hread
      · simp at hstep
  refine ⟨?_, ?_, ?_, ?_, by omega, ?_⟩
  · intro j σ1 hstep
    refine ⟨hrel j σ1 hstep, fun i b hi => ?_⟩
    simp only [Sys.step] at hstep
    split at hstep
    · rename_i hj
      simp only [Option.some.injEq] at hstep
      subst hstep
      have hne : j ≠ i := by
        rintro rfl
        rw [hi] at hj
        simp at hj
      have haw : σ.synchronizer.accessing_waiting > 0 := by
        have := countP_pos_of_get Pc.is_visit_waiting _ i _ hi rfl
        omega
      simp only [Sys.release, List.getElem?_map, getElem?_set_other _ j i _ hne, hi,
        Option.map_some', ((synchro_leave_after_modifying_batch σ.synchronizer).1 haw).1]
      simp [Pc.signal]
    · simp at hstep
  · intro hh
    obtain ⟨him, hmn⟩ := h9 hh
    obtain ⟨b1, b2, b3⟩ := modify_blocked_by_batch _ hh hmn
    refine ⟨fun j hj => ?_, b1, b2, b3, fun i b hi => ?_⟩
    · have := countP_pos_of_get Pc.is_writing _ j _ hj rfl
      rw [him] at h6
      simp only [Bool.false_eq_true, if_false] at h6
      omega
    · refine ⟨σ.section_end i (synchro_visit_wake σ.synchronizer) (Pc.visit_waiting false)
        Pc.reading, by simp only [Sys.step, hi, Sys.wake], ?_, ?_⟩
      · simp only [Sys.section_end, (synchro_visit_wake_batch _ hh).1, if_true]
        exact getElem?_set_same _ i _ _ hi
      · exact (synchro_visit_wake_batch _ hh).2
  · intro hsp
    subst hsp
    have hbat := h.batch
    unfold Sys.batch_inv at hbat
    have hsig : ∀ i : Nat, σ.threads[i]? = some (Pc.visit_waiting true) →
        σ.synchronizer.how_many_to_wake > 0 := by
      intro i hi
      have := countP_pos_of_get Pc.is_batch _ i _ hi rfl
      omega
    refine ⟨hbat, fun i hi => ⟨hsig i hi, ?_⟩, fun i σ1 hstep hread => ?_⟩
    · have hh := hsig i hi
      refine ⟨σ.section_end i (synchro_visit_wake σ.synchronizer) (Pc.visit_waiting false)
        Pc.reading, by simp only [Sys.step, hi, Pc.signalled, if_true, Sys.wake], ?_⟩
      simp only [Sys.section_end, (synchro_visit_wake_batch _ hh).1, if_true]
      exact getElem?_set_same _ i _ _ hi
    · have hpos : σ.synchronizer.how_many_to_wake > 0 := by
        simp only [Sys.step] at hstep
        split at hstep
        · rename_i pc hpc
          split at hstep
          · rename_i hs
            cases pc with
            | visit_waiting b =>
              simp only [Pc.signalled] at hs
              subst hs
              exact hsig i hpc
            | modify_waiting b =>
              simp only [Sys.wake, Option.some.injEq] at hstep
              subst hstep
              simp only [Sys.section_end, getElem?_set_same _ i _ _ hpc] at hread
              split at hread <;> simp at hread
            | remove_waiting b =>
              simp only [Sys.wake, Option.some.injEq] at hstep
              subst hstep
              simp only [Sys.section_end, getElem?_set_same _ i _ _ hpc] at hread
              split at hread <;> simp at hread
            | outside => simp [Sys.wake] at hstep
            | reading => simp [Sys.wake] at hstep
            | writing => simp [Sys.wake] at hstep
            | removing => simp [Sys.wake] at hstep
          · simp at hstep
        · simp at hstep
      obtain ⟨_, e⟩ := hwoken i σ1 (Or.inl hstep) hread
      exact ⟨hpos, by rw [e]; exact (synchro_visit_wake_batch _ hpos).2⟩
  · intro j b hj
    have hmw : σ.synchronizer.modifying_waiting ≠ 0 := by
      have := countP_pos_of_get Pc.is_modify_waiting _ j _ hj rfl
      omega
    refine ⟨fun i σ1 hstep => ?_, fun i σ1 hstep hread => ?_⟩
    · have hmust : visit_must_wait σ.synchronizer = true := by
        simp [visit_must_wait, hmw]
      simp only [Sys.step] at hstep
      split at hstep
      · rename_i hi
        simp only [Option.some.injEq] at hstep
        subst hstep
        simp only [Sys.section_end, synchro_visit_arrive, if_pos hmust, Bool.false_eq_true,
          if_false]
        exact getElem?_set_same _ i _ _ hi
      · simp at hstep
    · obtain ⟨hadm, e⟩ := hwoken i σ1 hstep hread
      have hpos := synchro_visit_wake_behind_writer _ hmw hadm
      exact ⟨hpos, by rw [e]; exact (synchro_visit_wake_batch _ hpos).2⟩
  · intro a σ1 hstep hlt
    rcases Sys.step_wake_le σ a σ1 hstep with ⟨j, rfl⟩ | hle
    · exact ⟨⟨j, rfl⟩, hrel j σ1 hstep⟩
    · omega

/-- C17 as amended, at a concrete state: a batch of one reader is pending with a
writer asleep; the next section of the reader admits it. -/
theorem batch_fairness_witness :
    (Reach false sys_batch_pending ∧ false = false ∧
      sys_batch_pending.threads[1]? = some (Pc.visit_waiting true)) ∧
    ∃ σ1 : Sys, sys_batch_pending.step (.wake 1) = some σ1 ∧
      σ1.threads[1]? = some Pc.reading :=
  have hr : Reach false sys_batch_pending :=
    Reach.of_run false [.modify 0, .visit 1, .modify 2, .leave_after_modifying 0]
      (Sys.init 3) _ (Reach.init 3) (by decide) (by decide)
  ⟨⟨hr, rfl, by decide⟩,
    (((batch_fairness false _ hr).2.2.1 rfl).2.1 1 (by decide)).2⟩

/-! ## `tree_move_with strcpy` is `tree_move` -/

end DirTree
